import Mathlib

/-!
Verification of the x-rss-generator fetch-with-fallback-and-sanitize pipeline.

The repository's core logic lives in `src/lib/nitter-fetcher.ts`,
`src/lib/rss-generator.ts`, the RSSHub fetcher (`rsshub-fetcher.ts`) and the
route handler `src/app/api/rss/route.ts`.  The definitions below are a shallow
embedding of those functions: strings are modelled as `List Char` (with
`String` wrappers), JavaScript regular-expression rewrites are modelled by
explicit left-to-right scanners that mirror the deterministic behaviour of the
concrete regexes used by the source, and fallible code returns `Except`.
-/

namespace XRss

/-! ### Character classes (ASCII, as used by the source regexes) -/

/-- JavaScript regex whitespace relevant here (ASCII part of `\s`). -/
def isSpaceChar (c : Char) : Bool :=
  c = ' ' || c = '\t' || c = '\n' || c = '\r' || c = '\x0b' || c = '\x0c'

/-- Characters allowed in XML tag and attribute names after the first letter
(regex class `[a-zA-Z0-9_:]`). -/
def isNameTailChar (c : Char) : Bool :=
  c.isAlphanum || c = '_' || c = ':'

/-- Hexadecimal digit (regex class `[0-9a-fA-F]`). -/
def isHexChar (c : Char) : Bool :=
  c.isDigit || ('a' ≤ c && c ≤ 'f') || ('A' ≤ c && c ≤ 'F')

/-! ### Generic list-of-characters helpers -/

/-- `subAt pat cs` : does `pat` occur as a contiguous sublist of `cs`?
Models JavaScript `String.prototype.includes`. -/
def containsL (pat : List Char) : List Char → Bool
  | [] => pat.isEmpty
  | c :: rest => pat.isPrefixOf (c :: rest) || containsL pat rest

/-- ASCII lower-casing of a character list; models `toLowerCase` on the ASCII
strings the source compares against. -/
def lowerL (cs : List Char) : List Char := cs.map Char.toLower

/-- Trim leading and trailing whitespace; models `String.prototype.trim`. -/
def trimL (cs : List Char) : List Char :=
  ((cs.dropWhile isSpaceChar).reverse.dropWhile isSpaceChar).reverse

/-- Case-insensitive prefix test (the source lower-cases the subject and
compares with an ASCII-lower-case literal). -/
def ciPrefix (pat cs : List Char) : Bool :=
  pat.isPrefixOf (lowerL cs)

/-! ### Response Classifier: `isValidRssXml` (nitter-fetcher.ts / rsshub-fetcher.ts)

```js
const isValidRssXml = (content) => {
  const trimmed = content.trim();
  return (
    (trimmed.startsWith("<?xml") || trimmed.startsWith("<rss")) &&
    !trimmed.toLowerCase().startsWith("<!doctype html") &&
    !trimmed.toLowerCase().startsWith("<html") &&
    trimmed.includes("<rss") &&
    trimmed.includes("</rss>")
  );
};
```
-/

def isValidRssXmlL (content : List Char) : Bool :=
  let trimmed := trimL content
  ("<?xml".data.isPrefixOf trimmed || "<rss".data.isPrefixOf trimmed) &&
  !("<!doctype html".data.isPrefixOf (lowerL trimmed)) &&
  !("<html".data.isPrefixOf (lowerL trimmed)) &&
  containsL "<rss".data trimmed &&
  containsL "</rss>".data trimmed

def isValidRssXml (content : String) : Bool := isValidRssXmlL content.data

/-! ### Per-instance fetch classification

`fetchFromInstance` in `nitter-fetcher.ts`: after the HTTP exchange the
outcome is a pure function of the status, status text, content-type header
and body.  `response.ok` is `200 ≤ status ≤ 299`.  On success the nitter
variant returns the raw body. -/

/-- Does the declared content-type look like XML/RSS?  Mirrors
`isXmlContentType` in both fetchers. -/
def isXmlContentType (contentType : String) : Bool :=
  containsL "xml".data contentType.data ||
  containsL "rss".data contentType.data ||
  containsL "application/rss+xml".data contentType.data ||
  containsL "text/xml".data contentType.data

/-- Content-type branch of the invalid-body error path: `text/html`,
`text/plain`, or a content-type that indicates neither XML nor RSS. -/
def badContentType (contentType : String) : Bool :=
  containsL "text/html".data contentType.data ||
  containsL "text/plain".data contentType.data ||
  !(isXmlContentType contentType)

/-- Classification performed by `fetchFromInstance` in `nitter-fetcher.ts`
(lines 74–126): throw on non-2xx status; if the body fails `isValidRssXml`,
throw (with a content-type-citing message when the content-type looks wrong);
otherwise return the raw body. -/
def nitterFetchFromInstance (inst : String) (status : Nat)
    (statusText contentType body : String) : Except String String :=
  if ¬ (200 ≤ status ∧ status ≤ 299) then
    .error ("Nitter instance " ++ inst ++ " returned " ++ toString status ++
      ": " ++ statusText)
  else if ¬ isValidRssXml body then
    if badContentType contentType then
      .error ("Nitter instance " ++ inst ++
        " returned HTML instead of RSS (Content-Type: " ++ contentType ++
        "). The instance may be blocked or unavailable.")
    else
      .error ("Nitter instance " ++ inst ++
        " returned invalid RSS/XML content. The response may be an error page.")
  else
    .ok body

/-- The alternate fetcher variant embedded in `rss-generator.ts`
(lines 99–121): it checks only `response.ok` and returns the raw body with no
content validation at all. -/
def rssGenFetchFromInstance (inst : String) (status : Nat)
    (statusText body : String) : Except String String :=
  if 200 ≤ status ∧ status ≤ 299 then
    .ok body
  else
    .error ("Nitter instance " ++ inst ++ " returned " ++ toString status ++
      ": " ++ statusText)

/-! ### Fallback Fetcher loop (`fetchNitterRss` / `fetchRssHubRss`)

```js
const errors = [];
for (const instance of INSTANCES) {
  try { return await fetchFromInstance(instance, options); }
  catch (error) { errors.push(`${instance}: ${error.message}`); }
}
throw new Error(aggregate(errors));
```
The per-instance attempt is abstracted as `attempt : String → Except String
String`; `agg` builds the aggregate error message from the ordered reasons. -/

def fallbackGo (attempt : String → Except String String)
    (agg : List String → String) (acc : List String) :
    List String → Except String String
  | [] => .error (agg acc)
  | inst :: rest =>
    match attempt inst with
    | .ok body => .ok body
    | .error msg => fallbackGo attempt agg (acc ++ [inst ++ ": " ++ msg]) rest

/-- Aggregate error message of `fetchNitterRss` (nitter-fetcher.ts 152–156). -/
def nitterAggregate (errs : List String) : String :=
  "All Nitter instances failed:\n" ++ String.intercalate "\n" errs ++
  "\n\nPlease try again later or check if Nitter instances are available."

/-- Aggregate error message of `fetchRssHubRss` (rsshub-fetcher.ts). -/
def rssHubAggregate (errs : List String) : String :=
  "All RSSHub instances failed:\n" ++ String.intercalate "\n" errs ++
  "\n\nPlease try again later or consider self-hosting RSSHub for better reliability.\nSee: https://docs.rsshub.app/install/"

/-- `fetchNitterRss`: try each instance in order, first success wins,
otherwise aggregate every per-instance reason in attempted order. -/
def fetchNitterRss (attempt : String → Except String String)
    (instances : List String) : Except String String :=
  fallbackGo attempt nitterAggregate [] instances

/-- `fetchRssHubRss`: same loop with the RSSHub aggregate message. -/
def fetchRssHubRss (attempt : String → Except String String)
    (instances : List String) : Except String String :=
  fallbackGo attempt rssHubAggregate [] instances

/-! ### URL Builder (`buildNitterUrl` / `buildRssHubUrl`)

`encodeURIComponent` leaves unreserved characters (`A–Z a–z 0–9 - _ . ! ~ * '
( )`) unchanged and percent-encodes the UTF-8 bytes of every other character
with upper-case hex digits. -/

/-- Characters `encodeURIComponent` does not escape. -/
def isUriUnreserved (c : Char) : Bool :=
  c.isAlphanum || c = '-' || c = '_' || c = '.' || c = '!' || c = '~' ||
  c = '*' || c = '\'' || c = '(' || c = ')'

/-- Upper-case hexadecimal digit for `n < 16`. -/
def hexDigitU (n : Nat) : Char :=
  if n < 10 then Char.ofNat ('0'.toNat + n) else Char.ofNat ('A'.toNat + (n - 10))

/-- UTF-8 bytes of a character (code points are never surrogates in `Char`). -/
def utf8Bytes (c : Char) : List Nat :=
  let n := c.toNat
  if n < 0x80 then [n]
  else if n < 0x800 then [0xC0 + n / 64, 0x80 + n % 64]
  else if n < 0x10000 then
    [0xE0 + n / 4096, 0x80 + (n / 64) % 64, 0x80 + n % 64]
  else
    [0xF0 + n / 262144, 0x80 + (n / 4096) % 64, 0x80 + (n / 64) % 64, 0x80 + n % 64]

/-- Percent-encoding of one character, as `encodeURIComponent` does it. -/
def pctEncodeChar (c : Char) : List Char :=
  if isUriUnreserved c then [c]
  else (utf8Bytes c).flatMap (fun b => ['%', hexDigitU (b / 16), hexDigitU (b % 16)])

def encodeURIComponentL (cs : List Char) : List Char := cs.flatMap pctEncodeChar

def encodeURIComponent (s : String) : String := ⟨encodeURIComponentL s.data⟩

/-- The four feed types of `FetchNitterOptions` / `FetchRssHubOptions`
(`"user" | "search" | "hashtag" | "list"`; the nitter variant has no list). -/
inductive FeedKind | user | search | hashtag | list
deriving DecidableEq

/-- Option bag shared by both URL builders (`username?`, `query?`, `hashtag?`,
`listId?`, `excludeReplies?`, `excludeRetweets?`).  Absent JavaScript fields
are `none`; the boolean flags default to `false` when absent, matching the
truthiness tests in the source. -/
structure FetchOptions where
  type : FeedKind
  username : Option String := none
  query : Option String := none
  hashtag : Option String := none
  listId : Option String := none
  excludeReplies : Bool := false
  excludeRetweets : Bool := false

/-- JavaScript truthiness of an optional string field (`!options.username`):
absent or empty means falsy. -/
def strPresent (o : Option String) : Bool :=
  match o with
  | none => false
  | some s => !s.isEmpty

/-- `buildNitterUrl` (nitter-fetcher.ts 25–53). -/
def buildNitterUrl (inst : String) (options : FetchOptions) :
    Except String String :=
  match options.type with
  | .user =>
    if ¬ strPresent options.username then
      .error "Username is required for user timeline"
    else
      .ok (inst ++ "/" ++ encodeURIComponent (options.username.getD "") ++ "/rss")
  | .search =>
    if ¬ strPresent options.query then
      .error "Query is required for search"
    else
      .ok (inst ++ "/search/rss?q=" ++ encodeURIComponent (options.query.getD ""))
  | .hashtag =>
    if ¬ strPresent options.hashtag then
      .error "Hashtag is required"
    else
      .ok (inst ++ "/search/rss?q=" ++
        encodeURIComponent ("#" ++ options.hashtag.getD ""))
  | .list => .error "Unsupported feed type: list"

/-- `buildRssHubUrl` (rsshub-fetcher.ts 351–399). -/
def buildRssHubUrl (inst : String) (options : FetchOptions) :
    Except String String :=
  match options.type with
  | .user =>
    if ¬ strPresent options.username then
      .error "Username is required for user timeline"
    else
      let base := inst ++ "/twitter/user/" ++
        encodeURIComponent (options.username.getD "")
      let base := if options.excludeReplies then base ++ "/excludeReplies" else base
      let base := if options.excludeRetweets then base ++ "/excludeRetweets" else base
      .ok base
  | .search =>
    if ¬ strPresent options.query then
      .error "Query is required for search"
    else
      .ok (inst ++ "/twitter/keyword/" ++
        encodeURIComponent (options.query.getD ""))
  | .hashtag =>
    if ¬ strPresent options.hashtag then
      .error "Hashtag is required"
    else
      .ok (inst ++ "/twitter/keyword/" ++
        encodeURIComponent ("#" ++ options.hashtag.getD ""))
  | .list =>
    if ¬ strPresent options.listId then
      .error "List ID is required"
    else
      .ok (inst ++ "/twitter/list/" ++ encodeURIComponent (options.listId.getD ""))

/-! ### XML Sanitizer, repair 1: ampersand escaping (rsshub-fetcher.ts 519–522)

```js
fixed = fixed.replace(
  /&(?!(?:amp|lt|gt|quot|apos|#\d+|#x[0-9a-fA-F]+|[a-zA-Z][a-zA-Z0-9]{1,31});)/g,
  "&amp;");
```
The named alternatives `amp|lt|gt|quot|apos` are all instances of
`[a-zA-Z][a-zA-Z0-9]{1,31}`, so the lookahead succeeds exactly when the text
after the `&` starts with `#` + digits + `;`, `#x` + hex digits + `;`, or a
letter + 1–31 alphanumerics + `;` (the quantifiers are greedy over character
classes that exclude `;`, so the runs are the maximal ones). -/

/-- Length of the maximal leading run satisfying `p`. -/
def runLen (p : Char → Bool) (cs : List Char) : Nat := (cs.takeWhile p).length

/-- Is the head of the list a `;`? -/
def headIsSemi : List Char → Bool
  | [] => false
  | c :: _ => c = ';'

/-- Does the text after a `&` begin with a character-reference tail, i.e. does
the negative lookahead of the ampersand-escaping regex match here? -/
def entityAhead (cs : List Char) : Bool :=
  match cs with
  | [] => false
  | c :: rest =>
    if c = '#' then
      let d := runLen Char.isDigit rest
      if 1 ≤ d && headIsSemi (rest.drop d) then true
      else
        match rest with
        | [] => false
        | x :: rest2 =>
          if x = 'x' then
            let h := runLen isHexChar rest2
            1 ≤ h && headIsSemi (rest2.drop h)
          else false
    else
      c.isAlpha &&
        (let r := runLen Char.isAlphanum rest
         1 ≤ r && r ≤ 31 && headIsSemi (rest.drop r))

/-- The ampersand-escaping rewrite: replace every `&` whose tail is not a
character reference by `&amp;`.  The regex matches a single `&` (the lookahead
consumes nothing) and `replace` resumes scanning after it, so the rewrite
processes the original text left to right, one character at a time. -/
def escAmpL : List Char → List Char
  | [] => []
  | c :: rest =>
    if c = '&' then
      if entityAhead rest then '&' :: escAmpL rest
      else '&' :: 'a' :: 'm' :: 'p' :: ';' :: escAmpL rest
    else c :: escAmpL rest

/-! ### XML Sanitizer, repair 2: duplicate-attribute removal
(`removeDuplicateAttributes`, rsshub-fetcher.ts 405–449)

The outer regex `<([a-zA-Z][a-zA-Z0-9_:]*)([^>]*?)(\/?)>` matches from a `<`
followed by a letter up to the first subsequent `>`; the optional `/` before
the `>` is split off the attribute text.  The inner regex
`([a-zA-Z][a-zA-Z0-9_:]*)\s*=\s*(["])((?:(?!\2).)*)\2|([a-zA-Z][a-zA-Z0-9_:]*)\s*=\s*([^\s>]+)`
is scanned over the attribute text; `.` does not match a newline, so a quoted
value is a maximal run of characters other than the delimiter and newlines.
All runs below are maximal runs of character classes that exclude the
terminator, so the regex backtracking is deterministic. -/

/-- Split at the first `>`: returns the text before it and the text after. -/
def splitAtGt : List Char → Option (List Char × List Char)
  | [] => none
  | c :: rest =>
    if c = '>' then some ([], rest)
    else
      match splitAtGt rest with
      | none => none
      | some (inner, after) => some (c :: inner, after)

/-- Parse an attribute/tag name `[a-zA-Z][a-zA-Z0-9_:]*` (maximal). -/
def parseAttrName (cs : List Char) : Option (List Char × List Char) :=
  match cs with
  | [] => none
  | c :: rest =>
    if c.isAlpha then
      some (c :: rest.takeWhile isNameTailChar, rest.dropWhile isNameTailChar)
    else none

/-- Characters allowed inside a quoted value with delimiter `q`
(`(?:(?!\2).)*`, where `.` excludes line terminators). -/
def isQuotedValChar (q c : Char) : Bool :=
  c ≠ q && c ≠ '\n' && c ≠ '\r'

/-- Characters allowed in an unquoted value (`[^\s>]`). -/
def isUnquotedValChar (c : Char) : Bool :=
  !(isSpaceChar c) && c ≠ '>'

/-- Quoted alternative of the attribute regex:
`name \s* = \s* (["']) value \2`.  Returns name, value and the rest. -/
def tryQuoted (cs : List Char) : Option (List Char × List Char × List Char) :=
  match parseAttrName cs with
  | none => none
  | some (name, rest) =>
    match rest.dropWhile isSpaceChar with
    | [] => none
    | e :: rest2 =>
      if e = '=' then
        match rest2.dropWhile isSpaceChar with
        | [] => none
        | q :: rest4 =>
          if q = '"' || q = '\'' then
            let v := rest4.takeWhile (isQuotedValChar q)
            match rest4.dropWhile (isQuotedValChar q) with
            | [] => none
            | q2 :: rest6 => if q2 = q then some (name, v, rest6) else none
          else none
      else none

/-- Unquoted alternative of the attribute regex: `name \s* = \s* [^\s>]+`. -/
def tryUnquoted (cs : List Char) : Option (List Char × List Char × List Char) :=
  match parseAttrName cs with
  | none => none
  | some (name, rest) =>
    match rest.dropWhile isSpaceChar with
    | [] => none
    | e :: rest2 =>
      if e = '=' then
        let rest3 := rest2.dropWhile isSpaceChar
        let v := rest3.takeWhile isUnquotedValChar
        if v.isEmpty then none
        else some (name, v, rest3.dropWhile isUnquotedValChar)
      else none

/-- The `attrRegex.exec` loop: find matches left to right (quoted alternative
first), collecting `(name, value)` pairs in order. -/
def parseAttrsGo : Nat → List Char → List (List Char × List Char)
  | 0, _ => []
  | _ + 1, [] => []
  | fuel + 1, c :: rest =>
    match tryQuoted (c :: rest) with
    | some (n, v, rest') => (n, v) :: parseAttrsGo fuel rest'
    | none =>
      match tryUnquoted (c :: rest) with
      | some (n, v, rest') => (n, v) :: parseAttrsGo fuel rest'
      | none => parseAttrsGo fuel rest

def parseAttrs (cs : List Char) : List (List Char × List Char) :=
  parseAttrsGo cs.length cs

/-- `Map` keeps the first occurrence of each attribute name, in insertion
order. -/
def dedupeGo (seen : List (List Char)) :
    List (List Char × List Char) → List (List Char × List Char)
  | [] => []
  | (n, v) :: rest =>
    if n ∈ seen then dedupeGo seen rest
    else (n, v) :: dedupeGo (n :: seen) rest

def dedupeKeepFirst (ps : List (List Char × List Char)) :
    List (List Char × List Char) :=
  dedupeGo [] ps

/-- `value.replace(/"/g, "&quot;")`. -/
def escQuoteL : List Char → List Char
  | [] => []
  | c :: rest =>
    if c = '"' then '&' :: 'q' :: 'u' :: 'o' :: 't' :: ';' :: escQuoteL rest
    else c :: escQuoteL rest

/-- `` `${name}="${escapedValue}"` ``. -/
def rebuildAttr (p : List Char × List Char) : List Char :=
  p.1 ++ '=' :: '"' :: (escQuoteL p.2 ++ ['"'])

/-- Unique attributes joined with single spaces (`.join(" ")`). -/
def rebuildAttrs : List (List Char × List Char) → List Char
  | [] => []
  | [p] => rebuildAttr p
  | p :: ps => rebuildAttr p ++ ' ' :: rebuildAttrs ps

/-- The replacement callback of `removeDuplicateAttributes`, applied to the
text strictly between `<` and the first `>` (whose head is a letter). -/
def processTag (inner : List Char) : List Char :=
  match inner with
  | [] => []
  | c :: rest =>
    let tagName := c :: rest.takeWhile isNameTailChar
    let afterName := rest.dropWhile isNameTailChar
    let selfClosing := afterName.getLast? = some '/'
    let attrText := if selfClosing then afterName.dropLast else afterName
    let slash : List Char := if selfClosing then ['/'] else []
    if attrText.all isSpaceChar then inner
    else
      match dedupeKeepFirst (parseAttrs attrText) with
      | [] => tagName ++ slash
      | p :: ps => tagName ++ ' ' :: (rebuildAttrs (p :: ps) ++ slash)

/-- The global `replace` over the whole document: scan left to right, rewrite
each `<letter …>` span via `processTag`, copy everything else. -/
def rdaGo : Nat → List Char → List Char
  | 0, cs => cs
  | _ + 1, [] => []
  | fuel + 1, c :: rest =>
    if c = '<' then
      match rest with
      | [] => ['<']
      | d :: _ =>
        if d.isAlpha then
          match splitAtGt rest with
          | none => '<' :: rest
          | some (inner, after) =>
            '<' :: (processTag inner ++ '>' :: rdaGo fuel after)
        else '<' :: rdaGo fuel rest
    else c :: rdaGo fuel rest

def rdaL (cs : List Char) : List Char := rdaGo cs.length cs

def removeDuplicateAttributes (s : String) : String := ⟨rdaL s.data⟩

/-! ### XML Sanitizer, repair 3: author tags (`fixAuthorTags`, 456–470)

```js
return xml.replace(/<author>([^<@]+)<\/author>/gi, (match, name) => {
  const cleanName = name.trim();
  if (cleanName && !cleanName.includes("@"))
    return `<author>noreply@rsshub.app (${cleanName})</author>`;
  return match;
});
```
`[^<@]+` is greedy over a class excluding `<`, so the content run is the
maximal run of non-`<`/non-`@` characters, and the closing literal must follow
immediately. -/

def isAuthorContentChar (c : Char) : Bool := c ≠ '<' && c ≠ '@'

def fixAuthGo : Nat → List Char → List Char
  | 0, cs => cs
  | _ + 1, [] => []
  | fuel + 1, c :: rest =>
    if ciPrefix "<author>".data (c :: rest) then
      let afterOpen := (c :: rest).drop 8
      let content := afterOpen.takeWhile isAuthorContentChar
      let afterContent := afterOpen.dropWhile isAuthorContentChar
      if !content.isEmpty && ciPrefix "</author>".data afterContent then
        let matched := (c :: rest).take (8 + content.length + 9)
        let afterMatch := afterContent.drop 9
        let clean := trimL content
        if !clean.isEmpty && !(clean.contains '@') then
          ("<author>noreply@rsshub.app (".data ++ clean ++ ")</author>".data)
            ++ fixAuthGo fuel afterMatch
        else matched ++ fixAuthGo fuel afterMatch
      else c :: fixAuthGo fuel rest
    else c :: fixAuthGo fuel rest

def fixAuthorTagsL (cs : List Char) : List Char := fixAuthGo cs.length cs

def fixAuthorTags (s : String) : String := ⟨fixAuthorTagsL s.data⟩

/-! ### XML Sanitizer: CDATA segmentation and the full pipeline
(`sanitizeRssXml`, rsshub-fetcher.ts 478–533)

The regex `<!\[CDATA\[[\s\S]*?\]\]>` matches from the earliest `<![CDATA[`
that is followed by a `]]>`, up to the first such `]]>`.  The document is
split into alternating non-CDATA/CDATA segments; the ampersand and
duplicate-attribute repairs run on the non-CDATA segments only; the
reassembled document then runs through `fixAuthorTags` in full. -/

/-- First occurrence of `pat`: text before it, and text after it. -/
def findSub (pat : List Char) : List Char → Option (List Char × List Char)
  | [] => none
  | c :: rest =>
    if pat.isPrefixOf (c :: rest) then some ([], (c :: rest).drop pat.length)
    else
      match findSub pat rest with
      | none => none
      | some (pre, post) => some (c :: pre, post)

/-- Repairs 1 and 2 as applied to one non-CDATA segment. -/
def fixXmlPart (cs : List Char) : List Char := rdaL (escAmpL cs)

/-- Split off CDATA sections and repair the segments between them. -/
def sanitizeParts : Nat → List Char → List Char
  | 0, cs => fixXmlPart cs
  | fuel + 1, cs =>
    match findSub "<![CDATA[".data cs with
    | none => fixXmlPart cs
    | some (pre, afterOpen) =>
      match findSub "]]>".data afterOpen with
      | none => fixXmlPart cs
      | some (content, after) =>
        fixXmlPart pre ++ "<![CDATA[".data ++ content ++ "]]>".data ++
          sanitizeParts fuel after

def sanitizeRssXmlL (cs : List Char) : List Char :=
  fixAuthorTagsL (sanitizeParts cs.length cs)

def sanitizeRssXml (s : String) : String := ⟨sanitizeRssXmlL s.data⟩

/-- Classification performed by `fetchFromInstance` in `rsshub-fetcher.ts`
(554–609): identical to the nitter variant except for the messages and that
the successful body is sanitized before being returned. -/
def rssHubFetchFromInstance (inst : String) (status : Nat)
    (statusText contentType body : String) : Except String String :=
  if ¬ (200 ≤ status ∧ status ≤ 299) then
    .error ("RSSHub instance " ++ inst ++ " returned " ++ toString status ++
      ": " ++ statusText)
  else if ¬ isValidRssXml body then
    if badContentType contentType then
      .error ("RSSHub instance " ++ inst ++
        " returned HTML instead of RSS (Content-Type: " ++ contentType ++
        "). The instance may be blocked or unavailable.")
    else
      .error ("RSSHub instance " ++ inst ++
        " returned invalid RSS/XML content. The response may be an error page.")
  else
    .ok (sanitizeRssXml body)

/-! ## Basic scanning lemmas -/

theorem takeWhile_all_append {p : Char → Bool} {xs : List Char} (ys : List Char)
    (h : ∀ x ∈ xs, p x = true) :
    (xs ++ ys).takeWhile p = xs ++ ys.takeWhile p := by
  induction xs with
  | nil => simp
  | cons x xs ih =>
    have hx : p x = true := h x (by simp)
    simp only [List.cons_append, List.takeWhile_cons, hx, if_true]
    rw [ih (fun y hy => h y (by simp [hy]))]

theorem dropWhile_all_append {p : Char → Bool} {xs : List Char} (ys : List Char)
    (h : ∀ x ∈ xs, p x = true) :
    (xs ++ ys).dropWhile p = ys.dropWhile p := by
  induction xs with
  | nil => simp
  | cons x xs ih =>
    have hx : p x = true := h x (by simp)
    simp only [List.cons_append, List.dropWhile_cons, hx, if_true]
    exact ih (fun y hy => h y (by simp [hy]))

theorem isPrefixOf_append_self (xs ys : List Char) :
    xs.isPrefixOf (xs ++ ys) = true := by
  rw [List.isPrefixOf_iff_prefix]; exact List.prefix_append xs ys

/-! ## C1: the Fallback Fetcher loop -/

theorem fallbackGo_error_of_all_fail (attempt : String → Except String String)
    (agg : List String → String) (r : String → String) :
    ∀ (l acc : List String), (∀ i ∈ l, attempt i = .error (r i)) →
      fallbackGo attempt agg acc l =
        .error (agg (acc ++ l.map fun i => i ++ ": " ++ r i)) := by
  intro l
  induction l with
  | nil => intro acc _; simp [fallbackGo]
  | cons i rest ih =>
    intro acc h
    have hi : attempt i = .error (r i) := h i (by simp)
    simp only [fallbackGo, hi]
    rw [ih (acc ++ [i ++ ": " ++ r i]) (fun j hj => h j (by simp [hj]))]
    simp

theorem fallbackGo_ok_of_prefix_fail (attempt : String → Except String String)
    (agg : List String → String) (last b : String) :
    ∀ (init acc : List String), (∀ i ∈ init, ∃ m, attempt i = .error m) →
      attempt last = .ok b →
      fallbackGo attempt agg acc (init ++ [last]) = .ok b := by
  intro init
  induction init with
  | nil => intro acc _ hok; simp [fallbackGo, hok]
  | cons i rest ih =>
    intro acc h hok
    obtain ⟨m, hm⟩ := h i (by simp)
    simp only [List.cons_append, fallbackGo, hm]
    exact ih _ (fun j hj => h j (by simp [hj])) hok

/-- C1.  The Fallback Fetcher tries the mirror list strictly in order, one
attempt per instance.  If every instance in `front` fails and the final
instance succeeds with body `b`, the fetcher returns `b` (the error path is
not taken); if every instance of a list `l` fails, it throws a single
aggregate error whose message joins exactly `l.length` per-instance reasons
(`instance ++ ": " ++ reason`) in attempted order. -/
theorem fallbackFetcher_spec (attempt : String → Except String String)
    (r : String → String) (front l : List String) (last b : String)
    (hfail : ∀ i ∈ front, attempt i = .error (r i))
    (hok : attempt last = .ok b)
    (hall : ∀ i ∈ l, attempt i = .error (r i)) :
    fetchNitterRss attempt (front ++ [last]) = .ok b ∧
    fetchRssHubRss attempt (front ++ [last]) = .ok b ∧
    fetchNitterRss attempt l =
      .error (nitterAggregate (l.map fun i => i ++ ": " ++ r i)) ∧
    fetchRssHubRss attempt l =
      .error (rssHubAggregate (l.map fun i => i ++ ": " ++ r i)) ∧
    (l.map fun i => i ++ ": " ++ r i).length = l.length := by
  refine ⟨?_, ?_, ?_, ?_, by simp⟩
  · exact fallbackGo_ok_of_prefix_fail attempt nitterAggregate last b front []
      (fun i hi => ⟨r i, hfail i hi⟩) hok
  · exact fallbackGo_ok_of_prefix_fail attempt rssHubAggregate last b front []
      (fun i hi => ⟨r i, hfail i hi⟩) hok
  · simpa [fetchNitterRss] using
      fallbackGo_error_of_all_fail attempt nitterAggregate r l [] hall
  · simpa [fetchRssHubRss] using
      fallbackGo_error_of_all_fail attempt rssHubAggregate r l [] hall

/-- Witness for C1: two failing mirrors followed by a succeeding third mirror
return the third's body; the same two failing mirrors alone produce the
aggregate message listing both reasons in order. -/
theorem fallbackFetcher_spec_witness :
    fetchNitterRss
      (fun i => if i = "m3" then .ok "BODY" else .error ("down " ++ i))
      ["m1", "m2", "m3"] = .ok "BODY" ∧
    fetchNitterRss
      (fun i => if i = "m3" then .ok "BODY" else .error ("down " ++ i))
      ["m1", "m2"] =
      .error (nitterAggregate ["m1: down m1", "m2: down m2"]) := by
  have h := fallbackFetcher_spec
    (fun i => if i = "m3" then .ok "BODY" else .error ("down " ++ i))
    (fun i => "down " ++ i) ["m1", "m2"] ["m1", "m2"] "m3" "BODY"
    (by intro i hi; fin_cases hi <;> rfl) (by rfl)
    (by intro i hi; fin_cases hi <;> rfl)
  exact ⟨h.1, by simpa using h.2.2.1⟩

/-! ## C2: the content-type cross-check -/

/-- C2 counterexample.  The claim says a 2xx response whose content-type
indicates HTML is classified Invalid "even when the body passes all
structural checks".  In the code the content-type is only consulted inside
the `!isValidRssXml(rawXml)` branch, so a structurally valid body is accepted
— here with `Content-Type: text/html` — and the per-instance fetch does not
throw. -/
theorem contentType_counterexample :
    nitterFetchFromInstance "https://nitter.net" 200 "OK" "text/html"
      "<rss version=\"2.0\"><channel></channel></rss>" =
    .ok "<rss version=\"2.0\"><channel></channel></rss>" := rfl

/-- C2 amended.  For a 2xx response: when the body fails the structural check
and the content-type indicates HTML or plain text or neither XML nor RSS, the
per-instance fetch throws with the content-type-citing reason; but when the
body passes all structural checks the response is accepted and the
content-type is never consulted. -/
theorem contentType_check_only_on_invalid_body (inst : String) (status : Nat)
    (statusText contentType body : String)
    (hst : 200 ≤ status ∧ status ≤ 299) :
    (isValidRssXml body = false → badContentType contentType = true →
      nitterFetchFromInstance inst status statusText contentType body =
        .error ("Nitter instance " ++ inst ++
          " returned HTML instead of RSS (Content-Type: " ++ contentType ++
          "). The instance may be blocked or unavailable.")) ∧
    (isValidRssXml body = true →
      nitterFetchFromInstance inst status statusText contentType body = .ok body) := by
  constructor
  · intro hv hct
    simp [nitterFetchFromInstance, hst, hv, hct]
  · intro hv
    simp [nitterFetchFromInstance, hst, hv]

/-- Witness for the amended C2: a 2xx HTML error page with `text/html`
content-type is rejected with the content-type-citing message, and a valid
feed body is accepted even with `text/html` content-type. -/
theorem contentType_check_only_on_invalid_body_witness :
    nitterFetchFromInstance "n" 200 "OK" "text/html" "<html>oops</html>" =
      .error ("Nitter instance " ++ "n" ++
        " returned HTML instead of RSS (Content-Type: " ++ "text/html" ++
        "). The instance may be blocked or unavailable.") ∧
    nitterFetchFromInstance "n" 200 "OK" "text/html"
      "<rss version=\"2.0\"><channel></channel></rss>" =
      .ok "<rss version=\"2.0\"><channel></channel></rss>" := by
  constructor
  · exact (contentType_check_only_on_invalid_body "n" 200 "OK" "text/html"
      "<html>oops</html>" (by decide)).1 (by decide) (by decide)
  · exact (contentType_check_only_on_invalid_body "n" 200 "OK" "text/html"
      "<rss version=\"2.0\"><channel></channel></rss>" (by decide)).2 (by decide)

/-! ## C4: the structural body checks -/

/-- C4.  The Classifier trims the body; it is Invalid unless the trimmed body
starts with an XML declaration or an `<rss` root tag, Invalid if it starts
with an HTML doctype or `<html` tag case-insensitively, and Invalid unless it
contains both an `<rss` opening and a `</rss>` closing marker.  In particular
for the body `"<!DOCTYPE html><html>...</html>"` the per-instance fetch
throws regardless of the HTTP status. -/
theorem isValidRssXml_spec :
    (∀ body : String,
      "<?xml".data.isPrefixOf (trimL body.data) = false →
      "<rss".data.isPrefixOf (trimL body.data) = false →
      isValidRssXml body = false) ∧
    (∀ body : String,
      ("<!doctype html".data.isPrefixOf (lowerL (trimL body.data)) = true ∨
       "<html".data.isPrefixOf (lowerL (trimL body.data)) = true) →
      isValidRssXml body = false) ∧
    (∀ body : String,
      (containsL "<rss".data (trimL body.data) = false ∨
       containsL "</rss>".data (trimL body.data) = false) →
      isValidRssXml body = false) ∧
    (∀ (status : Nat) (inst statusText contentType : String),
      ∃ m, nitterFetchFromInstance inst status statusText contentType
        "<!DOCTYPE html><html>...</html>" = .error m) := by
  refine ⟨?_, ?_, ?_, ?_⟩
  · intro body h1 h2
    simp [isValidRssXml, isValidRssXmlL, h1, h2]
  · intro body h
    rcases h with h | h <;> simp [isValidRssXml, isValidRssXmlL, h]
  · intro body h
    rcases h with h | h <;> simp [isValidRssXml, isValidRssXmlL, h]
  · intro status inst statusText contentType
    by_cases hst : 200 ≤ status ∧ status ≤ 299
    · have hv : isValidRssXml "<!DOCTYPE html><html>...</html>" = false := by decide
      by_cases hct : badContentType contentType = true
      · exact ⟨"Nitter instance " ++ inst ++
          " returned HTML instead of RSS (Content-Type: " ++ contentType ++
          "). The instance may be blocked or unavailable.",
          by simp [nitterFetchFromInstance, hst, hv, hct]⟩
      · exact ⟨"Nitter instance " ++ inst ++
          " returned invalid RSS/XML content. The response may be an error page.",
          by simp [nitterFetchFromInstance, hst, hv, hct]⟩
    · exact ⟨"Nitter instance " ++ inst ++ " returned " ++ toString status ++
        ": " ++ statusText, by simp [nitterFetchFromInstance, hst]⟩

/-- Witness for C4, instantiating each conjunct at a concrete body. -/
theorem isValidRssXml_spec_witness :
    isValidRssXml "hello" = false ∧
    isValidRssXml "json response" = false ∧
    isValidRssXml "<?xml version=\"1.0\"?><rss>open only" = false ∧
    (∃ m, nitterFetchFromInstance "n" 502 "Bad Gateway" "text/html"
      "<!DOCTYPE html><html>...</html>" = .error m) := by
  refine ⟨?_, ?_, ?_, ?_⟩
  · exact isValidRssXml_spec.1 "hello" (by decide) (by decide)
  · exact isValidRssXml_spec.1 "json response" (by decide) (by decide)
  · exact isValidRssXml_spec.2.2.1 "<?xml version=\"1.0\"?><rss>open only"
      (Or.inr (by decide))
  · exact isValidRssXml_spec.2.2.2 502 "n" "Bad Gateway" "text/html"

/-! ## C7: the author-tag rewrite -/

theorem mem_of_mem_trimL {c : Char} {xs : List Char} (h : c ∈ trimL xs) : c ∈ xs := by
  unfold trimL at h
  rw [List.mem_reverse] at h
  have h2 := (List.dropWhile_sublist _).mem h
  rw [List.mem_reverse] at h2
  exact (List.dropWhile_sublist _).mem h2

theorem fixAuthGo_single (k : Nat) (name : List Char)
    (hgood : ∀ c ∈ name, isAuthorContentChar c = true)
    (hne : trimL name ≠ []) :
    fixAuthGo (k + 1) ("<author>".data ++ name ++ "</author>".data) =
      "<author>noreply@rsshub.app (".data ++ trimL name ++ ")</author>".data := by
  have hname : name ≠ [] := by
    intro h; rw [h] at hne; exact hne rfl
  have hshape : "<author>".data ++ name ++ "</author>".data =
      '<' :: ("author>".data ++ (name ++ "</author>".data)) := by
    rw [show "<author>".data = '<' :: "author>".data from rfl]
    simp
  have hshape2 : '<' :: ("author>".data ++ (name ++ "</author>".data)) =
      "<author>".data ++ (name ++ "</author>".data) := by
    rw [show "<author>".data = '<' :: "author>".data from rfl]
    simp
  rw [hshape]
  simp only [fixAuthGo]
  have hcp : ciPrefix "<author>".data
      ('<' :: ("author>".data ++ (name ++ "</author>".data))) = true := by
    unfold ciPrefix lowerL
    rw [hshape2, List.map_append]
    rw [show List.map Char.toLower "<author>".data = "<author>".data from by decide]
    exact isPrefixOf_append_self _ _
  rw [hcp]
  simp only [if_true]
  have hdrop : List.drop 8 ('<' :: ("author>".data ++ (name ++ "</author>".data))) =
      name ++ "</author>".data := by
    rw [hshape2]
    exact List.drop_left "<author>".data _
  rw [hdrop]
  have htake : List.takeWhile isAuthorContentChar (name ++ "</author>".data) = name := by
    rw [takeWhile_all_append _ hgood]
    rw [show List.takeWhile isAuthorContentChar "</author>".data = [] from by decide]
    simp
  have hdw : List.dropWhile isAuthorContentChar (name ++ "</author>".data) =
      "</author>".data := by
    rw [dropWhile_all_append _ hgood]
    decide
  rw [htake, hdw]
  have hc1 : name.isEmpty = false := by
    cases name with
    | nil => exact absurd rfl hname
    | cons a l => rfl
  have hc2 : ciPrefix "</author>".data "</author>".data = true := by decide
  rw [hc1, hc2]
  simp only [Bool.not_false, Bool.and_true, if_true]
  have hc3 : (trimL name).isEmpty = false := by
    cases h : trimL name with
    | nil => exact absurd h hne
    | cons a l => rfl
  have hcontains : (trimL name).contains '@' = false := by
    by_contra h
    rw [Bool.not_eq_false, List.contains_iff_exists_mem_beq] at h
    obtain ⟨a, ha, hab⟩ := h
    have ha' : '@' = a := by simpa using hab
    subst ha'
    have := hgood '@' (mem_of_mem_trimL ha)
    simp [isAuthorContentChar] at this
  rw [hc3, hcontains]
  simp only [Bool.not_false, Bool.and_self, if_true]
  rw [show List.drop 9 "</author>".data = [] from by decide]
  rw [show ∀ m, fixAuthGo m ([] : List Char) = [] from fun m => by cases m <;> rfl]
  simp

/-- C7.  An `<author>` element whose content contains no `@` and no `<` and
has a nonempty trimmed display name is rewritten to
`<author>noreply@rsshub.app (Name)</author>` (the placeholder-email form,
matching `<author>[^<@]+@[^<]+ \(Name\)</author>`); the concrete inputs
`<author>Jane Doe</author>` and `<author>jane@x.com</author>` show the
rewritten and the left-unchanged case. -/
theorem authorTag_rewrite_spec (name : List Char)
    (hgood : ∀ c ∈ name, isAuthorContentChar c = true)
    (hne : trimL name ≠ []) :
    fixAuthorTagsL ("<author>".data ++ name ++ "</author>".data) =
      "<author>noreply@rsshub.app (".data ++ trimL name ++ ")</author>".data ∧
    fixAuthorTags "<author>Jane Doe</author>" =
      "<author>noreply@rsshub.app (Jane Doe)</author>" ∧
    fixAuthorTags "<author>jane@x.com</author>" = "<author>jane@x.com</author>" := by
  refine ⟨?_, rfl, rfl⟩
  unfold fixAuthorTagsL
  rw [show ("<author>".data ++ name ++ "</author>".data).length =
    (name.length + 16) + 1 from by simp [List.length_append]]
  exact fixAuthGo_single (name.length + 16) name hgood hne

/-- Witness for C7 at the display name `"Jane Doe"`. -/
theorem authorTag_rewrite_spec_witness :
    fixAuthorTagsL ("<author>".data ++ "Jane Doe".data ++ "</author>".data) =
      "<author>noreply@rsshub.app (".data ++ trimL "Jane Doe".data ++
        ")</author>".data :=
  (authorTag_rewrite_spec "Jane Doe".data (by decide) (by decide)).1

/-! ## C8: the URL Builder -/

theorem pctEncodeChar_unreserved {c : Char} (h : isUriUnreserved c = true) :
    pctEncodeChar c = [c] := by simp [pctEncodeChar, h]

theorem encodeURIComponentL_id {cs : List Char}
    (h : ∀ c ∈ cs, isUriUnreserved c = true) : encodeURIComponentL cs = cs := by
  induction cs with
  | nil => rfl
  | cons c rest ih =>
    simp only [encodeURIComponentL, List.flatMap_cons] at *
    rw [pctEncodeChar_unreserved (h c (by simp))]
    simp only [List.singleton_append, List.cons.injEq, true_and]
    exact ih (fun x hx => h x (by simp [hx]))

theorem handleChar_unreserved {c : Char}
    (h : c.isAlphanum = true ∨ c = '_' ∨ c = '-') : isUriUnreserved c = true := by
  rcases h with h | h | h <;> simp [isUriUnreserved, h]

/-- `encodeURIComponent` is the identity on the `[A-Za-z0-9_-]+` fields the
Request Validator accepts: a valid identifying field is embedded in the URL
unchanged, hence percent-encoded exactly once with no double-encoding. -/
theorem enc_handle_id {s : String}
    (h : ∀ c ∈ s.data, c.isAlphanum = true ∨ c = '_' ∨ c = '-') :
    encodeURIComponent s = s := by
  apply String.ext
  show encodeURIComponentL s.data = s.data
  exact encodeURIComponentL_id (fun c hc => handleChar_unreserved (h c hc))

/-- Prepending `#` to a valid hashtag encodes as a single `%23` (a double
encoding would produce `%2523`). -/
theorem enc_hash_prepend {s : String}
    (h : ∀ c ∈ s.data, c.isAlphanum = true ∨ c = '_' ∨ c = '-') :
    encodeURIComponent ("#" ++ s) = "%23" ++ s := by
  apply String.ext
  show encodeURIComponentL ("#" ++ s).data = ("%23" ++ s).data
  rw [String.data_append, String.data_append]
  rw [show "#".data = ['#'] from rfl]
  simp only [encodeURIComponentL, List.flatMap_cons, List.singleton_append]
  rw [show pctEncodeChar '#' = ['%', '2', '3'] from by decide]
  simp only [List.cons_append, List.nil_append, List.cons.injEq, true_and]
  exact encodeURIComponentL_id (fun c hc => handleChar_unreserved (h c hc))

theorem strPresent_of_ne {s : String} (h : s ≠ "") : strPresent (some s) = true := by
  have he : s.isEmpty = false := by
    rw [← Bool.not_eq_true, String.isEmpty_iff]
    exact h
  simp [strPresent, he]

theorem ne_empty_of_data_ne {s : String} (h : s.data ≠ []) : s ≠ "" := by
  intro he
  rw [he] at h
  exact h rfl

/-- C8.  The URL Builder is a pure function; for every mirror base and valid
identifying field the produced URL embeds the field percent-encoded exactly
once (`encodeURIComponent` applied once: a valid `[A-Za-z0-9_-]+` field is
embedded verbatim, a prepended `#` becomes a single `%23`, never `%2523`);
and the hashtag route of both families is exactly the search route applied to
the query `"#" ++ hashtag`. -/
theorem urlBuilder_spec (inst u q h lid : String)
    (hu : u ≠ "" ∧ ∀ c ∈ u.data, c.isAlphanum = true ∨ c = '_')
    (hq : q ≠ "")
    (hh : h ≠ "" ∧ ∀ c ∈ h.data, c.isAlphanum = true ∨ c = '_')
    (hl : lid ≠ "" ∧ ∀ c ∈ lid.data, c.isAlphanum = true ∨ c = '_' ∨ c = '-') :
    buildNitterUrl inst { type := .hashtag, hashtag := some h } =
      buildNitterUrl inst { type := .search, query := some ("#" ++ h) } ∧
    buildRssHubUrl inst { type := .hashtag, hashtag := some h } =
      buildRssHubUrl inst { type := .search, query := some ("#" ++ h) } ∧
    buildNitterUrl inst { type := .user, username := some u } =
      .ok (inst ++ "/" ++ u ++ "/rss") ∧
    buildRssHubUrl inst { type := .user, username := some u } =
      .ok (inst ++ "/twitter/user/" ++ u) ∧
    buildNitterUrl inst { type := .hashtag, hashtag := some h } =
      .ok (inst ++ "/search/rss?q=" ++ ("%23" ++ h)) ∧
    buildRssHubUrl inst { type := .hashtag, hashtag := some h } =
      .ok (inst ++ "/twitter/keyword/" ++ ("%23" ++ h)) ∧
    buildRssHubUrl inst { type := .list, listId := some lid } =
      .ok (inst ++ "/twitter/list/" ++ lid) ∧
    buildRssHubUrl inst { type := .search, query := some q } =
      .ok (inst ++ "/twitter/keyword/" ++ encodeURIComponent q) := by
  have hu2 : ∀ c ∈ u.data, c.isAlphanum = true ∨ c = '_' ∨ c = '-' :=
    fun c hc => (hu.2 c hc).elim Or.inl (fun hx => Or.inr (Or.inl hx))
  have hh2 : ∀ c ∈ h.data, c.isAlphanum = true ∨ c = '_' ∨ c = '-' :=
    fun c hc => (hh.2 c hc).elim Or.inl (fun hx => Or.inr (Or.inl hx))
  have hhs : ("#" ++ h) ≠ "" := by
    apply ne_empty_of_data_ne
    rw [String.data_append, show "#".data = ['#'] from rfl]
    simp
  refine ⟨?_, ?_, ?_, ?_, ?_, ?_, ?_, ?_⟩
  · simp [buildNitterUrl, strPresent_of_ne hh.1, strPresent_of_ne hhs]
  · simp [buildRssHubUrl, strPresent_of_ne hh.1, strPresent_of_ne hhs]
  · simp [buildNitterUrl, strPresent_of_ne hu.1, enc_handle_id hu2]
  · simp [buildRssHubUrl, strPresent_of_ne hu.1, enc_handle_id hu2]
  · simp [buildNitterUrl, strPresent_of_ne hh.1, enc_hash_prepend hh2]
  · simp [buildRssHubUrl, strPresent_of_ne hh.1, enc_hash_prepend hh2]
  · simp [buildRssHubUrl, strPresent_of_ne hl.1, enc_handle_id hl.2]
  · simp [buildRssHubUrl, strPresent_of_ne hq]

/-- Witness for C8 at concrete request fields. -/
theorem urlBuilder_spec_witness :
    buildNitterUrl "https://n" { type := .user, username := some "elonmusk" } =
      .ok ("https://n" ++ "/" ++ "elonmusk" ++ "/rss") ∧
    buildRssHubUrl "https://r" { type := .hashtag, hashtag := some "ai_news" } =
      .ok ("https://r" ++ "/twitter/keyword/" ++ ("%23" ++ "ai_news")) := by
  have hall := urlBuilder_spec "https://n" "elonmusk" "x" "ai_news" "my-list"
    (by refine ⟨by decide, ?_⟩; intro c hc; fin_cases hc <;> simp)
    (by decide)
    (by refine ⟨by decide, ?_⟩; intro c hc; fin_cases hc <;> simp)
    (by refine ⟨by decide, ?_⟩; intro c hc; fin_cases hc <;> simp)
  refine ⟨hall.2.2.1, ?_⟩
  have hall2 := urlBuilder_spec "https://r" "elonmusk" "x" "ai_news" "my-list"
    (by refine ⟨by decide, ?_⟩; intro c hc; fin_cases hc <;> simp)
    (by decide)
    (by refine ⟨by decide, ?_⟩; intro c hc; fin_cases hc <;> simp)
    (by refine ⟨by decide, ?_⟩; intro c hc; fin_cases hc <;> simp)
  exact hall2.2.2.2.2.2.1

/-! ## C10: the rss-generator.ts fetcher variant -/

/-- C10.  The alternate per-instance fetch embedded in `rss-generator.ts`
throws exactly when the HTTP status is not 2xx, and on a 2xx status returns
the raw body unchanged — no structural validation, HTML detection or
content-type check is applied (the body here is arbitrary, e.g. an HTML error
page is returned as-is). -/
theorem rssGenFetch_spec (inst : String) (status : Nat)
    (statusText body : String) :
    (rssGenFetchFromInstance inst status statusText body = .ok body ↔
      (200 ≤ status ∧ status ≤ 299)) ∧
    (¬ (200 ≤ status ∧ status ≤ 299) →
      rssGenFetchFromInstance inst status statusText body =
        .error ("Nitter instance " ++ inst ++ " returned " ++ toString status ++
          ": " ++ statusText)) := by
  constructor
  · constructor
    · intro hok
      by_contra hc
      simp [rssGenFetchFromInstance, hc] at hok
    · intro hok
      simp [rssGenFetchFromInstance, hok]
  · intro hbad
    simp [rssGenFetchFromInstance, hbad]

/-- Witness for C10: an HTML body is returned unvalidated on status 200, and
status 404 throws. -/
theorem rssGenFetch_spec_witness :
    rssGenFetchFromInstance "n" 200 "OK" "<!DOCTYPE html><html>x</html>" =
      .ok "<!DOCTYPE html><html>x</html>" ∧
    rssGenFetchFromInstance "n" 404 "Not Found" "body" =
      .error ("Nitter instance " ++ "n" ++ " returned " ++ toString 404 ++
        ": " ++ "Not Found") := by
  constructor
  · exact (rssGenFetch_spec "n" 200 "OK" "<!DOCTYPE html><html>x</html>").1.mpr
      (by decide)
  · exact (rssGenFetch_spec "n" 404 "Not Found" "body").2 (by decide)

/-! ## C3: CDATA safety of the sanitizer -/

/-- C3 counterexample.  The claim says none of the three repairs modifies
text inside a CDATA span, so the span `<![CDATA[ A & B <author>plain</author> ]]>`
would be byte-identical in the output.  In the code `fixAuthorTags` runs on
the full reassembled document (its comment: "must be done on full XML, not
parts"), so the author element inside the CDATA span is rewritten and the
output differs from the input. -/
theorem cdata_safety_counterexample :
    sanitizeRssXml "<![CDATA[ A & B <author>plain</author> ]]>" =
      "<![CDATA[ A & B <author>noreply@rsshub.app (plain)</author> ]]>" ∧
    sanitizeRssXml "<![CDATA[ A & B <author>plain</author> ]]>" ≠
      "<![CDATA[ A & B <author>plain</author> ]]>" := by
  exact ⟨rfl, by decide⟩

/-- C3 amended.  The ampersand-escaping and duplicate-attribute repairs are
applied to non-CDATA segments only: whenever the segmentation finds a CDATA
span, that span is emitted verbatim (so on the claim's example those two
repairs leave the whole span, including ` A & B `, byte-identical).  The
author-tag rewrite, however, runs on the reassembled document and rewrites
`<author>plain</author>` even inside the CDATA span. -/
theorem cdata_safety_amended (fuel : Nat) (cs pre afterOpen content post : List Char)
    (h1 : findSub "<![CDATA[".data cs = some (pre, afterOpen))
    (h2 : findSub "]]>".data afterOpen = some (content, post)) :
    sanitizeParts (fuel + 1) cs =
      fixXmlPart pre ++ "<![CDATA[".data ++ content ++ "]]>".data ++
        sanitizeParts fuel post ∧
    sanitizeParts 42 "<![CDATA[ A & B <author>plain</author> ]]>".data =
      "<![CDATA[ A & B <author>plain</author> ]]>".data ∧
    sanitizeRssXml "<![CDATA[ A & B <author>plain</author> ]]>" =
      "<![CDATA[ A & B <author>noreply@rsshub.app (plain)</author> ]]>" := by
  refine ⟨?_, by decide, rfl⟩
  simp [sanitizeParts, h1, h2]

/-- Witness for the amended C3, discharging the segmentation hypotheses on
the example span. -/
theorem cdata_safety_amended_witness :
    sanitizeParts (41 + 1) "<![CDATA[ A & B <author>plain</author> ]]>".data =
      fixXmlPart [] ++ "<![CDATA[".data ++ " A & B <author>plain</author> ".data ++
        "]]>".data ++ sanitizeParts 41 [] :=
  (cdata_safety_amended 41 "<![CDATA[ A & B <author>plain</author> ]]>".data
    [] " A & B <author>plain</author> ]]>".data
    " A & B <author>plain</author> ".data []
    (by decide) (by decide)).1

/-! ### The route handler (`src/app/api/rss/route.ts`)

`escapeXml` (lines 16–23) chains five `replace` calls: first escape `&` when
not already one of the five named entity references, then `<`, `>`, `"`, `'`.
The last four replacements introduce no character that a later replacement
rewrites, so they fuse into one character-by-character expansion. -/

/-- Lookahead `(?!amp;|lt;|gt;|quot;|apos;)` of the route's `escapeXml`. -/
def namedEntityAhead (cs : List Char) : Bool :=
  "amp;".data.isPrefixOf cs || "lt;".data.isPrefixOf cs ||
  "gt;".data.isPrefixOf cs || "quot;".data.isPrefixOf cs ||
  "apos;".data.isPrefixOf cs

/-- `str.replace(/&(?!amp;|lt;|gt;|quot;|apos;)/g, "&amp;")`. -/
def escXmlAmp : List Char → List Char
  | [] => []
  | c :: rest =>
    if c = '&' then
      if namedEntityAhead rest then '&' :: escXmlAmp rest
      else '&' :: 'a' :: 'm' :: 'p' :: ';' :: escXmlAmp rest
    else c :: escXmlAmp rest

/-- The four character replacements `< > " '`. -/
def escXmlChar (c : Char) : List Char :=
  if c = '<' then "&lt;".data
  else if c = '>' then "&gt;".data
  else if c = '"' then "&quot;".data
  else if c = '\'' then "&apos;".data
  else [c]

def escapeXmlL (cs : List Char) : List Char := (escXmlAmp cs).flatMap escXmlChar

def escapeXml (s : String) : String := ⟨escapeXmlL s.data⟩

/-- One synthesized RSS item of `generateRssXml`. -/
structure RssItem where
  title : String
  link : String
  description : String
  pubDate : String
  guid : String

/-- The per-item template of `generateRssXml` (route.ts 32–43). -/
def rssItemXml (item : RssItem) : String :=
  "\n    <item>\n      <title><![CDATA[" ++ item.title ++
  "]]></title>\n      <link>" ++ escapeXml item.link ++
  "</link>\n      <description><![CDATA[" ++ item.description ++
  "]]></description>\n      <pubDate>" ++ item.pubDate ++
  "</pubDate>\n      <guid isPermaLink=\"false\">" ++ item.guid ++
  "</guid>\n    </item>"

/-- `generateRssXml` (route.ts 25–58); `new Date().toUTCString()` is passed
in as `nowUTC`. -/
def generateRssXml (title description link feedUrl : String)
    (items : List RssItem) (nowUTC : String) : String :=
  "<?xml version=\"1.0\" encoding=\"UTF-8\" ?>\n<rss version=\"2.0\" xmlns:atom=\"http://www.w3.org/2005/Atom\">\n  <channel>\n    <title><![CDATA[" ++
  title ++ "]]></title>\n    <description><![CDATA[" ++ description ++
  "]]></description>\n    <link>" ++ escapeXml link ++
  "</link>\n    <atom:link href=\"" ++ escapeXml feedUrl ++
  "\" rel=\"self\" type=\"application/rss+xml\" />\n    <lastBuildDate>" ++
  nowUTC ++ "</lastBuildDate>\n    <language>en</language>" ++
  String.join (items.map rssItemXml) ++ "\n  </channel>\n</rss>"

/-! ### Response Rewriter (route.ts 163–182)

The self-link rewrite
`/<atom:link[^>]*rel=["']self["'][^>]*(?:\/>|><\/atom:link>)/gi`
matches from a case-insensitive `<atom:link` up to the first subsequent `>`:
the text `t` before that `>` must contain a `rel=["']self["']` attribute
(case-insensitively).  The second `[^>]*` run is greedy and cannot cross a
`>`, so the engine first reaches that first `>` and tries the alternation
there: `\/>` fails (the character is `>`), and `></atom:link>` succeeds
whenever a close tag follows the `>`.  Only when no close tag follows does
backtracking shrink the run by one character and let `\/>` succeed, which
requires `/` immediately before the `>`.  Hence the `></atom:link>` form is
preferred and consumes the close tag; the `/>` form applies otherwise. -/

/-- The fixed replacement element, parameterized by the escaped feed URL. -/
def atomRepl (escUrl : List Char) : List Char :=
  "<atom:link href=\"".data ++ escUrl ++
  "\" rel=\"self\" type=\"application/rss+xml\" />".data

/-- Does the pre-`>` text contain a self-referencing relation attribute?
`rel=["']self["']` chooses each quote independently, so mismatched quote
pairs also match. -/
def hasRelSelf (t : List Char) : Bool :=
  containsL "rel=\"self\"".data (lowerL t) ||
  containsL "rel='self'".data (lowerL t) ||
  containsL "rel=\"self'".data (lowerL t) ||
  containsL "rel='self\"".data (lowerL t)

/-- Global replace of every matching self-link element with `repl`.  The
`></atom:link>` terminator is tried before the `/>` terminator, matching the
greedy second `[^>]*` of the source regex. -/
def rewriteAtomGo (repl : List Char) : Nat → List Char → List Char
  | 0, cs => cs
  | _ + 1, [] => []
  | fuel + 1, c :: rest =>
    if ciPrefix "<atom:link".data (c :: rest) then
      match splitAtGt ((c :: rest).drop 10) with
      | none => c :: rewriteAtomGo repl fuel rest
      | some (t, after) =>
        if hasRelSelf t then
          if ciPrefix "</atom:link>".data after then
            repl ++ rewriteAtomGo repl fuel (after.drop 12)
          else if t.getLast? = some '/' then
            repl ++ rewriteAtomGo repl fuel after
          else c :: rewriteAtomGo repl fuel rest
        else c :: rewriteAtomGo repl fuel rest
    else c :: rewriteAtomGo repl fuel rest

/-- The self-link rewrite applied to the fetched feed. -/
def rewriteAtomL (escUrl cs : List Char) : List Char :=
  rewriteAtomGo (atomRepl escUrl) cs.length cs

/-- First-match-only replace of
`/(<language>[^<]*<\/language>)/i` by `$1\n    <ttl>5</ttl>`. -/
def insertTtlGo : Nat → List Char → List Char
  | 0, cs => cs
  | _ + 1, [] => []
  | fuel + 1, c :: rest =>
    if ciPrefix "<language>".data (c :: rest) then
      let afterOpen := (c :: rest).drop 10
      let content := afterOpen.takeWhile (fun x => x ≠ '<')
      let afterContent := afterOpen.dropWhile (fun x => x ≠ '<')
      if ciPrefix "</language>".data afterContent then
        (c :: rest).take (10 + content.length + 11) ++
          "\n    <ttl>5</ttl>".data ++ afterContent.drop 11
      else c :: insertTtlGo fuel rest
    else c :: insertTtlGo fuel rest

/-- `if (!rssHubFeed.includes("<ttl>")) { … }` (route.ts 175–182). -/
def insertTtlL (cs : List Char) : List Char :=
  if containsL "<ttl>".data cs then cs else insertTtlGo cs.length cs

def rewriteAtom (escUrl : String) (feed : String) : String :=
  ⟨rewriteAtomL escUrl.data feed.data⟩

def insertTtl (feed : String) : String := ⟨insertTtlL feed.data⟩

/-! ### The `GET` handler (route.ts 60–233) -/

/-- The query parameters, as `searchParams.get` returns them (`none` for an
absent parameter). -/
structure RouteQuery where
  type : Option String := none
  username : Option String := none
  q : Option String := none
  hashtag : Option String := none
  list : Option String := none
  excludeReplies : Option String := none
  excludeRetweets : Option String := none
  lang : Option String := none

/-- The observable parts of a `NextResponse`. -/
structure RouteResponse where
  status : Nat
  body : String
  contentType : String
  cacheControl : Option String
  corsOrigin : Option String
  corsMethods : Option String

/-- `NextResponse.json({ error: msg }, { status: 400 })`. -/
def jsonError (msg : String) : RouteResponse where
  status := 400
  body := "\x7b\"error\":\"" ++ msg ++ "\"\x7d"
  contentType := "application/json"
  cacheControl := none
  corsOrigin := none
  corsMethods := none

/-- The success/failure tail of the handler, after feed metadata has been
computed: rewrite and re-serve the fetched feed on success, or synthesize the
503 single-item error feed. -/
def routeServe (feedTitle feedDescription feedLink requestUrl nowUTC : String)
    (nowMs : Nat) (fetched : Except String String) : RouteResponse :=
  match fetched with
  | .ok feed =>
    { status := 200
      body := insertTtl (rewriteAtom (escapeXml requestUrl) feed)
      contentType := "application/xml; charset=utf-8"
      cacheControl := some "public, s-maxage=300, stale-while-revalidate=600"
      corsOrigin := some "*"
      corsMethods := some "GET" }
  | .error msg =>
    { status := 503
      body := generateRssXml feedTitle feedDescription feedLink requestUrl
        [{ title := "Unable to fetch RSS feed", link := feedLink,
           description := msg, pubDate := nowUTC,
           guid := "error-" ++ toString nowMs }] nowUTC
      contentType := "application/xml; charset=utf-8"
      cacheControl := some "public, s-maxage=60"
      corsOrigin := some "*"
      corsMethods := some "GET" }

/-- The `GET` handler: parameter validation and metadata per feed type, then
`routeServe`.  The upstream fetch outcome is passed in as `fetched`; the
validation failures return before it is ever examined. -/
def routeGET (query : RouteQuery) (requestUrl nowUTC : String) (nowMs : Nat)
    (fetched : Except String String) : RouteResponse :=
  if query.type = some "user" then
    if ¬ strPresent query.username then jsonError "Username is required"
    else
      let username := query.username.getD ""
      let desc0 := "RSS feed for @" ++ username ++ "'s tweets"
      let desc1 := if query.excludeReplies = some "true" then
        desc0 ++ " (excluding replies)" else desc0
      let desc2 := if query.excludeRetweets = some "true" then
        desc1 ++ " (excluding retweets)" else desc1
      routeServe ("Twitter: @" ++ username) desc2
        ("https://x.com/" ++ username) requestUrl nowUTC nowMs fetched
  else if query.type = some "search" then
    if ¬ strPresent query.q then jsonError "Search query is required"
    else
      let qv := query.q.getD ""
      let desc0 := "RSS feed for Twitter search: " ++ qv
      let desc1 := if strPresent query.lang then
        desc0 ++ " (language: " ++ query.lang.getD "" ++ ")" else desc0
      routeServe ("Twitter Search: " ++ qv) desc1
        ("https://x.com/search?q=" ++ encodeURIComponent qv) requestUrl
        nowUTC nowMs fetched
  else if query.type = some "hashtag" then
    if ¬ strPresent query.hashtag then jsonError "Hashtag is required"
    else
      let hv := query.hashtag.getD ""
      routeServe ("Twitter: #" ++ hv) ("RSS feed for #" ++ hv ++ " tweets")
        ("https://x.com/hashtag/" ++ hv) requestUrl nowUTC nowMs fetched
  else if query.type = some "list" then
    if ¬ strPresent query.username ∨ ¬ strPresent query.list then
      jsonError "Username and list slug are required"
    else
      let username := query.username.getD ""
      let slug := query.list.getD ""
      routeServe ("Twitter List: " ++ slug ++ " by @" ++ username)
        ("RSS feed for Twitter list: " ++ slug)
        ("https://x.com/i/lists/" ++ slug) requestUrl nowUTC nowMs fetched
  else jsonError "Invalid feed type"

/-! ## C9: the GET handler -/


/-- Has the request passed the per-type parameter validation, i.e. does the
handler reach the upstream fetch? -/
def validQuery (query : RouteQuery) : Prop :=
  (query.type = some "user" ∧ strPresent query.username = true) ∨
  (query.type = some "search" ∧ strPresent query.q = true) ∨
  (query.type = some "hashtag" ∧ strPresent query.hashtag = true) ∨
  (query.type = some "list" ∧ strPresent query.username = true ∧
    strPresent query.list = true)

/-- C9.  When a parameter required by the chosen feed type is missing (or the
type is unrecognized) the handler returns status 400 with a JSON error body,
and the result does not depend on the upstream fetch outcome (the right-hand
sides are independent of `f`: no upstream instance is contacted).  When the
validation passes and every upstream instance failed, the handler returns
status 503 with a synthesized single-item feed whose item title is
"Unable to fetch RSS feed" and whose item description is the aggregated
failure reason. -/
theorem routeGET_spec (query : RouteQuery) (requestUrl nowUTC : String)
    (nowMs : Nat) (f : Except String String) (msg : String) :
    (query.type = some "user" → ¬ strPresent query.username →
      routeGET query requestUrl nowUTC nowMs f = jsonError "Username is required") ∧
    (query.type = some "search" → ¬ strPresent query.q →
      routeGET query requestUrl nowUTC nowMs f = jsonError "Search query is required") ∧
    (query.type = some "hashtag" → ¬ strPresent query.hashtag →
      routeGET query requestUrl nowUTC nowMs f = jsonError "Hashtag is required") ∧
    (query.type = some "list" →
      (¬ strPresent query.username ∨ ¬ strPresent query.list) →
      routeGET query requestUrl nowUTC nowMs f =
        jsonError "Username and list slug are required") ∧
    (query.type ≠ some "user" → query.type ≠ some "search" →
      query.type ≠ some "hashtag" → query.type ≠ some "list" →
      routeGET query requestUrl nowUTC nowMs f = jsonError "Invalid feed type") ∧
    ((jsonError msg).status = 400) ∧
    (f = .error msg → validQuery query →
      ∃ ft fd fl, routeGET query requestUrl nowUTC nowMs f =
        { status := 503,
          body := generateRssXml ft fd fl requestUrl
            [{ title := "Unable to fetch RSS feed", link := fl,
               description := msg, pubDate := nowUTC,
               guid := "error-" ++ toString nowMs }] nowUTC,
          contentType := "application/xml; charset=utf-8",
          cacheControl := some "public, s-maxage=60",
          corsOrigin := some "*", corsMethods := some "GET" }) := by
  refine ⟨?_, ?_, ?_, ?_, ?_, rfl, ?_⟩
  · intro h hv; simp [routeGET, h, hv]
  · intro h hv; simp [routeGET, h, hv]
  · intro h hv; simp [routeGET, h, hv]
  · intro h hv
    rcases hv with hv | hv <;> simp [routeGET, h, hv]
  · intro h1 h2 h3 h4; simp [routeGET, h1, h2, h3, h4]
  · intro hf hv
    subst hf
    rcases hv with ⟨ht, hp⟩ | ⟨ht, hp⟩ | ⟨ht, hp⟩ | ⟨ht, hp1, hp2⟩
    · refine ⟨"Twitter: @" ++ query.username.getD "",
        (if query.excludeRetweets = some "true" then
          (if query.excludeReplies = some "true" then
              "RSS feed for @" ++ query.username.getD "" ++ "'s tweets" ++ " (excluding replies)"
            else "RSS feed for @" ++ query.username.getD "" ++ "'s tweets") ++
            " (excluding retweets)"
        else
          if query.excludeReplies = some "true" then
            "RSS feed for @" ++ query.username.getD "" ++ "'s tweets" ++ " (excluding replies)"
          else "RSS feed for @" ++ query.username.getD "" ++ "'s tweets"),
        "https://x.com/" ++ query.username.getD "", ?_⟩
      simp [routeGET, ht, hp, routeServe]
    · refine ⟨"Twitter Search: " ++ query.q.getD "",
        (if strPresent query.lang = true then
          "RSS feed for Twitter search: " ++ query.q.getD "" ++ " (language: " ++ query.lang.getD "" ++ ")"
        else "RSS feed for Twitter search: " ++ query.q.getD ""),
        "https://x.com/search?q=" ++ encodeURIComponent (query.q.getD ""), ?_⟩
      simp [routeGET, ht, hp, routeServe]
    · refine ⟨"Twitter: #" ++ query.hashtag.getD "",
        "RSS feed for #" ++ query.hashtag.getD "" ++ " tweets",
        "https://x.com/hashtag/" ++ query.hashtag.getD "", ?_⟩
      simp [routeGET, ht, hp, routeServe]
    · refine ⟨"Twitter List: " ++ query.list.getD "" ++ " by @" ++ query.username.getD "",
        "RSS feed for Twitter list: " ++ query.list.getD "",
        "https://x.com/i/lists/" ++ query.list.getD "", ?_⟩
      simp [routeGET, ht, hp1, hp2, routeServe]

/-- Witness for C9: a user request without username is a 400 JSON error for
any fetch outcome; a valid user request whose fetch failed is the synthesized
503 feed. -/
theorem routeGET_spec_witness :
    routeGET { type := some "user" } "u" "now" 0 (.ok "x") =
      jsonError "Username is required" ∧
    routeGET { type := some "user" } "u" "now" 0 (.error "e") =
      jsonError "Username is required" ∧
    (∃ ft fd fl,
      routeGET { type := some "user", username := some "bob" } "u" "now" 0
          (.error "all failed") =
        { status := 503,
          body := generateRssXml ft fd fl "u"
            [{ title := "Unable to fetch RSS feed", link := fl,
               description := "all failed", pubDate := "now",
               guid := "error-" ++ toString 0 }] "now",
          contentType := "application/xml; charset=utf-8",
          cacheControl := some "public, s-maxage=60",
          corsOrigin := some "*", corsMethods := some "GET" }) := by
  refine ⟨?_, ?_, ?_⟩
  · exact (routeGET_spec { type := some "user" } "u" "now" 0 (.ok "x") "m").1
      rfl (by decide)
  · exact (routeGET_spec { type := some "user" } "u" "now" 0 (.error "e") "m").1
      rfl (by decide)
  · exact (routeGET_spec { type := some "user", username := some "bob" }
      "u" "now" 0 (.error "all failed") "all failed").2.2.2.2.2.2
      rfl (Or.inl ⟨rfl, by decide⟩)

/-! ## C5 groundwork, part 1: character-reference tokens and the
ampersand-escaping repair -/

/-- Characters a character-reference token is made of. -/
def tokChar (c : Char) : Bool := c.isAlphanum || c = '#' || c = ';'

/-- Is every `&` in the list immediately followed by a character-reference
tail?  Such strings are fixed points of the ampersand-escaping rewrite. -/
def goodAmp : List Char → Bool
  | [] => true
  | c :: rest => (if c = '&' then entityAhead rest else true) && goodAmp rest

theorem drop_runLen (p : Char → Bool) (l : List Char) :
    l.drop (runLen p l) = l.dropWhile p := by
  induction l with
  | nil => rfl
  | cons c rest ih =>
    by_cases h : p c
    · simp [runLen, List.takeWhile_cons, List.dropWhile_cons, h] at ih ⊢
      exact ih
    · simp [runLen, List.takeWhile_cons, List.dropWhile_cons, h]

theorem runLen_exact {p : Char → Bool} {xs : List Char} {y : Char} (ys : List Char)
    (hall : ∀ x ∈ xs, p x = true) (hy : p y = false) :
    runLen p (xs ++ y :: ys) = xs.length := by
  unfold runLen
  rw [takeWhile_all_append _ hall, List.takeWhile_cons, hy]
  simp

theorem headIsSemi_iff {l : List Char} : headIsSemi l = true ↔ ∃ t, l = ';' :: t := by
  cases l with
  | nil => simp [headIsSemi]
  | cons a t =>
    by_cases ha : a = ';'
    · subst ha; simp [headIsSemi]
    · simp [headIsSemi, ha]

theorem entityAhead_digit {run : List Char} (zs : List Char)
    (hne : run ≠ []) (hall : ∀ x ∈ run, x.isDigit = true) :
    entityAhead ('#' :: (run ++ ';' :: zs)) = true := by
  have hr : runLen Char.isDigit (run ++ ';' :: zs) = run.length :=
    runLen_exact zs hall (by decide)
  have hd : List.drop run.length (run ++ ';' :: zs) = ';' :: zs :=
    List.drop_left run (';' :: zs)
  have h1 : 1 ≤ run.length := by
    cases run with
    | nil => exact absurd rfl hne
    | cons a l => simp
  simp [entityAhead, hr, hd, h1, headIsSemi]

theorem entityAhead_hex {run : List Char} (zs : List Char)
    (hne : run ≠ []) (hall : ∀ x ∈ run, isHexChar x = true) :
    entityAhead ('#' :: 'x' :: (run ++ ';' :: zs)) = true := by
  have hr : runLen isHexChar (run ++ ';' :: zs) = run.length :=
    runLen_exact zs hall (by decide)
  have hd : List.drop run.length (run ++ ';' :: zs) = ';' :: zs :=
    List.drop_left run (';' :: zs)
  have h1 : 1 ≤ run.length := by
    cases run with
    | nil => exact absurd rfl hne
    | cons a l => simp
  have hdig : runLen Char.isDigit ('x' :: (run ++ ';' :: zs)) = 0 := by
    simp [runLen, List.takeWhile_cons]
  simp [entityAhead, hdig, hr, hd, h1, headIsSemi]

theorem entityAhead_name {c : Char} {run : List Char} (zs : List Char)
    (hc : c.isAlpha = true) (hne : run ≠ []) (hlen : run.length ≤ 31)
    (hall : ∀ x ∈ run, x.isAlphanum = true) :
    entityAhead (c :: (run ++ ';' :: zs)) = true := by
  have hcn : ¬ (c = '#') := by
    intro h; subst h; simp at hc
  have hr : runLen Char.isAlphanum (run ++ ';' :: zs) = run.length :=
    runLen_exact zs hall (by decide)
  have hd : List.drop run.length (run ++ ';' :: zs) = ';' :: zs :=
    List.drop_left run (';' :: zs)
  have h1 : 1 ≤ run.length := by
    cases run with
    | nil => exact absurd rfl hne
    | cons a l => simp
  simp [entityAhead, hcn, hc, hr, hd, h1, hlen, headIsSemi]

theorem takeWhile_ne_nil_of_runLen {p : Char → Bool} {l : List Char}
    (h : 1 ≤ runLen p l) : l.takeWhile p ≠ [] := by
  intro h0
  rw [runLen, h0] at h
  simp at h

theorem tokChar_of_digit {c : Char} (h : c.isDigit = true) : tokChar c = true := by
  simp [tokChar, Char.isAlphanum, h]

theorem tokChar_of_alpha {c : Char} (h : c.isAlpha = true) : tokChar c = true := by
  simp [tokChar, Char.isAlphanum, h]

theorem tokChar_of_alnum {c : Char} (h : c.isAlphanum = true) : tokChar c = true := by
  simp [tokChar, h]

theorem charIsLower_of_range {c : Char} (h1 : 'a' ≤ c) (h2 : c ≤ 'f') :
    c.isLower = true := by
  simp only [Char.isLower, Bool.and_eq_true, decide_eq_true_eq, ge_iff_le]
  rw [Char.le_def] at h1 h2
  exact ⟨h1, UInt32.le_trans h2 (by decide)⟩

theorem charIsUpper_of_range {c : Char} (h1 : 'A' ≤ c) (h2 : c ≤ 'F') :
    c.isUpper = true := by
  simp only [Char.isUpper, Bool.and_eq_true, decide_eq_true_eq, ge_iff_le]
  rw [Char.le_def] at h1 h2
  exact ⟨h1, UInt32.le_trans h2 (by decide)⟩

theorem tokChar_of_hex {c : Char} (h : isHexChar c = true) : tokChar c = true := by
  have hd : c.isDigit = true ∨ ('a' ≤ c ∧ c ≤ 'f') ∨ ('A' ≤ c ∧ c ≤ 'F') := by
    have := h
    simp only [isHexChar, Bool.or_eq_true, Bool.and_eq_true, decide_eq_true_eq] at this
    tauto
  rcases hd with h | ⟨h1, h2⟩ | ⟨h1, h2⟩
  · exact tokChar_of_digit h
  · have hl := charIsLower_of_range h1 h2
    simp [tokChar, Char.isAlphanum, Char.isAlpha, hl]
  · have hu := charIsUpper_of_range h1 h2
    simp [tokChar, Char.isAlphanum, Char.isAlpha, hu]

theorem entityAhead_hash_default {a : Char} {rest2 : List Char} (ha : ¬ (a = 'x'))
    (h1 : ¬ ((1 ≤ runLen Char.isDigit (a :: rest2)) ∧
      headIsSemi ((a :: rest2).drop (runLen Char.isDigit (a :: rest2))) = true)) :
    entityAhead ('#' :: a :: rest2) = false := by
  have hb : ¬ ((decide (1 ≤ runLen Char.isDigit (a :: rest2)) &&
      headIsSemi ((a :: rest2).drop (runLen Char.isDigit (a :: rest2)))) = true) := by
    simp only [Bool.and_eq_true, decide_eq_true_eq]
    exact h1
  simp only [entityAhead, if_true]
  rw [if_neg hb, if_neg ha]

theorem entityAhead_decomp {cs : List Char} (h : entityAhead cs = true) :
    ∃ t suf, cs = t ++ suf ∧ t ≠ [] ∧ (∀ x ∈ t, tokChar x = true) ∧
      (∀ zs, entityAhead (t ++ zs) = true) := by
  cases cs with
  | nil => simp [entityAhead] at h
  | cons c rest =>
    by_cases hc : c = '#'
    · subst hc
      by_cases h1 : (1 ≤ runLen Char.isDigit rest) ∧
          headIsSemi (rest.drop (runLen Char.isDigit rest)) = true
      · obtain ⟨hd1, hd2⟩ := h1
        rw [drop_runLen, headIsSemi_iff] at hd2
        obtain ⟨suf, hsuf⟩ := hd2
        have hsplit : rest = rest.takeWhile Char.isDigit ++ ';' :: suf := by
          conv_lhs => rw [← List.takeWhile_append_dropWhile Char.isDigit rest]
          rw [hsuf]
        have hne : rest.takeWhile Char.isDigit ≠ [] :=
          takeWhile_ne_nil_of_runLen hd1
        refine ⟨'#' :: (rest.takeWhile Char.isDigit ++ [';']), suf, ?_, by simp, ?_, ?_⟩
        · conv_lhs => rw [hsplit]
          simp
        · intro x hx
          simp only [List.mem_cons, List.mem_append, List.mem_singleton] at hx
          rcases hx with rfl | hx | rfl | hx
          · decide
          · exact tokChar_of_digit (List.mem_takeWhile_imp hx)
          · decide
          · simp at hx
        · intro zs
          simp only [List.cons_append, List.append_assoc, List.singleton_append]
          exact entityAhead_digit zs hne (fun x hx => List.mem_takeWhile_imp hx)
      · cases rest with
        | nil => simp [entityAhead, runLen, headIsSemi] at h
        | cons a rest2 =>
          by_cases ha : a = 'x'
          · subst ha
            have hdig0 : runLen Char.isDigit ('x' :: rest2) = 0 := by
              simp [runLen, List.takeWhile_cons]
            have h2 : 1 ≤ runLen isHexChar rest2 ∧
                headIsSemi (rest2.drop (runLen isHexChar rest2)) = true := by
              simp [entityAhead, hdig0] at h
              exact h
            obtain ⟨hd1, hd2⟩ := h2
            rw [drop_runLen, headIsSemi_iff] at hd2
            obtain ⟨suf, hsuf⟩ := hd2
            have hsplit : rest2 = rest2.takeWhile isHexChar ++ ';' :: suf := by
              conv_lhs => rw [← List.takeWhile_append_dropWhile isHexChar rest2]
              rw [hsuf]
            have hne : rest2.takeWhile isHexChar ≠ [] :=
              takeWhile_ne_nil_of_runLen hd1
            refine ⟨'#' :: 'x' :: (rest2.takeWhile isHexChar ++ [';']), suf, ?_,
              by simp, ?_, ?_⟩
            · conv_lhs => rw [hsplit]
              simp
            · intro x hx
              simp only [List.mem_cons, List.mem_append, List.mem_singleton] at hx
              rcases hx with rfl | rfl | hx | rfl | hx
              · decide
              · decide
              · exact tokChar_of_hex (List.mem_takeWhile_imp hx)
              · decide
              · simp at hx
            · intro zs
              simp only [List.cons_append, List.append_assoc, List.singleton_append]
              exact entityAhead_hex zs hne (fun x hx => List.mem_takeWhile_imp hx)
          · exfalso
            rw [entityAhead_hash_default ha h1] at h
            exact Bool.false_ne_true h
    · have hform : c.isAlpha = true ∧ 1 ≤ runLen Char.isAlphanum rest ∧
          runLen Char.isAlphanum rest ≤ 31 ∧
          headIsSemi (rest.drop (runLen Char.isAlphanum rest)) = true := by
        simp only [entityAhead, if_neg hc, Bool.and_eq_true, decide_eq_true_eq] at h
        tauto
      obtain ⟨hca, hd1, hd31, hd2⟩ := hform
      rw [drop_runLen, headIsSemi_iff] at hd2
      obtain ⟨suf, hsuf⟩ := hd2
      have hsplit : rest = rest.takeWhile Char.isAlphanum ++ ';' :: suf := by
        conv_lhs => rw [← List.takeWhile_append_dropWhile Char.isAlphanum rest]
        rw [hsuf]
      have hne : rest.takeWhile Char.isAlphanum ≠ [] :=
        takeWhile_ne_nil_of_runLen hd1
      have hlen : (rest.takeWhile Char.isAlphanum).length ≤ 31 := hd31
      refine ⟨c :: (rest.takeWhile Char.isAlphanum ++ [';']), suf, ?_, by simp, ?_, ?_⟩
      · conv_lhs => rw [hsplit]
        simp
      · intro x hx
        simp only [List.mem_cons, List.mem_append, List.mem_singleton] at hx
        rcases hx with rfl | hx | rfl | hx
        · exact tokChar_of_alpha hca
        · exact tokChar_of_alnum (List.mem_takeWhile_imp hx)
        · decide
        · simp at hx
      · intro zs
        simp only [List.cons_append, List.append_assoc, List.singleton_append]
        exact entityAhead_name zs hca hne hlen (fun x hx => List.mem_takeWhile_imp hx)



theorem tokChar_ne_amp {x : Char} (h : tokChar x = true) : ¬ (x = '&') := by
  intro hx; subst hx; exact absurd h (by decide)

theorem entityAhead_extend {cs : List Char} (zs : List Char)
    (h : entityAhead cs = true) : entityAhead (cs ++ zs) = true := by
  obtain ⟨t, suf, heq, _, _, hstab⟩ := entityAhead_decomp h
  rw [heq, List.append_assoc]
  exact hstab _

theorem escAmpL_copy {t : List Char} (suf : List Char)
    (h : ∀ x ∈ t, ¬ (x = '&')) :
    escAmpL (t ++ suf) = t ++ escAmpL suf := by
  induction t with
  | nil => rfl
  | cons c rest ih =>
    have hc : ¬ (c = '&') := h c (by simp)
    simp only [List.cons_append, escAmpL, if_neg hc, List.append_eq]
    rw [ih (fun x hx => h x (by simp [hx]))]

theorem goodAmp_cons_iff {c : Char} {rest : List Char} :
    goodAmp (c :: rest) = true ↔
      ((c = '&' → entityAhead rest = true) ∧ goodAmp rest = true) := by
  simp only [goodAmp, Bool.and_eq_true]
  constructor
  · rintro ⟨h1, h2⟩
    refine ⟨?_, h2⟩
    intro hc; rw [if_pos hc] at h1; exact h1
  · rintro ⟨h1, h2⟩
    refine ⟨?_, h2⟩
    by_cases hc : c = '&'
    · rw [if_pos hc]; exact h1 hc
    · rw [if_neg hc]

theorem escAmpL_id_of_goodAmp {cs : List Char} (h : goodAmp cs = true) :
    escAmpL cs = cs := by
  induction cs with
  | nil => rfl
  | cons c rest ih =>
    rw [goodAmp_cons_iff] at h
    by_cases hc : c = '&'
    · subst hc
      simp only [escAmpL, if_pos rfl, h.1 rfl, if_true]
      rw [ih h.2]
    · simp only [escAmpL, if_neg hc]
      rw [ih h.2]

theorem goodAmp_escAmpL (cs : List Char) : goodAmp (escAmpL cs) = true := by
  induction cs with
  | nil => rfl
  | cons c rest ih =>
    by_cases hc : c = '&'
    · subst hc
      by_cases he : entityAhead rest = true
      · simp only [escAmpL, if_pos rfl, he, if_true]
        rw [goodAmp_cons_iff]
        refine ⟨fun _ => ?_, ih⟩
        obtain ⟨t, suf, heq, hne, htok, hstab⟩ := entityAhead_decomp he
        rw [heq, escAmpL_copy suf (fun x hx => tokChar_ne_amp (htok x hx))]
        exact hstab _
      · have he' : entityAhead rest = false := by
          rw [← Bool.not_eq_true]; exact he
        simp only [escAmpL, if_pos rfl, he', Bool.false_eq_true, if_false, if_true]
        rw [goodAmp_cons_iff]
        refine ⟨fun _ => ?_, ?_⟩
        · show entityAhead ('a' :: (['m', 'p'] ++ ';' :: escAmpL rest)) = true
          exact entityAhead_name (escAmpL rest) (by decide) (by decide) (by decide)
            (by decide)
        · show goodAmp ('a' :: 'm' :: 'p' :: ';' :: escAmpL rest) = true
          rw [goodAmp_cons_iff, goodAmp_cons_iff, goodAmp_cons_iff, goodAmp_cons_iff]
          exact ⟨by intro h; exact absurd h (by decide),
            by intro h; exact absurd h (by decide),
            by intro h; exact absurd h (by decide),
            by intro h; exact absurd h (by decide), ih⟩
    · simp only [escAmpL, if_neg hc]
      rw [goodAmp_cons_iff]
      exact ⟨fun h => absurd h hc, ih⟩

theorem escAmpL_idem (cs : List Char) : escAmpL (escAmpL cs) = escAmpL cs :=
  escAmpL_id_of_goodAmp (goodAmp_escAmpL cs)

theorem goodAmp_append {xs ys : List Char} (hx : goodAmp xs = true)
    (hy : goodAmp ys = true) : goodAmp (xs ++ ys) = true := by
  induction xs with
  | nil => exact hy
  | cons c rest ih =>
    rw [goodAmp_cons_iff] at hx
    rw [List.cons_append, goodAmp_cons_iff]
    exact ⟨fun hc => entityAhead_extend ys (hx.1 hc), ih hx.2⟩

theorem goodAmp_right {xs ys : List Char} (h : goodAmp (xs ++ ys) = true) :
    goodAmp ys = true := by
  induction xs with
  | nil => exact h
  | cons c rest ih =>
    rw [List.cons_append, goodAmp_cons_iff] at h
    exact ih h.2

theorem goodAmp_suffix {l l' : List Char} (hs : l' <:+ l)
    (h : goodAmp l = true) : goodAmp l' = true := by
  obtain ⟨a, rfl⟩ := hs
  exact goodAmp_right h

theorem goodAmp_of_no_amp {cs : List Char} (h : ∀ x ∈ cs, ¬ (x = '&')) :
    goodAmp cs = true := by
  induction cs with
  | nil => rfl
  | cons c rest ih =>
    rw [goodAmp_cons_iff]
    exact ⟨fun hc => absurd hc (h c (by simp)),
      ih (fun x hx => h x (by simp [hx]))⟩

theorem token_prefix {t suf a ys : List Char} {y : Char}
    (heq : t ++ suf = a ++ y :: ys) (htok : ∀ x ∈ t, tokChar x = true)
    (hy : tokChar y = false) : ∃ b, a = t ++ b := by
  induction t generalizing a with
  | nil => exact ⟨a, rfl⟩
  | cons x t' ih =>
    cases a with
    | nil =>
      simp only [List.cons_append, List.nil_append, List.cons.injEq] at heq
      obtain ⟨rfl, -⟩ := heq
      rw [htok x (by simp)] at hy
      exact absurd hy (by simp)
    | cons z a' =>
      simp only [List.cons_append, List.cons.injEq] at heq
      obtain ⟨rfl, heq2⟩ := heq
      obtain ⟨b, hb⟩ := ih heq2 (fun u hu => htok u (by simp [hu]))
      exact ⟨b, by rw [hb]; simp⟩

theorem goodAmp_left_sep {xs ys : List Char} {y : Char}
    (h : goodAmp (xs ++ y :: ys) = true) (hy : tokChar y = false) :
    goodAmp xs = true := by
  induction xs with
  | nil => rfl
  | cons c rest ih =>
    rw [List.cons_append, goodAmp_cons_iff] at h
    rw [goodAmp_cons_iff]
    refine ⟨?_, ih h.2⟩
    intro hc
    have he := h.1 hc
    obtain ⟨t, suf, heq, hne, htok, hstab⟩ := entityAhead_decomp he
    obtain ⟨b, hb⟩ := token_prefix heq.symm htok hy
    rw [hb]
    exact hstab b

theorem goodAmp_takeWhile {p : Char → Bool} {cs : List Char}
    (hp : ∀ x, tokChar x = true → p x = true) (h : goodAmp cs = true) :
    goodAmp (cs.takeWhile p) = true := by
  induction cs with
  | nil => rfl
  | cons c rest ih =>
    rw [goodAmp_cons_iff] at h
    rw [List.takeWhile_cons]
    by_cases hc : p c
    · rw [if_pos hc, goodAmp_cons_iff]
      refine ⟨?_, ih h.2⟩
      intro hamp
      have he := h.1 hamp
      obtain ⟨t, suf, heq, hne, htok, hstab⟩ := entityAhead_decomp he
      rw [heq, takeWhile_all_append _ (fun x hx => hp x (htok x hx))]
      exact hstab _
    · rw [if_neg hc]; rfl


end XRss

/-! ### Idempotence of the sanitizer repairs (claim C5 groundwork) -/

namespace XRss

theorem splitAtGt_eq {cs inner after : List Char}
    (h : splitAtGt cs = some (inner, after)) :
    cs = inner ++ '>' :: after ∧ '>' ∉ inner := by
  induction cs generalizing inner with
  | nil => simp [splitAtGt] at h
  | cons c rest ih =>
    by_cases hc : c = '>'
    · subst hc
      simp [splitAtGt] at h
      obtain ⟨rfl, rfl⟩ := h
      simp
    · simp only [splitAtGt, if_neg hc] at h
      cases hsp : splitAtGt rest with
      | none => rw [hsp] at h; simp at h
      | some p =>
        obtain ⟨i2, a2⟩ := p
        rw [hsp] at h
        simp only [Option.some.injEq, Prod.mk.injEq] at h
        obtain ⟨hi, rfl⟩ := h
        subst hi
        obtain ⟨he, hmem⟩ := ih hsp
        constructor
        · rw [List.cons_append, ← he]
        · intro hx
          rcases List.mem_cons.mp hx with rfl | hx
          · exact hc rfl
          · exact hmem hx

theorem splitAtGt_append {a : List Char} (b : List Char) (h : '>' ∉ a) :
    splitAtGt (a ++ '>' :: b) = some (a, b) := by
  induction a with
  | nil => simp [splitAtGt]
  | cons c rest ih =>
    have hc : ¬ (c = '>') := fun he => h (he ▸ List.mem_cons_self c rest)
    rw [List.cons_append]
    simp only [splitAtGt, if_neg hc]
    rw [ih (fun hx => h (List.mem_cons_of_mem c hx))]

theorem splitAtGt_length {cs inner after : List Char}
    (h : splitAtGt cs = some (inner, after)) :
    cs.length = inner.length + 1 + after.length := by
  obtain ⟨he, -⟩ := splitAtGt_eq h
  rw [he]
  simp [List.length_append]
  omega

theorem rdaGo_nil (f : Nat) : rdaGo f [] = [] := by
  cases f <;> rfl

theorem rdaGo_fuel : ∀ (f1 : Nat) (cs : List Char) (f2 : Nat),
    cs.length ≤ f1 → cs.length ≤ f2 → rdaGo f1 cs = rdaGo f2 cs := by
  intro f1
  induction f1 with
  | zero =>
    intro cs f2 h1 _
    have : cs = [] := List.length_eq_zero.mp (Nat.le_zero.mp h1)
    subst this
    rw [rdaGo_nil, rdaGo_nil]
  | succ g1 ih =>
    intro cs f2 h1 h2
    cases cs with
    | nil => rw [rdaGo_nil, rdaGo_nil]
    | cons c rest =>
      cases f2 with
      | zero => simp at h2
      | succ g2 =>
        have hr1 : rest.length ≤ g1 := by simp at h1; omega
        have hr2 : rest.length ≤ g2 := by simp at h2; omega
        by_cases hc : c = '<'
        · subst hc
          cases rest with
          | nil => rfl
          | cons d rest2 =>
            by_cases hd : d.isAlpha = true
            · cases hsp : splitAtGt (d :: rest2) with
              | none => simp only [rdaGo, if_true, hd, hsp]
              | some p =>
                obtain ⟨inner, after⟩ := p
                have hlen := splitAtGt_length hsp
                simp only [rdaGo, if_true, hd, hsp]
                rw [ih after g2 (by simp at hr1 hlen ⊢; omega)
                  (by simp at hr2 hlen ⊢; omega)]
            · have hd' : d.isAlpha = false := by
                rw [← Bool.not_eq_true]; exact hd
              simp only [rdaGo, if_true, hd', Bool.false_eq_true, if_false]
              rw [ih (d :: rest2) g2 hr1 hr2]
        · simp only [rdaGo, if_neg hc]
          rw [ih rest g2 hr1 hr2]

theorem rdaGo_eq_rdaL {cs : List Char} (f : Nat) (h : cs.length ≤ f) :
    rdaGo f cs = rdaL cs :=
  rdaGo_fuel f cs cs.length h le_rfl

theorem rdaL_cons_copy {c : Char} {rest : List Char} (hc : ¬ (c = '<')) :
    rdaL (c :: rest) = c :: rdaL rest := by
  unfold rdaL
  rw [show (c :: rest).length = rest.length + 1 from by simp]
  simp only [rdaGo, if_neg hc]

theorem rdaL_lt_nil : rdaL ['<'] = ['<'] := rfl

theorem rdaL_lt_nonalpha {d : Char} {rest2 : List Char} (hd : d.isAlpha = false) :
    rdaL ('<' :: d :: rest2) = '<' :: rdaL (d :: rest2) := by
  unfold rdaL
  rw [show ('<' :: d :: rest2).length = (d :: rest2).length + 1 from by simp]
  simp only [rdaGo, if_true, reduceIte, hd, Bool.false_eq_true, if_false]

theorem rdaL_lt_nogt {d : Char} {rest2 : List Char} (hd : d.isAlpha = true)
    (hsp : splitAtGt (d :: rest2) = none) :
    rdaL ('<' :: d :: rest2) = '<' :: d :: rest2 := by
  unfold rdaL
  rw [show ('<' :: d :: rest2).length = (d :: rest2).length + 1 from by simp]
  simp only [rdaGo, reduceIte, hd, if_true, hsp]

theorem rdaL_tag {d : Char} {rest2 inner after : List Char} (hd : d.isAlpha = true)
    (hsp : splitAtGt (d :: rest2) = some (inner, after)) :
    rdaL ('<' :: d :: rest2) = '<' :: (processTag inner ++ '>' :: rdaL after) := by
  unfold rdaL
  rw [show ('<' :: d :: rest2).length = (d :: rest2).length + 1 from by simp]
  simp only [rdaGo, reduceIte, hd, if_true, hsp]
  have hlen := splitAtGt_length hsp
  rw [rdaGo_fuel (d :: rest2).length after after.length (by omega) le_rfl]

end XRss

namespace XRss

theorem rdaL_head (d : Char) (w : List Char) : ∃ t, rdaL (d :: w) = d :: t := by
  by_cases hd : d = '<'
  · subst hd
    cases w with
    | nil => exact ⟨[], rdaL_lt_nil⟩
    | cons e w2 =>
      by_cases he : e.isAlpha = true
      · cases hsp : splitAtGt (e :: w2) with
        | none => exact ⟨e :: w2, rdaL_lt_nogt he hsp⟩
        | some p =>
          obtain ⟨inner, after⟩ := p
          exact ⟨_, rdaL_tag he hsp⟩
      · exact ⟨_, rdaL_lt_nonalpha (by rw [← Bool.not_eq_true]; exact he)⟩
  · exact ⟨_, rdaL_cons_copy hd⟩

theorem rdaL_copy_prefix {t : List Char} (suf : List Char)
    (h : ∀ x ∈ t, ¬ (x = '<')) : rdaL (t ++ suf) = t ++ rdaL suf := by
  induction t with
  | nil => rfl
  | cons c rest ih =>
    rw [List.cons_append, rdaL_cons_copy (h c (by simp)),
      ih (fun x hx => h x (by simp [hx]))]
    rfl

/-- A well-formed attribute name: a letter followed by name-tail characters. -/
def validName (n : List Char) : Prop :=
  ∃ c0 nt, n = c0 :: nt ∧ c0.isAlpha = true ∧ ∀ x ∈ nt, isNameTailChar x = true

theorem parseAttrName_eq {cs n rest : List Char}
    (h : parseAttrName cs = some (n, rest)) :
    ∃ c0 tail, cs = c0 :: tail ∧ c0.isAlpha = true ∧
      n = c0 :: tail.takeWhile isNameTailChar ∧
      rest = tail.dropWhile isNameTailChar := by
  cases cs with
  | nil => simp [parseAttrName] at h
  | cons c tail =>
    by_cases hc : c.isAlpha = true
    · refine ⟨c, tail, rfl, hc, ?_⟩
      simp only [parseAttrName, hc, if_true, Option.some.injEq, Prod.mk.injEq] at h
      exact ⟨h.1.symm, h.2.symm⟩
    · simp [parseAttrName, hc] at h

theorem parseAttrName_valid {cs n rest : List Char}
    (h : parseAttrName cs = some (n, rest)) : validName n := by
  obtain ⟨c0, tail, -, hc0, rfl, -⟩ := parseAttrName_eq h
  exact ⟨c0, _, rfl, hc0, fun x hx => List.mem_takeWhile_imp hx⟩

theorem parseAttrName_exact {n : List Char} (hv : validName n) {y : Char}
    (hy : isNameTailChar y = false) (rest : List Char) :
    parseAttrName (n ++ y :: rest) = some (n, y :: rest) := by
  obtain ⟨c0, nt, rfl, hc0, hnt⟩ := hv
  rw [List.cons_append]
  simp only [parseAttrName, hc0, if_true]
  rw [takeWhile_all_append _ hnt, dropWhile_all_append _ hnt]
  rw [List.takeWhile_cons, List.dropWhile_cons, hy]
  simp

theorem tryQuoted_inv {cs n v rest' : List Char}
    (h : tryQuoted cs = some (n, v, rest')) :
    ∃ rest1 rest2 q rest4,
      parseAttrName cs = some (n, rest1) ∧
      rest1.dropWhile isSpaceChar = '=' :: rest2 ∧
      rest2.dropWhile isSpaceChar = q :: rest4 ∧ (q = '"' ∨ q = '\'') ∧
      v = rest4.takeWhile (isQuotedValChar q) ∧
      rest4.dropWhile (isQuotedValChar q) = q :: rest' := by
  unfold tryQuoted at h
  cases hpn : parseAttrName cs with
  | none => rw [hpn] at h; simp at h
  | some p =>
    obtain ⟨n1, rest1⟩ := p
    rw [hpn] at h
    simp only at h
    cases hs1 : rest1.dropWhile isSpaceChar with
    | nil => rw [hs1] at h; simp at h
    | cons e rest2 =>
      rw [hs1] at h
      simp only at h
      by_cases he : e = '='
      · subst he
        rw [if_pos rfl] at h
        cases hs2 : rest2.dropWhile isSpaceChar with
        | nil => rw [hs2] at h; simp at h
        | cons q rest4 =>
          rw [hs2] at h
          simp only at h
          by_cases hq : q = '"' ∨ q = '\''
          · rw [if_pos (by simpa using hq)] at h
            cases hs3 : rest4.dropWhile (isQuotedValChar q) with
            | nil => rw [hs3] at h; simp at h
            | cons q2 rest6 =>
              rw [hs3] at h
              simp only at h
              by_cases hq2 : q2 = q
              · subst hq2
                rw [if_pos rfl] at h
                simp only [Option.some.injEq, Prod.mk.injEq] at h
                obtain ⟨rfl, rfl, rfl⟩ := h
                exact ⟨rest1, rest2, q2, rest4, rfl, hs1, hs2, hq, rfl, hs3⟩
              · rw [if_neg hq2] at h; simp at h
          · rw [if_neg (by simpa using hq)] at h
            simp at h
      · rw [if_neg he] at h
        simp at h

theorem tryUnquoted_inv {cs n v rest' : List Char}
    (h : tryUnquoted cs = some (n, v, rest')) :
    ∃ rest1 rest2,
      parseAttrName cs = some (n, rest1) ∧
      rest1.dropWhile isSpaceChar = '=' :: rest2 ∧
      v = (rest2.dropWhile isSpaceChar).takeWhile isUnquotedValChar ∧
      v ≠ [] ∧
      rest' = (rest2.dropWhile isSpaceChar).dropWhile isUnquotedValChar := by
  unfold tryUnquoted at h
  cases hpn : parseAttrName cs with
  | none => rw [hpn] at h; simp at h
  | some p =>
    obtain ⟨n1, rest1⟩ := p
    rw [hpn] at h
    simp only at h
    cases hs1 : rest1.dropWhile isSpaceChar with
    | nil => rw [hs1] at h; simp at h
    | cons e rest2 =>
      rw [hs1] at h
      simp only at h
      by_cases he : e = '='
      · subst he
        rw [if_pos rfl] at h
        by_cases hv0 : ((rest2.dropWhile isSpaceChar).takeWhile isUnquotedValChar).isEmpty = true
        · rw [if_pos hv0] at h; simp at h
        · rw [if_neg hv0] at h
          simp only [Option.some.injEq, Prod.mk.injEq] at h
          obtain ⟨rfl, rfl, rfl⟩ := h
          refine ⟨rest1, rest2, rfl, hs1, rfl, ?_, rfl⟩
          intro h0
          rw [h0] at hv0
          exact hv0 rfl
      · rw [if_neg he] at h
        simp at h

end XRss

namespace XRss

theorem parseAttrName_suffix {cs n rest : List Char}
    (h : parseAttrName cs = some (n, rest)) :
    rest <:+ cs ∧ rest.length < cs.length := by
  obtain ⟨c0, tail, rfl, -, -, rfl⟩ := parseAttrName_eq h
  refine ⟨(List.dropWhile_suffix _).trans (List.suffix_cons c0 tail), ?_⟩
  have := (List.dropWhile_suffix (l := tail) isNameTailChar).length_le
  simp only [List.length_cons]
  omega

theorem tryQuoted_shrink {cs n v rest' : List Char}
    (h : tryQuoted cs = some (n, v, rest')) :
    rest' <:+ cs ∧ rest'.length < cs.length := by
  obtain ⟨rest1, rest2, q, rest4, hpn, hs1, hs2, hq, hv, hs3⟩ := tryQuoted_inv h
  obtain ⟨hsuf1, hlen1⟩ := parseAttrName_suffix hpn
  have h4 : rest' <:+ rest4 := by
    have hd := List.dropWhile_suffix (l := rest4) (isQuotedValChar q)
    rw [hs3] at hd
    exact (List.suffix_cons q rest').trans hd
  have h42 : rest4 <:+ rest2 := by
    have hd := List.dropWhile_suffix (l := rest2) isSpaceChar
    rw [hs2] at hd
    exact (List.suffix_cons q rest4).trans hd
  have h21 : rest2 <:+ rest1 := by
    have hd := List.dropWhile_suffix (l := rest1) isSpaceChar
    rw [hs1] at hd
    exact (List.suffix_cons '=' rest2).trans hd
  have hchain : rest' <:+ rest1 := (h4.trans h42).trans h21
  exact ⟨hchain.trans hsuf1, lt_of_le_of_lt hchain.length_le hlen1⟩

theorem tryUnquoted_shrink {cs n v rest' : List Char}
    (h : tryUnquoted cs = some (n, v, rest')) :
    rest' <:+ cs ∧ rest'.length < cs.length := by
  obtain ⟨rest1, rest2, hpn, hs1, hv, hvne, hr⟩ := tryUnquoted_inv h
  obtain ⟨hsuf1, hlen1⟩ := parseAttrName_suffix hpn
  have h21 : rest2 <:+ rest1 := by
    have hd := List.dropWhile_suffix (l := rest1) isSpaceChar
    rw [hs1] at hd
    exact (List.suffix_cons '=' rest2).trans hd
  have hchain : rest' <:+ rest1 := by
    rw [hr]
    exact ((List.dropWhile_suffix _).trans (List.dropWhile_suffix _)).trans h21
  exact ⟨hchain.trans hsuf1, lt_of_le_of_lt hchain.length_le hlen1⟩

theorem parseAttrsGo_nil (f : Nat) : parseAttrsGo f [] = [] := by
  cases f <;> rfl

theorem parseAttrsGo_fuel : ∀ (f1 : Nat) (cs : List Char) (f2 : Nat),
    cs.length ≤ f1 → cs.length ≤ f2 → parseAttrsGo f1 cs = parseAttrsGo f2 cs := by
  intro f1
  induction f1 with
  | zero =>
    intro cs f2 h1 _
    have : cs = [] := List.length_eq_zero.mp (Nat.le_zero.mp h1)
    subst this
    rw [parseAttrsGo_nil, parseAttrsGo_nil]
  | succ g1 ih =>
    intro cs f2 h1 h2
    cases cs with
    | nil => rw [parseAttrsGo_nil, parseAttrsGo_nil]
    | cons c rest =>
      cases f2 with
      | zero => simp at h2
      | succ g2 =>
        have hr1 : rest.length ≤ g1 := by simp at h1; omega
        have hr2 : rest.length ≤ g2 := by simp at h2; omega
        cases hq : tryQuoted (c :: rest) with
        | some p =>
          obtain ⟨n, v, rest'⟩ := p
          have hs := (tryQuoted_shrink hq).2
          simp only [List.length_cons] at hs
          simp only [parseAttrsGo, hq]
          rw [ih rest' g2 (by omega) (by omega)]
        | none =>
          cases hu : tryUnquoted (c :: rest) with
          | some p =>
            obtain ⟨n, v, rest'⟩ := p
            have hs := (tryUnquoted_shrink hu).2
            simp only [List.length_cons] at hs
            simp only [parseAttrsGo, hq, hu]
            rw [ih rest' g2 (by omega) (by omega)]
          | none =>
            simp only [parseAttrsGo, hq, hu]
            rw [ih rest g2 hr1 hr2]

theorem parseAttrs_cons_q {c : Char} {rest n v rest' : List Char}
    (h : tryQuoted (c :: rest) = some (n, v, rest')) :
    parseAttrs (c :: rest) = (n, v) :: parseAttrs rest' := by
  unfold parseAttrs
  rw [show (c :: rest).length = rest.length + 1 from by simp]
  simp only [parseAttrsGo, h]
  have hs := (tryQuoted_shrink h).2
  simp only [List.length_cons] at hs
  rw [parseAttrsGo_fuel rest.length rest' rest'.length (by omega) le_rfl]

theorem parseAttrs_cons_u {c : Char} {rest n v rest' : List Char}
    (hq : tryQuoted (c :: rest) = none)
    (hu : tryUnquoted (c :: rest) = some (n, v, rest')) :
    parseAttrs (c :: rest) = (n, v) :: parseAttrs rest' := by
  unfold parseAttrs
  rw [show (c :: rest).length = rest.length + 1 from by simp]
  simp only [parseAttrsGo, hq, hu]
  have hs := (tryUnquoted_shrink hu).2
  simp only [List.length_cons] at hs
  rw [parseAttrsGo_fuel rest.length rest' rest'.length (by omega) le_rfl]

theorem parseAttrs_advance {c : Char} {rest : List Char}
    (hq : tryQuoted (c :: rest) = none) (hu : tryUnquoted (c :: rest) = none) :
    parseAttrs (c :: rest) = parseAttrs rest := by
  unfold parseAttrs
  rw [show (c :: rest).length = rest.length + 1 from by simp]
  simp only [parseAttrsGo, hq, hu]

theorem tryQuoted_none_of_notalpha {c : Char} {rest : List Char}
    (hc : c.isAlpha = false) : tryQuoted (c :: rest) = none := by
  unfold tryQuoted
  rw [show parseAttrName (c :: rest) = none from by
    simp [parseAttrName, hc]]

theorem tryUnquoted_none_of_notalpha {c : Char} {rest : List Char}
    (hc : c.isAlpha = false) : tryUnquoted (c :: rest) = none := by
  unfold tryUnquoted
  rw [show parseAttrName (c :: rest) = none from by
    simp [parseAttrName, hc]]

theorem tryQuoted_exact {n : List Char} (hv : validName n) {w : List Char}
    (hw : ∀ x ∈ w, isQuotedValChar '"' x = true) (rest : List Char) :
    tryQuoted (n ++ '=' :: '"' :: (w ++ '"' :: rest)) = some (n, w, rest) := by
  have hname := parseAttrName_exact hv (y := '=') (by decide) ('"' :: (w ++ '"' :: rest))
  unfold tryQuoted
  rw [hname]
  simp only
  rw [show List.dropWhile isSpaceChar ('=' :: '"' :: (w ++ '"' :: rest)) =
    '=' :: '"' :: (w ++ '"' :: rest) from by
      rw [List.dropWhile_cons, show isSpaceChar '=' = false from by decide]
      simp]
  simp only [if_pos rfl]
  rw [show List.dropWhile isSpaceChar ('"' :: (w ++ '"' :: rest)) =
    '"' :: (w ++ '"' :: rest) from by
      rw [List.dropWhile_cons, show isSpaceChar '"' = false from by decide]
      simp]
  simp only
  rw [if_pos (by simp)]
  rw [takeWhile_all_append _ hw, dropWhile_all_append _ hw]
  rw [show List.takeWhile (isQuotedValChar '"') ('"' :: rest) = [] from by
    rw [List.takeWhile_cons]; simp [isQuotedValChar]]
  rw [show List.dropWhile (isQuotedValChar '"') ('"' :: rest) = '"' :: rest from by
    rw [List.dropWhile_cons]; simp [isQuotedValChar]]
  simp

end XRss

namespace XRss

theorem tokChar_ne {x y : Char} (hx : tokChar x = true) (hy : tokChar y = false) :
    ¬ (x = y) := by
  intro he
  rw [he, hy] at hx
  exact Bool.false_ne_true hx

theorem escQuoteL_no_quote {v : List Char} : '"' ∉ escQuoteL v := by
  induction v with
  | nil => simp [escQuoteL]
  | cons c rest ih =>
    by_cases hc : c = '"'
    · subst hc
      simp only [escQuoteL, if_pos rfl, if_true]
      intro h
      simp only [List.mem_cons] at h
      rcases h with h | h | h | h | h | h | h
      · exact absurd h (by decide)
      · exact absurd h (by decide)
      · exact absurd h (by decide)
      · exact absurd h (by decide)
      · exact absurd h (by decide)
      · exact absurd h (by decide)
      · exact ih h
    · simp only [escQuoteL, if_neg hc]
      intro h
      rcases List.mem_cons.mp h with rfl | h
      · exact hc rfl
      · exact ih h

theorem escQuoteL_mem {x : Char} {v : List Char} (h : x ∈ escQuoteL v) :
    x ∈ v ∨ x ∈ ['&', 'q', 'u', 'o', 't', ';'] := by
  induction v with
  | nil => simp [escQuoteL] at h
  | cons c rest ih =>
    by_cases hc : c = '"'
    · subst hc
      simp only [escQuoteL, if_pos rfl] at h
      rcases List.mem_cons.mp h with rfl | h
      · right; simp
      · rcases List.mem_cons.mp h with rfl | h
        · right; simp
        · rcases List.mem_cons.mp h with rfl | h
          · right; simp
          · rcases List.mem_cons.mp h with rfl | h
            · right; simp
            · rcases List.mem_cons.mp h with rfl | h
              · right; simp
              · rcases List.mem_cons.mp h with rfl | h
                · right; simp
                · rcases ih h with h2 | h2
                  · left; simp [h2]
                  · right; exact h2
    · simp only [escQuoteL, if_neg hc] at h
      rcases List.mem_cons.mp h with rfl | h
      · left; simp
      · rcases ih h with h2 | h2
        · left; simp [h2]
        · right; exact h2

theorem escQuoteL_id {w : List Char} (h : '"' ∉ w) : escQuoteL w = w := by
  induction w with
  | nil => rfl
  | cons c rest ih =>
    have hc : ¬ (c = '"') := fun he => h (he ▸ List.mem_cons_self c rest)
    simp only [escQuoteL, if_neg hc]
    rw [ih (fun hx => h (List.mem_cons_of_mem c hx))]

theorem escQuoteL_idem (v : List Char) : escQuoteL (escQuoteL v) = escQuoteL v :=
  escQuoteL_id escQuoteL_no_quote

theorem escQuoteL_qvc {v : List Char}
    (hnl : ∀ x ∈ v, ¬ (x = '\n') ∧ ¬ (x = '\r')) :
    ∀ x ∈ escQuoteL v, isQuotedValChar '"' x = true := by
  intro x hx
  have hq : ¬ (x = '"') := fun he => escQuoteL_no_quote (he ▸ hx)
  rcases escQuoteL_mem hx with h | h
  · simp [isQuotedValChar, hq, (hnl x h).1, (hnl x h).2]
  · fin_cases h <;> decide

theorem escQuoteL_copy {t : List Char} (suf : List Char)
    (h : ∀ x ∈ t, ¬ (x = '"')) : escQuoteL (t ++ suf) = t ++ escQuoteL suf := by
  induction t with
  | nil => rfl
  | cons c rest ih =>
    simp only [List.cons_append, escQuoteL, if_neg (h c (by simp)), List.append_eq]
    rw [ih (fun x hx => h x (by simp [hx]))]

theorem escQuoteL_goodAmp {v : List Char} (h : goodAmp v = true) :
    goodAmp (escQuoteL v) = true := by
  induction v with
  | nil => rfl
  | cons c rest ih =>
    rw [goodAmp_cons_iff] at h
    by_cases hc : c = '"'
    · subst hc
      simp only [escQuoteL, if_pos rfl, if_true]
      rw [goodAmp_cons_iff]
      refine ⟨fun _ => ?_, ?_⟩
      · show entityAhead ('q' :: (['u', 'o', 't'] ++ ';' :: escQuoteL rest)) = true
        exact entityAhead_name (escQuoteL rest) (by decide) (by decide) (by decide)
          (by decide)
      · show goodAmp ('u' :: 'o' :: 't' :: ';' :: escQuoteL rest) = true
        rw [goodAmp_cons_iff, goodAmp_cons_iff, goodAmp_cons_iff, goodAmp_cons_iff]
        exact ⟨by intro h0; exact absurd h0 (by decide),
          by intro h0; exact absurd h0 (by decide),
          by intro h0; exact absurd h0 (by decide),
          by intro h0; exact absurd h0 (by decide), ih h.2⟩
    · simp only [escQuoteL, if_neg hc]
      rw [goodAmp_cons_iff]
      refine ⟨fun hamp => ?_, ih h.2⟩
      have he := h.1 hamp
      obtain ⟨t, suf, heq, hne, htok, hstab⟩ := entityAhead_decomp he
      rw [heq, escQuoteL_copy]
      · exact hstab _
      · exact fun x hx => tokChar_ne (htok x hx) (by decide)

end XRss

namespace XRss

theorem tryQuoted_rest4 {cs n v rest' : List Char}
    (h : tryQuoted cs = some (n, v, rest')) :
    ∃ q rest4, (q = '"' ∨ q = '\'') ∧ rest4 <:+ cs ∧
      v = rest4.takeWhile (isQuotedValChar q) := by
  obtain ⟨rest1, rest2, q, rest4, hpn, hs1, hs2, hq, hv, hs3⟩ := tryQuoted_inv h
  obtain ⟨hsuf1, -⟩ := parseAttrName_suffix hpn
  have h42 : rest4 <:+ rest2 := by
    have hd := List.dropWhile_suffix (l := rest2) isSpaceChar
    rw [hs2] at hd
    exact (List.suffix_cons q rest4).trans hd
  have h21 : rest2 <:+ rest1 := by
    have hd := List.dropWhile_suffix (l := rest1) isSpaceChar
    rw [hs1] at hd
    exact (List.suffix_cons '=' rest2).trans hd
  exact ⟨q, rest4, hq, ((h42.trans h21).trans hsuf1), hv⟩

theorem tryQuoted_name_mem {cs n v rest' : List Char}
    (h : tryQuoted cs = some (n, v, rest')) :
    validName n ∧ ∀ x ∈ n, x ∈ cs := by
  obtain ⟨rest1, rest2, q, rest4, hpn, -, -, -, -, -⟩ := tryQuoted_inv h
  refine ⟨parseAttrName_valid hpn, ?_⟩
  obtain ⟨c0, tail, rfl, -, rfl, -⟩ := parseAttrName_eq hpn
  intro x hx
  rcases List.mem_cons.mp hx with rfl | hx
  · simp
  · exact List.mem_cons_of_mem c0 ((List.takeWhile_sublist _).mem hx)

theorem tokChar_qvc {q : Char} (hq : q = '"' ∨ q = '\'') :
    ∀ x, tokChar x = true → isQuotedValChar q x = true := by
  intro x hx
  have h1 : ¬ (x = q) := by
    rcases hq with rfl | rfl
    · exact tokChar_ne hx (by decide)
    · exact tokChar_ne hx (by decide)
  simp [isQuotedValChar, h1, tokChar_ne hx (show tokChar '\n' = false by decide),
    tokChar_ne hx (show tokChar '\r' = false by decide)]

theorem tryQuoted_pair {cs n v rest' : List Char}
    (h : tryQuoted cs = some (n, v, rest')) :
    validName n ∧ (∀ x ∈ v, ¬ (x = '\n') ∧ ¬ (x = '\r')) ∧
    (∀ x ∈ n, x ∈ cs) ∧ (∀ x ∈ v, x ∈ cs) ∧
    (goodAmp cs = true → goodAmp v = true) := by
  obtain ⟨hvn, hnmem⟩ := tryQuoted_name_mem h
  obtain ⟨q, rest4, hq, hsuf, rfl⟩ := tryQuoted_rest4 h
  refine ⟨hvn, ?_, hnmem, ?_, ?_⟩
  · intro x hx
    have hqc := List.mem_takeWhile_imp hx
    constructor <;> intro he <;> subst he <;>
      simp [isQuotedValChar] at hqc
  · intro x hx
    exact hsuf.sublist.mem ((List.takeWhile_sublist _).mem hx)
  · intro hga
    exact goodAmp_takeWhile (tokChar_qvc hq) (goodAmp_suffix hsuf hga)

theorem isUnquotedValChar_not_nl {x : Char} (h : isUnquotedValChar x = true) :
    ¬ (x = '\n') ∧ ¬ (x = '\r') := by
  constructor <;> intro he <;> subst he <;> simp [isUnquotedValChar, isSpaceChar] at h

theorem tokChar_uvc : ∀ x, tokChar x = true → isUnquotedValChar x = true := by
  intro x hx
  simp only [isUnquotedValChar, Bool.and_eq_true, Bool.not_eq_true']
  constructor
  · by_contra hs
    rw [Bool.not_eq_false] at hs
    simp only [isSpaceChar, Bool.or_eq_true, decide_eq_true_eq] at hs
    rcases hs with (((((rfl | rfl) | rfl) | rfl) | rfl) | rfl) <;>
      exact absurd hx (by decide)
  · simp only [decide_eq_true_eq]
    exact tokChar_ne hx (by decide)

theorem tryUnquoted_pair {cs n v rest' : List Char}
    (h : tryUnquoted cs = some (n, v, rest')) :
    validName n ∧ (∀ x ∈ v, ¬ (x = '\n') ∧ ¬ (x = '\r')) ∧
    (∀ x ∈ n, x ∈ cs) ∧ (∀ x ∈ v, x ∈ cs) ∧
    (goodAmp cs = true → goodAmp v = true) := by
  obtain ⟨rest1, rest2, hpn, hs1, hv, hvne, hr⟩ := tryUnquoted_inv h
  obtain ⟨hsuf1, -⟩ := parseAttrName_suffix hpn
  have h21 : rest2 <:+ rest1 := by
    have hd := List.dropWhile_suffix (l := rest1) isSpaceChar
    rw [hs1] at hd
    exact (List.suffix_cons '=' rest2).trans hd
  have hsuf : rest2.dropWhile isSpaceChar <:+ cs :=
    ((List.dropWhile_suffix _).trans h21).trans hsuf1
  refine ⟨parseAttrName_valid hpn, ?_, ?_, ?_, ?_⟩
  · intro x hx
    rw [hv] at hx
    exact isUnquotedValChar_not_nl (List.mem_takeWhile_imp hx)
  · obtain ⟨c0, tail, rfl, -, rfl, -⟩ := parseAttrName_eq hpn
    intro x hx
    rcases List.mem_cons.mp hx with rfl | hx
    · simp
    · exact List.mem_cons_of_mem c0 ((List.takeWhile_sublist _).mem hx)
  · intro x hx
    rw [hv] at hx
    exact hsuf.sublist.mem ((List.takeWhile_sublist _).mem hx)
  · intro hga
    rw [hv]
    exact goodAmp_takeWhile tokChar_uvc (goodAmp_suffix hsuf hga)

theorem parseAttrsGo_mem : ∀ (fuel : Nat) (cs n v : List Char),
    (n, v) ∈ parseAttrsGo fuel cs →
    validName n ∧ (∀ x ∈ v, ¬ (x = '\n') ∧ ¬ (x = '\r')) ∧
    (∀ x ∈ n, x ∈ cs) ∧ (∀ x ∈ v, x ∈ cs) ∧
    (goodAmp cs = true → goodAmp v = true) := by
  intro fuel
  induction fuel with
  | zero => intro cs n v h; simp [parseAttrsGo] at h
  | succ g ih =>
    intro cs n v h
    cases cs with
    | nil => simp [parseAttrsGo] at h
    | cons c rest =>
      have hrest_lift : ∀ (w : List Char), w <:+ (c :: rest) →
          (validName n ∧ (∀ x ∈ v, ¬ (x = '\n') ∧ ¬ (x = '\r')) ∧
            (∀ x ∈ n, x ∈ w) ∧ (∀ x ∈ v, x ∈ w) ∧
            (goodAmp w = true → goodAmp v = true)) →
          validName n ∧ (∀ x ∈ v, ¬ (x = '\n') ∧ ¬ (x = '\r')) ∧
          (∀ x ∈ n, x ∈ c :: rest) ∧ (∀ x ∈ v, x ∈ c :: rest) ∧
          (goodAmp (c :: rest) = true → goodAmp v = true) := by
        intro w hw ⟨h1, h2, h3, h4, h5⟩
        exact ⟨h1, h2, fun x hx => hw.sublist.mem (h3 x hx),
          fun x hx => hw.sublist.mem (h4 x hx),
          fun hg => h5 (goodAmp_suffix hw hg)⟩
      cases hq : tryQuoted (c :: rest) with
      | some p =>
        obtain ⟨n1, v1, rest'⟩ := p
        simp only [parseAttrsGo, hq, List.mem_cons] at h
        rcases h with h | h
        · obtain ⟨rfl, rfl⟩ := Prod.mk.injEq .. ▸ h
          exact tryQuoted_pair hq
        · exact hrest_lift rest' (tryQuoted_shrink hq).1 (ih rest' n v h)
      | none =>
        cases hu : tryUnquoted (c :: rest) with
        | some p =>
          obtain ⟨n1, v1, rest'⟩ := p
          simp only [parseAttrsGo, hq, hu, List.mem_cons] at h
          rcases h with h | h
          · obtain ⟨rfl, rfl⟩ := Prod.mk.injEq .. ▸ h
            exact tryUnquoted_pair hu
          · exact hrest_lift rest' (tryUnquoted_shrink hu).1 (ih rest' n v h)
        | none =>
          simp only [parseAttrsGo, hq, hu] at h
          exact hrest_lift rest (List.suffix_cons c rest) (ih rest n v h)

theorem parseAttrs_mem {cs n v : List Char} (h : (n, v) ∈ parseAttrs cs) :
    validName n ∧ (∀ x ∈ v, ¬ (x = '\n') ∧ ¬ (x = '\r')) ∧
    (∀ x ∈ n, x ∈ cs) ∧ (∀ x ∈ v, x ∈ cs) ∧
    (goodAmp cs = true → goodAmp v = true) :=
  parseAttrsGo_mem cs.length cs n v h

theorem dedupeGo_subset : ∀ (seen : List (List Char))
    (ps : List (List Char × List Char)) (p : List Char × List Char),
    p ∈ dedupeGo seen ps → p ∈ ps := by
  intro seen ps
  induction ps generalizing seen with
  | nil => intro p h; simp [dedupeGo] at h
  | cons q rest ih =>
    intro p h
    obtain ⟨n, v⟩ := q
    by_cases hn : n ∈ seen
    · simp only [dedupeGo, if_pos hn] at h
      exact List.mem_cons_of_mem _ (ih seen p h)
    · simp only [dedupeGo, if_neg hn, List.mem_cons] at h
      rcases h with rfl | h
      · simp
      · exact List.mem_cons_of_mem _ (ih (n :: seen) p h)

theorem dedupeGo_distinct : ∀ (seen : List (List Char))
    (ps : List (List Char × List Char)),
    (dedupeGo seen ps).Pairwise (fun a b => a.1 ≠ b.1) ∧
    (∀ p ∈ dedupeGo seen ps, p.1 ∉ seen) := by
  intro seen ps
  induction ps generalizing seen with
  | nil => simp [dedupeGo]
  | cons q rest ih =>
    obtain ⟨n, v⟩ := q
    by_cases hn : n ∈ seen
    · simp only [dedupeGo, if_pos hn]
      exact ih seen
    · simp only [dedupeGo, if_neg hn]
      obtain ⟨hp, hs⟩ := ih (n :: seen)
      refine ⟨List.Pairwise.cons ?_ hp, ?_⟩
      · intro b hb
        have := hs b hb
        simp only [List.mem_cons] at this
        intro he
        exact this (Or.inl he.symm)
      · intro p hp2
        rcases List.mem_cons.mp hp2 with rfl | hp2
        · exact hn
        · have := hs p hp2
          simp only [List.mem_cons] at this
          intro hc
          exact this (Or.inr hc)

theorem dedupeGo_id : ∀ (seen : List (List Char))
    (ps : List (List Char × List Char)),
    ps.Pairwise (fun a b => a.1 ≠ b.1) → (∀ p ∈ ps, p.1 ∉ seen) →
    dedupeGo seen ps = ps := by
  intro seen ps
  induction ps generalizing seen with
  | nil => intro _ _; rfl
  | cons q rest ih =>
    intro hp hs
    obtain ⟨n, v⟩ := q
    have hn : n ∉ seen := hs (n, v) (by simp)
    rw [List.pairwise_cons] at hp
    obtain ⟨hhead, htail⟩ := hp
    have hclean : ∀ p ∈ rest, p.1 ∉ n :: seen := by
      intro p hp2
      simp only [List.mem_cons]
      intro hc
      rcases hc with hc | hc
      · exact hhead p hp2 hc.symm
      · exact hs p (List.mem_cons_of_mem _ hp2) hc
    simp only [dedupeGo, if_neg hn, ih (n :: seen) htail hclean]

end XRss

namespace XRss

theorem parseAttrs_nil : parseAttrs [] = [] := rfl

theorem parseAttrs_some_q {cs n v rest' : List Char}
    (h : tryQuoted cs = some (n, v, rest')) :
    parseAttrs cs = (n, v) :: parseAttrs rest' := by
  cases cs with
  | nil => exact absurd h (by simp [tryQuoted, parseAttrName])
  | cons c rest => exact parseAttrs_cons_q h

theorem parseAttrs_rebuild : ∀ (ps : List (List Char × List Char)),
    (∀ p ∈ ps, validName p.1) →
    (∀ p ∈ ps, ∀ x ∈ p.2, ¬ (x = '\n') ∧ ¬ (x = '\r')) →
    parseAttrs (' ' :: rebuildAttrs ps) =
      ps.map (fun p => (p.1, escQuoteL p.2)) := by
  intro ps
  induction ps with
  | nil =>
    intro _ _
    rw [parseAttrs_advance (tryQuoted_none_of_notalpha (by decide))
      (tryUnquoted_none_of_notalpha (by decide))]
    rfl
  | cons p rest ih =>
    intro hn hv
    obtain ⟨n, v⟩ := p
    have hvn : validName n := hn (n, v) (by simp)
    have hw : ∀ x ∈ escQuoteL v, isQuotedValChar '"' x = true :=
      escQuoteL_qvc (hv (n, v) (by simp))
    rw [parseAttrs_advance (tryQuoted_none_of_notalpha (by decide))
      (tryUnquoted_none_of_notalpha (by decide))]
    cases rest with
    | nil =>
      have h1 : tryQuoted (rebuildAttrs [(n, v)]) = some (n, escQuoteL v, []) := by
        rw [show rebuildAttrs [(n, v)] =
          n ++ '=' :: '"' :: (escQuoteL v ++ '"' :: []) from by
            simp [rebuildAttrs, rebuildAttr]]
        exact tryQuoted_exact hvn hw []
      rw [parseAttrs_some_q h1]
      rfl
    | cons q qs =>
      have h1 : tryQuoted (rebuildAttrs ((n, v) :: q :: qs)) =
          some (n, escQuoteL v, ' ' :: rebuildAttrs (q :: qs)) := by
        rw [show rebuildAttrs ((n, v) :: q :: qs) =
          n ++ '=' :: '"' :: (escQuoteL v ++ '"' :: (' ' :: rebuildAttrs (q :: qs)))
          from by simp [rebuildAttrs, rebuildAttr, List.append_assoc]]
        exact tryQuoted_exact hvn hw _
      rw [parseAttrs_some_q h1]
      rw [ih (fun r hr => hn r (List.mem_cons_of_mem _ hr))
        (fun r hr => hv r (List.mem_cons_of_mem _ hr))]
      rfl

theorem dedupe_map_esc (ps : List (List Char × List Char))
    (h : ps.Pairwise (fun a b => a.1 ≠ b.1)) :
    dedupeKeepFirst (ps.map (fun p => (p.1, escQuoteL p.2))) =
      ps.map (fun p => (p.1, escQuoteL p.2)) :=
  dedupeGo_id [] _ (List.pairwise_map.mpr h) (fun p _ => List.not_mem_nil p.1)

theorem rebuildAttrs_map_esc : ∀ ps : List (List Char × List Char),
    rebuildAttrs (ps.map (fun p => (p.1, escQuoteL p.2))) = rebuildAttrs ps := by
  intro ps
  induction ps with
  | nil => rfl
  | cons p rest ih =>
    cases rest with
    | nil => simp [rebuildAttrs, rebuildAttr, escQuoteL_idem]
    | cons q qs =>
      have h3 : rebuildAttrs ((p :: q :: qs).map (fun r => (r.1, escQuoteL r.2))) =
          rebuildAttr (p.1, escQuoteL p.2) ++
            ' ' :: rebuildAttrs ((q :: qs).map (fun r => (r.1, escQuoteL r.2))) := by
        simp [rebuildAttrs]
      rw [h3, ih]
      simp [rebuildAttrs, rebuildAttr, escQuoteL_idem]

end XRss

namespace XRss

theorem dropWhile_all {p : Char → Bool} {l : List Char}
    (h : ∀ x ∈ l, p x = true) : l.dropWhile p = [] := by
  have := dropWhile_all_append [] h
  simpa using this

theorem rebuildAttrs_cons2 (p q : List Char × List Char)
    (qs : List (List Char × List Char)) :
    rebuildAttrs (p :: q :: qs) = rebuildAttr p ++ ' ' :: rebuildAttrs (q :: qs) := rfl

theorem eq_mem_rebuildAttr (p : List Char × List Char) : '=' ∈ rebuildAttr p := by
  simp [rebuildAttr]

theorem eq_mem_rebuildAttrs (p : List Char × List Char)
    (ps : List (List Char × List Char)) : '=' ∈ rebuildAttrs (p :: ps) := by
  cases ps with
  | nil => exact eq_mem_rebuildAttr p
  | cons q qs =>
    rw [rebuildAttrs_cons2]
    exact List.mem_append_left _ (eq_mem_rebuildAttr p)

theorem rebuildAttrs_concat : ∀ (p : List Char × List Char)
    (ps : List (List Char × List Char)),
    ∃ w, rebuildAttrs (p :: ps) = w ++ ['"'] := by
  intro p ps
  induction ps generalizing p with
  | nil =>
    refine ⟨p.1 ++ '=' :: '"' :: escQuoteL p.2, ?_⟩
    show rebuildAttr p = _
    simp [rebuildAttr, List.append_assoc]
  | cons q qs ih =>
    obtain ⟨w, hw⟩ := ih q
    refine ⟨rebuildAttr p ++ ' ' :: w, ?_⟩
    rw [rebuildAttrs_cons2, hw]
    simp [List.append_assoc]

theorem eq_dropLast_concat : ∀ {l : List Char} {a : Char},
    l.getLast? = some a → l = l.dropLast ++ [a] := by
  intro l
  induction l with
  | nil => intro a h; simp at h
  | cons c rest ih =>
    intro a h
    cases rest with
    | nil =>
      simp only [List.getLast?_singleton, Option.some.injEq] at h
      subst h
      rfl
    | cons b bs =>
      rw [List.getLast?_cons_cons] at h
      have h2 := ih h
      rw [show (c :: b :: bs).dropLast = c :: (b :: bs).dropLast from rfl,
        List.cons_append, ← h2]

theorem processTag_cons_sc {c : Char} {rest : List Char}
    (hsc : (rest.dropWhile isNameTailChar).getLast? = some '/') :
    processTag (c :: rest) =
      if ((rest.dropWhile isNameTailChar).dropLast).all isSpaceChar then c :: rest
      else
        match dedupeKeepFirst (parseAttrs ((rest.dropWhile isNameTailChar).dropLast)) with
        | [] => (c :: rest.takeWhile isNameTailChar) ++ ['/']
        | p :: ps =>
          (c :: rest.takeWhile isNameTailChar) ++
            ' ' :: (rebuildAttrs (p :: ps) ++ ['/']) := by
  simp only [processTag, if_pos hsc]

theorem processTag_cons_nsc {c : Char} {rest : List Char}
    (hsc : ¬ ((rest.dropWhile isNameTailChar).getLast? = some '/')) :
    processTag (c :: rest) =
      if (rest.dropWhile isNameTailChar).all isSpaceChar then c :: rest
      else
        match dedupeKeepFirst (parseAttrs (rest.dropWhile isNameTailChar)) with
        | [] => c :: rest.takeWhile isNameTailChar
        | p :: ps =>
          (c :: rest.takeWhile isNameTailChar) ++ ' ' :: rebuildAttrs (p :: ps) := by
  simp only [processTag, if_neg hsc, List.append_nil]

end XRss

namespace XRss

theorem processTag_head (c : Char) (rest : List Char) :
    ∃ t, processTag (c :: rest) = c :: t := by
  by_cases hsc : (rest.dropWhile isNameTailChar).getLast? = some '/'
  · rw [processTag_cons_sc hsc]
    by_cases hall : ((rest.dropWhile isNameTailChar).dropLast).all isSpaceChar
    · rw [if_pos hall]; exact ⟨rest, rfl⟩
    · rw [if_neg hall]
      cases dedupeKeepFirst (parseAttrs ((rest.dropWhile isNameTailChar).dropLast)) with
      | nil => exact ⟨_, rfl⟩
      | cons p ps => exact ⟨_, rfl⟩
  · rw [processTag_cons_nsc hsc]
    by_cases hall : (rest.dropWhile isNameTailChar).all isSpaceChar
    · rw [if_pos hall]; exact ⟨rest, rfl⟩
    · rw [if_neg hall]
      cases dedupeKeepFirst (parseAttrs (rest.dropWhile isNameTailChar)) with
      | nil => exact ⟨_, rfl⟩
      | cons p ps => exact ⟨_, rfl⟩

theorem rebuildAttr_mem {x : Char} {p : List Char × List Char}
    (h : x ∈ rebuildAttr p) :
    (x ∈ p.1 ∨ x ∈ escQuoteL p.2) ∨ x = '=' ∨ x = '"' := by
  simp only [rebuildAttr, List.mem_append, List.mem_cons, List.mem_singleton,
    List.not_mem_nil, or_false] at h
  tauto

theorem rebuildAttrs_mem {x : Char} : ∀ {ps : List (List Char × List Char)},
    x ∈ rebuildAttrs ps →
    (∃ p ∈ ps, x ∈ p.1 ∨ x ∈ escQuoteL p.2) ∨ x = '=' ∨ x = '"' ∨ x = ' ' := by
  intro ps
  induction ps with
  | nil => intro h; simp [rebuildAttrs] at h
  | cons p rest ih =>
    intro h
    cases rest with
    | nil =>
      rcases rebuildAttr_mem (p := p) h with h | h
      · exact Or.inl ⟨p, by simp, h⟩
      · rcases h with h | h
        · exact Or.inr (Or.inl h)
        · exact Or.inr (Or.inr (Or.inl h))
    | cons q qs =>
      rw [rebuildAttrs_cons2] at h
      rcases List.mem_append.mp h with h | h
      · rcases rebuildAttr_mem h with h | h
        · exact Or.inl ⟨p, by simp, h⟩
        · rcases h with h | h
          · exact Or.inr (Or.inl h)
          · exact Or.inr (Or.inr (Or.inl h))
      · rcases List.mem_cons.mp h with rfl | h
        · exact Or.inr (Or.inr (Or.inr rfl))
        · rcases ih h with ⟨r, hr, hx⟩ | h
          · exact Or.inl ⟨r, List.mem_cons_of_mem _ hr, hx⟩
          · exact Or.inr h

theorem processTag_mem {x : Char} : ∀ {inner : List Char},
    x ∈ processTag inner →
    x ∈ inner ∨ x = '=' ∨ x = '"' ∨ x = ' ' ∨ x = '/' ∨
      x = '&' ∨ x = 'q' ∨ x = 'u' ∨ x = 'o' ∨ x = 't' ∨ x = ';' := by
  intro inner h
  cases inner with
  | nil => exact Or.inl h
  | cons c rest =>
    have hmem_tw : x ∈ c :: rest.takeWhile isNameTailChar → x ∈ c :: rest := by
      intro hx
      rcases List.mem_cons.mp hx with rfl | hx
      · simp
      · exact List.mem_cons_of_mem c ((List.takeWhile_sublist _).mem hx)
    have hmem_at : ∀ {w : List Char},
        (∀ y ∈ w, y ∈ rest.dropWhile isNameTailChar) →
        (∃ p ∈ dedupeKeepFirst (parseAttrs w), x ∈ p.1 ∨ x ∈ escQuoteL p.2) →
        x ∈ c :: rest ∨ x = '&' ∨ x = 'q' ∨ x = 'u' ∨ x = 'o' ∨
          x = 't' ∨ x = ';' := by
      intro w hw ⟨p, hp, hx⟩
      have hp2 := dedupeGo_subset [] _ p hp
      obtain ⟨-, -, hn, hv, -⟩ := parseAttrs_mem (n := p.1) (v := p.2)
        (by rw [show (p.1, p.2) = p from rfl]; exact hp2)
      have hdw : ∀ y, y ∈ rest.dropWhile isNameTailChar → y ∈ c :: rest :=
        fun y hy => List.mem_cons_of_mem c ((List.dropWhile_sublist _).mem hy)
      rcases hx with hx | hx
      · exact Or.inl (hdw x (hw x (hn x hx)))
      · rcases escQuoteL_mem hx with hx | hx
        · exact Or.inl (hdw x (hw x (hv x hx)))
        · simp only [List.mem_cons, List.not_mem_nil, or_false] at hx
          rcases hx with rfl | rfl | rfl | rfl | rfl | rfl
          · exact Or.inr (Or.inl rfl)
          · exact Or.inr (Or.inr (Or.inl rfl))
          · exact Or.inr (Or.inr (Or.inr (Or.inl rfl)))
          · exact Or.inr (Or.inr (Or.inr (Or.inr (Or.inl rfl))))
          · exact Or.inr (Or.inr (Or.inr (Or.inr (Or.inr (Or.inl rfl)))))
          · exact Or.inr (Or.inr (Or.inr (Or.inr (Or.inr (Or.inr rfl)))))
    by_cases hsc : (rest.dropWhile isNameTailChar).getLast? = some '/'
    · rw [processTag_cons_sc hsc] at h
      by_cases hall : ((rest.dropWhile isNameTailChar).dropLast).all isSpaceChar
      · rw [if_pos hall] at h; exact Or.inl h
      · rw [if_neg hall] at h
        have hwsub : ∀ y ∈ (rest.dropWhile isNameTailChar).dropLast,
            y ∈ rest.dropWhile isNameTailChar :=
          fun y hy => (List.dropLast_sublist _).mem hy
        cases hded : dedupeKeepFirst
            (parseAttrs ((rest.dropWhile isNameTailChar).dropLast)) with
        | nil =>
          rw [hded] at h
          rcases List.mem_append.mp h with h | h
          · exact Or.inl (hmem_tw h)
          · simp only [List.mem_singleton] at h
            subst h
            exact Or.inr (Or.inr (Or.inr (Or.inr (Or.inl rfl))))
        | cons p ps =>
          rw [hded] at h
          rcases List.mem_append.mp h with h | h
          · exact Or.inl (hmem_tw h)
          · rcases List.mem_cons.mp h with rfl | h
            · exact Or.inr (Or.inr (Or.inr (Or.inl rfl)))
            · rcases List.mem_append.mp h with h | h
              · rcases rebuildAttrs_mem h with hq | hq
                · rcases hmem_at hwsub (hded ▸ hq) with hh | hh
                  · exact Or.inl hh
                  · rcases hh with rfl | rfl | rfl | rfl | rfl | rfl
                    · exact Or.inr (Or.inr (Or.inr (Or.inr (Or.inr (Or.inl rfl)))))
                    · exact Or.inr (Or.inr (Or.inr (Or.inr (Or.inr (Or.inr (Or.inl rfl))))))
                    · exact Or.inr (Or.inr (Or.inr (Or.inr (Or.inr (Or.inr (Or.inr (Or.inl rfl)))))))
                    · exact Or.inr (Or.inr (Or.inr (Or.inr (Or.inr (Or.inr (Or.inr (Or.inr (Or.inl rfl))))))))
                    · exact Or.inr (Or.inr (Or.inr (Or.inr (Or.inr (Or.inr (Or.inr (Or.inr (Or.inr (Or.inl rfl)))))))))
                    · exact Or.inr (Or.inr (Or.inr (Or.inr (Or.inr (Or.inr (Or.inr (Or.inr (Or.inr (Or.inr rfl)))))))))
                · rcases hq with rfl | rfl | rfl
                  · exact Or.inr (Or.inl rfl)
                  · exact Or.inr (Or.inr (Or.inl rfl))
                  · exact Or.inr (Or.inr (Or.inr (Or.inl rfl)))
              · simp only [List.mem_singleton] at h
                subst h
                exact Or.inr (Or.inr (Or.inr (Or.inr (Or.inl rfl))))
    · rw [processTag_cons_nsc hsc] at h
      by_cases hall : (rest.dropWhile isNameTailChar).all isSpaceChar
      · rw [if_pos hall] at h; exact Or.inl h
      · rw [if_neg hall] at h
        cases hded : dedupeKeepFirst (parseAttrs (rest.dropWhile isNameTailChar)) with
        | nil =>
          rw [hded] at h
          exact Or.inl (hmem_tw h)
        | cons p ps =>
          rw [hded] at h
          rcases List.mem_append.mp h with h | h
          · exact Or.inl (hmem_tw h)
          · rcases List.mem_cons.mp h with rfl | h
            · exact Or.inr (Or.inr (Or.inr (Or.inl rfl)))
            · rcases rebuildAttrs_mem h with hq | hq
              · rcases hmem_at (fun y hy => hy) (hded ▸ hq) with hh | hh
                · exact Or.inl hh
                · rcases hh with rfl | rfl | rfl | rfl | rfl | rfl
                  · exact Or.inr (Or.inr (Or.inr (Or.inr (Or.inr (Or.inl rfl)))))
                  · exact Or.inr (Or.inr (Or.inr (Or.inr (Or.inr (Or.inr (Or.inl rfl))))))
                  · exact Or.inr (Or.inr (Or.inr (Or.inr (Or.inr (Or.inr (Or.inr (Or.inl rfl)))))))
                  · exact Or.inr (Or.inr (Or.inr (Or.inr (Or.inr (Or.inr (Or.inr (Or.inr (Or.inl rfl))))))))
                  · exact Or.inr (Or.inr (Or.inr (Or.inr (Or.inr (Or.inr (Or.inr (Or.inr (Or.inr (Or.inl rfl)))))))))
                  · exact Or.inr (Or.inr (Or.inr (Or.inr (Or.inr (Or.inr (Or.inr (Or.inr (Or.inr (Or.inr rfl)))))))))
              · rcases hq with rfl | rfl | rfl
                · exact Or.inr (Or.inl rfl)
                · exact Or.inr (Or.inr (Or.inl rfl))
                · exact Or.inr (Or.inr (Or.inr (Or.inl rfl)))

end XRss

namespace XRss

theorem processTag_sc_nil {c : Char} {rest : List Char}
    (hsc : (rest.dropWhile isNameTailChar).getLast? = some '/')
    (hall : ¬ ((rest.dropWhile isNameTailChar).dropLast.all isSpaceChar = true))
    (hded : dedupeKeepFirst
      (parseAttrs ((rest.dropWhile isNameTailChar).dropLast)) = []) :
    processTag (c :: rest) = (c :: rest.takeWhile isNameTailChar) ++ ['/'] := by
  rw [processTag_cons_sc hsc, if_neg hall, hded]

theorem processTag_sc_cons {c : Char} {rest : List Char}
    {p : List Char × List Char} {ps : List (List Char × List Char)}
    (hsc : (rest.dropWhile isNameTailChar).getLast? = some '/')
    (hall : ¬ ((rest.dropWhile isNameTailChar).dropLast.all isSpaceChar = true))
    (hded : dedupeKeepFirst
      (parseAttrs ((rest.dropWhile isNameTailChar).dropLast)) = p :: ps) :
    processTag (c :: rest) =
      (c :: rest.takeWhile isNameTailChar) ++
        ' ' :: (rebuildAttrs (p :: ps) ++ ['/']) := by
  rw [processTag_cons_sc hsc, if_neg hall, hded]

theorem processTag_nsc_nil {c : Char} {rest : List Char}
    (hsc : ¬ ((rest.dropWhile isNameTailChar).getLast? = some '/'))
    (hall : ¬ ((rest.dropWhile isNameTailChar).all isSpaceChar = true))
    (hded : dedupeKeepFirst (parseAttrs (rest.dropWhile isNameTailChar)) = []) :
    processTag (c :: rest) = c :: rest.takeWhile isNameTailChar := by
  rw [processTag_cons_nsc hsc, if_neg hall, hded]

theorem processTag_nsc_cons {c : Char} {rest : List Char}
    {p : List Char × List Char} {ps : List (List Char × List Char)}
    (hsc : ¬ ((rest.dropWhile isNameTailChar).getLast? = some '/'))
    (hall : ¬ ((rest.dropWhile isNameTailChar).all isSpaceChar = true))
    (hded : dedupeKeepFirst (parseAttrs (rest.dropWhile isNameTailChar)) = p :: ps) :
    processTag (c :: rest) =
      (c :: rest.takeWhile isNameTailChar) ++ ' ' :: rebuildAttrs (p :: ps) := by
  rw [processTag_cons_nsc hsc, if_neg hall, hded]

theorem processTag_tag_nil (c : Char) {tw : List Char}
    (htw : ∀ x ∈ tw, isNameTailChar x = true) :
    processTag (c :: tw) = c :: tw := by
  have hdr : tw.dropWhile isNameTailChar = [] := dropWhile_all htw
  have hsc : ¬ ((tw.dropWhile isNameTailChar).getLast? = some '/') := by
    rw [hdr]; simp
  rw [processTag_cons_nsc hsc, hdr]
  simp

theorem processTag_tag_slash (c : Char) {tw : List Char}
    (htw : ∀ x ∈ tw, isNameTailChar x = true) :
    processTag (c :: (tw ++ ['/'])) = c :: (tw ++ ['/']) := by
  have hdr : (tw ++ ['/']).dropWhile isNameTailChar = ['/'] := by
    rw [dropWhile_all_append _ htw]
    rw [List.dropWhile_cons, show isNameTailChar '/' = false from by decide]
    simp
  have hsc : ((tw ++ ['/']).dropWhile isNameTailChar).getLast? = some '/' := by
    rw [hdr]; rfl
  rw [processTag_cons_sc hsc, hdr]
  simp

theorem processTag_tag_attrs (c : Char) {tw : List Char}
    (htw : ∀ x ∈ tw, isNameTailChar x = true)
    {p : List Char × List Char} {ps : List (List Char × List Char)}
    (hnames : ∀ r ∈ p :: ps, validName r.1)
    (hvals : ∀ r ∈ p :: ps, ∀ x ∈ r.2, ¬ (x = '\n') ∧ ¬ (x = '\r'))
    (hdist : (p :: ps).Pairwise (fun a b => a.1 ≠ b.1))
    {slash : List Char} (hslash : slash = ['/'] ∨ slash = []) :
    processTag (c :: (tw ++ ' ' :: (rebuildAttrs (p :: ps) ++ slash))) =
      c :: (tw ++ ' ' :: (rebuildAttrs (p :: ps) ++ slash)) := by
  obtain ⟨w, hw⟩ := rebuildAttrs_concat p ps
  have hsp : isNameTailChar ' ' = false := by decide
  have hall : ¬ ((' ' :: rebuildAttrs (p :: ps)).all isSpaceChar = true) := by
    intro hcon
    have := List.all_eq_true.mp hcon '='
      (List.mem_cons_of_mem _ (eq_mem_rebuildAttrs p ps))
    exact absurd this (by decide)
  have hparse : dedupeKeepFirst (parseAttrs (' ' :: rebuildAttrs (p :: ps))) =
      (p.1, escQuoteL p.2) :: (List.map (fun r => (r.1, escQuoteL r.2)) ps) := by
    rw [parseAttrs_rebuild _ hnames hvals, dedupe_map_esc _ hdist, List.map_cons]
  have hrb : rebuildAttrs ((p.1, escQuoteL p.2) ::
      (List.map (fun r => (r.1, escQuoteL r.2)) ps)) = rebuildAttrs (p :: ps) := by
    rw [← List.map_cons (fun r => (r.1, escQuoteL r.2)) p ps, rebuildAttrs_map_esc]
  rcases hslash with rfl | rfl
  · have hdr : (tw ++ ' ' :: (rebuildAttrs (p :: ps) ++ ['/'])).dropWhile
        isNameTailChar = ' ' :: (rebuildAttrs (p :: ps) ++ ['/']) := by
      rw [dropWhile_all_append _ htw, List.dropWhile_cons, hsp]
      simp
    have hsc : ((tw ++ ' ' :: (rebuildAttrs (p :: ps) ++ ['/'])).dropWhile
        isNameTailChar).getLast? = some '/' := by
      rw [hdr, show ' ' :: (rebuildAttrs (p :: ps) ++ ['/']) =
        (' ' :: rebuildAttrs (p :: ps)) ++ ['/'] from rfl, List.getLast?_concat]
    have hdl : ((tw ++ ' ' :: (rebuildAttrs (p :: ps) ++ ['/'])).dropWhile
        isNameTailChar).dropLast = ' ' :: rebuildAttrs (p :: ps) := by
      rw [hdr, show ' ' :: (rebuildAttrs (p :: ps) ++ ['/']) =
        (' ' :: rebuildAttrs (p :: ps)) ++ ['/'] from rfl, List.dropLast_concat]
    rw [processTag_sc_cons hsc (by rw [hdl]; exact hall) (by rw [hdl]; exact hparse)]
    rw [hrb, takeWhile_all_append _ htw, List.takeWhile_cons, hsp]
    simp
  · simp only [List.append_nil]
    have hdr : (tw ++ ' ' :: rebuildAttrs (p :: ps)).dropWhile
        isNameTailChar = ' ' :: rebuildAttrs (p :: ps) := by
      rw [dropWhile_all_append _ htw, List.dropWhile_cons, hsp]
      simp
    have hsc : ¬ (((tw ++ ' ' :: rebuildAttrs (p :: ps)).dropWhile
        isNameTailChar).getLast? = some '/') := by
      rw [hdr, hw, show ' ' :: (w ++ ['"']) = (' ' :: w) ++ ['"'] from rfl,
        List.getLast?_concat]
      simp
    rw [processTag_nsc_cons hsc (by rw [hdr]; exact hall) (by rw [hdr]; exact hparse)]
    rw [hrb, takeWhile_all_append _ htw, List.takeWhile_cons, hsp]
    simp

end XRss

namespace XRss

theorem processTag_idem (inner : List Char) :
    processTag (processTag inner) = processTag inner := by
  cases inner with
  | nil => rfl
  | cons c rest =>
    have htw : ∀ x ∈ rest.takeWhile isNameTailChar, isNameTailChar x = true :=
      fun x hx => List.mem_takeWhile_imp hx
    by_cases hsc : (rest.dropWhile isNameTailChar).getLast? = some '/'
    · by_cases hall : ((rest.dropWhile isNameTailChar).dropLast.all isSpaceChar = true)
      · have h1 : processTag (c :: rest) = c :: rest := by
          rw [processTag_cons_sc hsc, if_pos hall]
        rw [h1, h1]
      · cases hded : dedupeKeepFirst
            (parseAttrs ((rest.dropWhile isNameTailChar).dropLast)) with
        | nil =>
          rw [processTag_sc_nil hsc hall hded]
          exact processTag_tag_slash c htw
        | cons p ps =>
          have hsub : ∀ r ∈ p :: ps,
              (r.1, r.2) ∈ parseAttrs ((rest.dropWhile isNameTailChar).dropLast) := by
            intro r hr
            have h2 := dedupeGo_subset [] _ r (by
              rw [show dedupeGo []
                (parseAttrs ((rest.dropWhile isNameTailChar).dropLast)) =
                dedupeKeepFirst
                  (parseAttrs ((rest.dropWhile isNameTailChar).dropLast)) from rfl,
                hded]
              exact hr)
            rw [show (r.1, r.2) = r from rfl]
            exact h2
          have hnames : ∀ r ∈ p :: ps, validName r.1 :=
            fun r hr => (parseAttrs_mem (hsub r hr)).1
          have hvals : ∀ r ∈ p :: ps, ∀ x ∈ r.2, ¬ (x = '\n') ∧ ¬ (x = '\r') :=
            fun r hr => (parseAttrs_mem (hsub r hr)).2.1
          have hdist : (p :: ps).Pairwise (fun a b => a.1 ≠ b.1) := by
            rw [← hded]
            exact (dedupeGo_distinct []
              (parseAttrs ((rest.dropWhile isNameTailChar).dropLast))).1
          rw [processTag_sc_cons hsc hall hded]
          exact processTag_tag_attrs c htw hnames hvals hdist (Or.inl rfl)
    · by_cases hall : ((rest.dropWhile isNameTailChar).all isSpaceChar = true)
      · have h1 : processTag (c :: rest) = c :: rest := by
          rw [processTag_cons_nsc hsc, if_pos hall]
        rw [h1, h1]
      · cases hded : dedupeKeepFirst
            (parseAttrs (rest.dropWhile isNameTailChar)) with
        | nil =>
          rw [processTag_nsc_nil hsc hall hded]
          exact processTag_tag_nil c htw
        | cons p ps =>
          have hsub : ∀ r ∈ p :: ps,
              (r.1, r.2) ∈ parseAttrs (rest.dropWhile isNameTailChar) := by
            intro r hr
            have h2 := dedupeGo_subset [] _ r (by
              rw [show dedupeGo [] (parseAttrs (rest.dropWhile isNameTailChar)) =
                dedupeKeepFirst (parseAttrs (rest.dropWhile isNameTailChar)) from rfl,
                hded]
              exact hr)
            rw [show (r.1, r.2) = r from rfl]
            exact h2
          have hnames : ∀ r ∈ p :: ps, validName r.1 :=
            fun r hr => (parseAttrs_mem (hsub r hr)).1
          have hvals : ∀ r ∈ p :: ps, ∀ x ∈ r.2, ¬ (x = '\n') ∧ ¬ (x = '\r') :=
            fun r hr => (parseAttrs_mem (hsub r hr)).2.1
          have hdist : (p :: ps).Pairwise (fun a b => a.1 ≠ b.1) := by
            rw [← hded]
            exact (dedupeGo_distinct []
              (parseAttrs (rest.dropWhile isNameTailChar))).1
          rw [processTag_nsc_cons hsc hall hded]
          have h3 := processTag_tag_attrs c htw hnames hvals hdist (Or.inr rfl)
          simpa using h3

end XRss

namespace XRss

theorem rdaL_idem_aux : ∀ (n : Nat) (cs : List Char), cs.length ≤ n →
    rdaL (rdaL cs) = rdaL cs := by
  intro n
  induction n with
  | zero =>
    intro cs h
    have : cs = [] := List.length_eq_zero.mp (Nat.le_zero.mp h)
    subst this
    rfl
  | succ m ih =>
    intro cs h
    cases cs with
    | nil => rfl
    | cons c rest =>
      simp only [List.length_cons] at h
      by_cases hc : c = '<'
      · subst hc
        cases rest with
        | nil => rfl
        | cons d rest2 =>
          by_cases hd : d.isAlpha = true
          · cases hsp : splitAtGt (d :: rest2) with
            | none => rw [rdaL_lt_nogt hd hsp, rdaL_lt_nogt hd hsp]
            | some pr =>
              obtain ⟨inner, after⟩ := pr
              obtain ⟨heq, hgt⟩ := splitAtGt_eq hsp
              have hlen := splitAtGt_length hsp
              cases inner with
              | nil =>
                simp only [List.nil_append, List.cons.injEq] at heq
                rw [heq.1] at hd
                exact absurd hd (by decide)
              | cons i0 irest =>
                have hi0 : i0 = d := by
                  simp only [List.cons_append, List.cons.injEq] at heq
                  exact heq.1.symm
                subst hi0
                rw [rdaL_tag hd hsp]
                obtain ⟨t, hpt⟩ := processTag_head i0 irest
                have hgt2 : '>' ∉ processTag (i0 :: irest) := by
                  intro hx
                  rcases processTag_mem hx with hx | hx
                  · exact hgt hx
                  · rcases hx with hx | hx | hx | hx | hx | hx | hx | hx | hx | hx <;>
                      exact absurd hx (by decide)
                have hgt3 : '>' ∉ i0 :: t := by rw [← hpt]; exact hgt2
                have hsp2 : splitAtGt (i0 :: (t ++ '>' :: rdaL after)) =
                    some (i0 :: t, rdaL after) := by
                  have := splitAtGt_append (a := i0 :: t) (rdaL after) hgt3
                  simpa using this
                have hafter : after.length ≤ m := by
                  simp only [List.length_cons, List.length_append] at h hlen
                  omega
                rw [show '<' :: (processTag (i0 :: irest) ++ '>' :: rdaL after) =
                  '<' :: i0 :: (t ++ '>' :: rdaL after) from by simp [hpt]]
                rw [rdaL_tag hd hsp2]
                rw [show (i0 :: t : List Char) = processTag (i0 :: irest) from hpt.symm,
                  processTag_idem, ih after hafter]
                simp [hpt]
          · have hd' : d.isAlpha = false := by
              rw [← Bool.not_eq_true]; exact hd
            rw [rdaL_lt_nonalpha hd']
            obtain ⟨t, ht⟩ := rdaL_head d rest2
            rw [ht, rdaL_lt_nonalpha hd', ← ht,
              ih (d :: rest2) (by simp only [List.length_cons] at h ⊢; omega)]
      · rw [rdaL_cons_copy hc, rdaL_cons_copy hc, ih rest (by omega)]

theorem rdaL_idem (cs : List Char) : rdaL (rdaL cs) = rdaL cs :=
  rdaL_idem_aux cs.length cs le_rfl

end XRss

namespace XRss

theorem validName_no_amp {n : List Char} (h : validName n) :
    ∀ x ∈ n, ¬ (x = '&') := by
  obtain ⟨c0, nt, rfl, hc0, hnt⟩ := h
  intro x hx
  rcases List.mem_cons.mp hx with rfl | hx
  · intro he
    rw [he] at hc0
    exact absurd hc0 (by decide)
  · intro he
    rw [he] at hx
    have := hnt '&' hx
    exact absurd this (by decide)

theorem rebuildAttr_goodAmp {p : List Char × List Char}
    (hn : ∀ x ∈ p.1, ¬ (x = '&')) (hv : goodAmp p.2 = true) :
    goodAmp (rebuildAttr p) = true := by
  show goodAmp (p.1 ++ '=' :: '"' :: (escQuoteL p.2 ++ ['"'])) = true
  refine goodAmp_append (goodAmp_of_no_amp hn) ?_
  rw [goodAmp_cons_iff]
  refine ⟨fun h => absurd h (by decide), ?_⟩
  rw [goodAmp_cons_iff]
  refine ⟨fun h => absurd h (by decide), ?_⟩
  exact goodAmp_append (escQuoteL_goodAmp hv) (by decide)

theorem rebuildAttrs_goodAmp : ∀ {ps : List (List Char × List Char)},
    (∀ r ∈ ps, ∀ x ∈ r.1, ¬ (x = '&')) →
    (∀ r ∈ ps, goodAmp r.2 = true) →
    goodAmp (rebuildAttrs ps) = true := by
  intro ps
  induction ps with
  | nil => intro _ _; rfl
  | cons p rest ih =>
    intro hn hv
    cases rest with
    | nil => exact rebuildAttr_goodAmp (hn p (by simp)) (hv p (by simp))
    | cons q qs =>
      rw [rebuildAttrs_cons2]
      refine goodAmp_append
        (rebuildAttr_goodAmp (hn p (by simp)) (hv p (by simp))) ?_
      rw [goodAmp_cons_iff]
      exact ⟨fun h => absurd h (by decide),
        ih (fun r hr => hn r (by simp [hr])) (fun r hr => hv r (by simp [hr]))⟩

theorem nameTail_no_amp {tw : List Char}
    (htw : ∀ x ∈ tw, isNameTailChar x = true) : ∀ x ∈ tw, ¬ (x = '&') := by
  intro x hx he
  rw [he] at hx
  have := htw '&' hx
  exact absurd this (by decide)

theorem processTag_goodAmp {d : Char} {irest : List Char}
    (hd : ¬ (d = '&')) (hin : goodAmp (d :: irest) = true) :
    goodAmp (processTag (d :: irest)) = true := by
  have htw : ∀ x ∈ irest.takeWhile isNameTailChar, isNameTailChar x = true :=
    fun x hx => List.mem_takeWhile_imp hx
  have hnotw : ∀ x ∈ d :: irest.takeWhile isNameTailChar, ¬ (x = '&') := by
    intro x hx
    rcases List.mem_cons.mp hx with rfl | hx
    · exact hd
    · exact nameTail_no_amp htw x hx
  have gaf : goodAmp (irest.dropWhile isNameTailChar) = true :=
    goodAmp_suffix (List.dropWhile_suffix _) ((goodAmp_cons_iff.mp hin).2)
  by_cases hsc : (irest.dropWhile isNameTailChar).getLast? = some '/'
  · have gat : goodAmp ((irest.dropWhile isNameTailChar).dropLast) = true := by
      have hspl := eq_dropLast_concat hsc
      rw [hspl] at gaf
      exact goodAmp_left_sep gaf (by decide)
    by_cases hall : ((irest.dropWhile isNameTailChar).dropLast.all isSpaceChar = true)
    · rw [processTag_cons_sc hsc, if_pos hall]
      exact hin
    · cases hded : dedupeKeepFirst
          (parseAttrs ((irest.dropWhile isNameTailChar).dropLast)) with
      | nil =>
        rw [processTag_sc_nil hsc hall hded]
        refine goodAmp_append (goodAmp_of_no_amp hnotw) (by decide)
      | cons p ps =>
        have hsub : ∀ r ∈ p :: ps,
            (r.1, r.2) ∈ parseAttrs ((irest.dropWhile isNameTailChar).dropLast) := by
          intro r hr
          have h2 := dedupeGo_subset [] _ r (by
            rw [show dedupeGo []
              (parseAttrs ((irest.dropWhile isNameTailChar).dropLast)) =
              dedupeKeepFirst
                (parseAttrs ((irest.dropWhile isNameTailChar).dropLast)) from rfl,
              hded]
            exact hr)
          rw [show (r.1, r.2) = r from rfl]
          exact h2
        rw [processTag_sc_cons hsc hall hded]
        refine goodAmp_append (goodAmp_of_no_amp hnotw) ?_
        rw [goodAmp_cons_iff]
        refine ⟨fun h => absurd h (by decide), ?_⟩
        refine goodAmp_append ?_ (by decide)
        exact rebuildAttrs_goodAmp
          (fun r hr => validName_no_amp (parseAttrs_mem (hsub r hr)).1)
          (fun r hr => (parseAttrs_mem (hsub r hr)).2.2.2.2 gat)
  · by_cases hall : ((irest.dropWhile isNameTailChar).all isSpaceChar = true)
    · rw [processTag_cons_nsc hsc, if_pos hall]
      exact hin
    · cases hded : dedupeKeepFirst
          (parseAttrs (irest.dropWhile isNameTailChar)) with
      | nil =>
        rw [processTag_nsc_nil hsc hall hded]
        exact goodAmp_of_no_amp hnotw
      | cons p ps =>
        have hsub : ∀ r ∈ p :: ps,
            (r.1, r.2) ∈ parseAttrs (irest.dropWhile isNameTailChar) := by
          intro r hr
          have h2 := dedupeGo_subset [] _ r (by
            rw [show dedupeGo [] (parseAttrs (irest.dropWhile isNameTailChar)) =
              dedupeKeepFirst (parseAttrs (irest.dropWhile isNameTailChar)) from rfl,
              hded]
            exact hr)
          rw [show (r.1, r.2) = r from rfl]
          exact h2
        rw [processTag_nsc_cons hsc hall hded]
        refine goodAmp_append (goodAmp_of_no_amp hnotw) ?_
        rw [goodAmp_cons_iff]
        refine ⟨fun h => absurd h (by decide), ?_⟩
        exact rebuildAttrs_goodAmp
          (fun r hr => validName_no_amp (parseAttrs_mem (hsub r hr)).1)
          (fun r hr => (parseAttrs_mem (hsub r hr)).2.2.2.2 gaf)

theorem rdaL_goodAmp_aux : ∀ (n : Nat) (cs : List Char), cs.length ≤ n →
    goodAmp cs = true → goodAmp (rdaL cs) = true := by
  intro n
  induction n with
  | zero =>
    intro cs h hg
    have : cs = [] := List.length_eq_zero.mp (Nat.le_zero.mp h)
    subst this
    rfl
  | succ m ih =>
    intro cs h hg
    cases cs with
    | nil => rfl
    | cons c rest =>
      simp only [List.length_cons] at h
      rw [goodAmp_cons_iff] at hg
      by_cases hc : c = '<'
      · subst hc
        cases rest with
        | nil => rfl
        | cons d rest2 =>
          by_cases hd : d.isAlpha = true
          · cases hsp : splitAtGt (d :: rest2) with
            | none =>
              rw [rdaL_lt_nogt hd hsp, goodAmp_cons_iff]
              exact ⟨fun hcc => absurd hcc (by decide), hg.2⟩
            | some pr =>
              obtain ⟨inner, after⟩ := pr
              obtain ⟨heq, hgt⟩ := splitAtGt_eq hsp
              have hlen := splitAtGt_length hsp
              have gsplit : goodAmp (inner ++ '>' :: after) = true := by
                rw [← heq]
                exact hg.2
              have gin : goodAmp inner = true :=
                goodAmp_left_sep gsplit (by decide)
              have gafter : goodAmp after = true :=
                (goodAmp_cons_iff.mp (goodAmp_right gsplit)).2
              have hafter : after.length ≤ m := by
                simp only [List.length_cons, List.length_append] at h hlen
                omega
              cases inner with
              | nil =>
                simp only [List.nil_append, List.cons.injEq] at heq
                rw [heq.1] at hd
                exact absurd hd (by decide)
              | cons i0 irest =>
                have hi0 : i0 = d := by
                  simp only [List.cons_append, List.cons.injEq] at heq
                  exact heq.1.symm
                subst hi0
                rw [rdaL_tag hd hsp, goodAmp_cons_iff]
                refine ⟨fun hcc => absurd hcc (by decide), ?_⟩
                refine goodAmp_append
                  (processTag_goodAmp (fun he => by rw [he] at hd; exact absurd hd (by decide)) gin) ?_
                rw [goodAmp_cons_iff]
                exact ⟨fun hcc => absurd hcc (by decide), ih after hafter gafter⟩
          · have hd' : d.isAlpha = false := by
              rw [← Bool.not_eq_true]; exact hd
            rw [rdaL_lt_nonalpha hd', goodAmp_cons_iff]
            refine ⟨fun hcc => absurd hcc (by decide), ?_⟩
            exact ih (d :: rest2) (by simp only [List.length_cons] at h ⊢; omega) hg.2
      · rw [rdaL_cons_copy hc, goodAmp_cons_iff]
        refine ⟨?_, ih rest (by omega) hg.2⟩
        intro hcc
        have hea := hg.1 hcc
        obtain ⟨t, suf, heq2, -, htok, hstab⟩ := entityAhead_decomp hea
        have hnolt : ∀ x ∈ t, ¬ (x = '<') := by
          intro x hx he
          rw [he] at hx
          have := htok '<' hx
          exact absurd this (by decide)
        rw [heq2, rdaL_copy_prefix _ hnolt]
        exact hstab _

theorem rdaL_goodAmp {cs : List Char} (h : goodAmp cs = true) :
    goodAmp (rdaL cs) = true :=
  rdaL_goodAmp_aux cs.length cs le_rfl h

theorem fixXmlPart_idem (cs : List Char) :
    fixXmlPart (fixXmlPart cs) = fixXmlPart cs := by
  unfold fixXmlPart
  rw [escAmpL_id_of_goodAmp (rdaL_goodAmp (goodAmp_escAmpL cs)), rdaL_idem]

end XRss

namespace XRss

/-- C5: the XML Sanitizer is idempotent with respect to the ampersand-escaping
repair and the duplicate-attribute-removal repair: for every input string,
escaping ampersands twice equals escaping them once, removing duplicate
attributes twice equals removing them once, and the composition of the two
repairs as applied by the Sanitizer to each non-CDATA segment (`fixXmlPart`)
is likewise idempotent, so running the Sanitizer's two regex repairs on their
own output reproduces that output. -/
theorem sanitizer_idempotent_spec (s : String) :
    escAmpL (escAmpL s.data) = escAmpL s.data ∧
    removeDuplicateAttributes (removeDuplicateAttributes s) =
      removeDuplicateAttributes s ∧
    fixXmlPart (fixXmlPart s.data) = fixXmlPart s.data := by
  refine ⟨escAmpL_idem s.data, ?_, fixXmlPart_idem s.data⟩
  unfold removeDuplicateAttributes
  exact congrArg String.mk (rdaL_idem s.data)

end XRss

/-! ### The Response Rewriter: non-idempotence and conditional idempotence (claim C6) -/

namespace XRss

theorem containsL_append_right {pat : List Char} (ys : List Char) {zs : List Char}
    (h : containsL pat zs = true) : containsL pat (ys ++ zs) = true := by
  induction ys with
  | nil => exact h
  | cons y ys' ih =>
    rw [List.cons_append]
    simp only [containsL, Bool.or_eq_true]
    exact Or.inr ih

theorem containsL_append_left {pat u : List Char} (v : List Char)
    (h : containsL pat u = true) : containsL pat (u ++ v) = true := by
  induction u with
  | nil =>
    simp only [containsL, List.isEmpty_iff] at h
    subst h
    cases v with
    | nil => rfl
    | cons x xs => simp [containsL, List.isPrefixOf]
  | cons c rest ih =>
    simp only [containsL, Bool.or_eq_true] at h
    rw [List.cons_append]
    simp only [containsL, Bool.or_eq_true]
    rcases h with h | h
    · left
      rw [List.isPrefixOf_iff_prefix] at h ⊢
      exact h.trans (List.prefix_append _ _)
    · exact Or.inr (ih h)

theorem containsL_suffix {pat u v : List Char} (hs : u <:+ v)
    (h : containsL pat u = true) : containsL pat v = true := by
  obtain ⟨w, rfl⟩ := hs
  exact containsL_append_right w h

theorem lowerL_append (a b : List Char) : lowerL (a ++ b) = lowerL a ++ lowerL b :=
  List.map_append _ a b

theorem lowerL_suffix {u v : List Char} (h : u <:+ v) : lowerL u <:+ lowerL v := by
  obtain ⟨w, rfl⟩ := h
  exact ⟨lowerL w, (lowerL_append w u).symm⟩

theorem hasRelSelf_suffix {u t : List Char} (hs : u <:+ t)
    (h : hasRelSelf u = true) : hasRelSelf t = true := by
  simp only [hasRelSelf, Bool.or_eq_true] at h ⊢
  rcases h with ((h | h) | h) | h
  · exact Or.inl (Or.inl (Or.inl (containsL_suffix (lowerL_suffix hs) h)))
  · exact Or.inl (Or.inl (Or.inr (containsL_suffix (lowerL_suffix hs) h)))
  · exact Or.inl (Or.inr (containsL_suffix (lowerL_suffix hs) h))
  · exact Or.inr (containsL_suffix (lowerL_suffix hs) h)

theorem hasRelSelf_nil : hasRelSelf [] = false := rfl

theorem hasRelSelf_ne_nil {t : List Char} (h : hasRelSelf t = true) : t ≠ [] := by
  intro he
  subst he
  rw [hasRelSelf_nil] at h
  exact Bool.false_ne_true h

theorem getLast?_append_right {u : List Char} (w : List Char) (h : u ≠ []) :
    (w ++ u).getLast? = u.getLast? := by
  induction w with
  | nil => rfl
  | cons x w' ih =>
    have hne : w' ++ u ≠ [] := by
      intro hc
      exact h (List.append_eq_nil.mp hc).2
    rw [List.cons_append]
    cases hwu : w' ++ u with
    | nil => exact absurd hwu hne
    | cons b bs =>
      rw [List.getLast?_cons_cons, ← hwu, ih]

theorem getLast?_suffix {u t : List Char} (hs : u <:+ t) (h : u ≠ []) :
    u.getLast? = t.getLast? := by
  obtain ⟨w, rfl⟩ := hs
  exact (getLast?_append_right w h).symm

theorem splitAtGt_none {cs : List Char} (h : '>' ∉ cs) : splitAtGt cs = none := by
  induction cs with
  | nil => rfl
  | cons c rest ih =>
    have hc : ¬ (c = '>') := fun he => h (he ▸ List.mem_cons_self c rest)
    simp only [splitAtGt, if_neg hc]
    rw [ih (fun hx => h (List.mem_cons_of_mem c hx))]

theorem mem_of_append_eq : ∀ {l1 : List Char} {a : Char} {l2 p r : List Char},
    l1 ++ a :: l2 = p ++ r → l1.length < p.length → a ∈ p := by
  intro l1
  induction l1 with
  | nil =>
    intro a l2 p r heq hlt
    cases p with
    | nil => simp at hlt
    | cons p0 ps =>
      simp only [List.nil_append, List.cons_append, List.cons.injEq] at heq
      exact heq.1 ▸ List.mem_cons_self p0 ps
  | cons x l1' ih =>
    intro a l2 p r heq hlt
    cases p with
    | nil => simp at hlt
    | cons p0 ps =>
      simp only [List.cons_append, List.cons.injEq] at heq
      simp only [List.length_cons] at hlt
      exact List.mem_cons_of_mem p0 (ih heq.2 (by omega))

theorem containsL_append_start {pat : List Char} {p0 : Char} {pr : List Char}
    (hp : pat = p0 :: pr) : ∀ (a b : List Char),
    containsL pat (a ++ b) = true → containsL pat b = true ∨ p0 ∈ a := by
  intro a
  induction a with
  | nil => intro b h; exact Or.inl h
  | cons x a' ih =>
    intro b h
    rw [List.cons_append] at h
    simp only [containsL, Bool.or_eq_true] at h
    rcases h with h | h
    · rw [hp] at h
      cases hx : (p0 == x) with
      | false =>
        rw [List.isPrefixOf] at h
        rw [hx] at h
        simp at h
      | true =>
        have : p0 = x := by
          have := beq_iff_eq.mp hx
          exact this
        exact Or.inr (this ▸ List.mem_cons_self x a')
    · rcases ih b h with h | h
      · exact Or.inl h
      · exact Or.inr (List.mem_cons_of_mem x h)

end XRss

namespace XRss

end XRss

namespace XRss

theorem raGo_nil (repl : List Char) (f : Nat) : rewriteAtomGo repl f [] = [] := by
  cases f <;> rfl

theorem splitAtGt_after_len {c : Char} {rest t after : List Char}
    (hsp : splitAtGt ((c :: rest).drop 10) = some (t, after)) :
    after.length + 10 ≤ rest.length := by
  have hlen := splitAtGt_length hsp
  have hd : ((c :: rest).drop 10).length = (c :: rest).length - 10 :=
    List.length_drop 10 _
  simp only [List.length_cons] at hd
  omega

theorem raGo_fuel (repl : List Char) : ∀ (f1 : Nat) (cs : List Char) (f2 : Nat),
    cs.length ≤ f1 → cs.length ≤ f2 →
    rewriteAtomGo repl f1 cs = rewriteAtomGo repl f2 cs := by
  intro f1
  induction f1 with
  | zero =>
    intro cs f2 h1 _
    have : cs = [] := List.length_eq_zero.mp (Nat.le_zero.mp h1)
    subst this
    rw [raGo_nil, raGo_nil]
  | succ g1 ih =>
    intro cs f2 h1 h2
    cases cs with
    | nil => rw [raGo_nil, raGo_nil]
    | cons c rest =>
      cases f2 with
      | zero => simp at h2
      | succ g2 =>
        simp only [List.length_cons] at h1 h2
        have hr1 : rest.length ≤ g1 := by omega
        have hr2 : rest.length ≤ g2 := by omega
        by_cases hci : ciPrefix "<atom:link".data (c :: rest) = true
        · cases hsp : splitAtGt ((c :: rest).drop 10) with
          | none =>
            simp only [rewriteAtomGo, if_pos hci, hsp]
            rw [ih rest g2 hr1 hr2]
          | some p =>
            obtain ⟨t, after⟩ := p
            have hal := splitAtGt_after_len hsp
            by_cases hrs : hasRelSelf t = true
            · by_cases hcl : ciPrefix "</atom:link>".data after = true
              · simp only [rewriteAtomGo, if_pos hci, hsp, if_pos hrs, if_pos hcl]
                have : (after.drop 12).length ≤ after.length :=
                  List.length_drop 12 after ▸ Nat.sub_le _ _
                rw [ih (after.drop 12) g2 (by omega) (by omega)]
              · by_cases hl : t.getLast? = some '/'
                · simp only [rewriteAtomGo, if_pos hci, hsp, if_pos hrs,
                    if_neg hcl, if_pos hl]
                  rw [ih after g2 (by omega) (by omega)]
                · simp only [rewriteAtomGo, if_pos hci, hsp, if_pos hrs,
                    if_neg hcl, if_neg hl]
                  rw [ih rest g2 hr1 hr2]
            · simp only [rewriteAtomGo, if_pos hci, hsp, if_neg hrs]
              rw [ih rest g2 hr1 hr2]
        · simp only [rewriteAtomGo, if_neg hci]
          rw [ih rest g2 hr1 hr2]

def raL (repl cs : List Char) : List Char := rewriteAtomGo repl cs.length cs

theorem rewriteAtomL_eq_raL (escUrl cs : List Char) :
    rewriteAtomL escUrl cs = raL (atomRepl escUrl) cs := rfl

theorem raL_nil (repl : List Char) : raL repl [] = [] := rfl

theorem raL_copy {repl : List Char} {c : Char} {rest : List Char}
    (hci : ¬ (ciPrefix "<atom:link".data (c :: rest) = true)) :
    raL repl (c :: rest) = c :: raL repl rest := by
  unfold raL
  rw [show (c :: rest).length = rest.length + 1 from by simp]
  simp only [rewriteAtomGo, if_neg hci]

theorem raL_sp_none {repl : List Char} {c : Char} {rest : List Char}
    (hci : ciPrefix "<atom:link".data (c :: rest) = true)
    (hsp : splitAtGt ((c :: rest).drop 10) = none) :
    raL repl (c :: rest) = c :: raL repl rest := by
  unfold raL
  rw [show (c :: rest).length = rest.length + 1 from by simp]
  simp only [rewriteAtomGo, if_pos hci, hsp]

theorem raL_pair {repl : List Char} {c : Char} {rest t after : List Char}
    (hci : ciPrefix "<atom:link".data (c :: rest) = true)
    (hsp : splitAtGt ((c :: rest).drop 10) = some (t, after))
    (hrs : hasRelSelf t = true)
    (hcl : ciPrefix "</atom:link>".data after = true) :
    raL repl (c :: rest) = repl ++ raL repl (after.drop 12) := by
  unfold raL
  rw [show (c :: rest).length = rest.length + 1 from by simp]
  simp only [rewriteAtomGo, if_pos hci, hsp, if_pos hrs, if_pos hcl]
  have hal := splitAtGt_after_len hsp
  have hd : (after.drop 12).length ≤ after.length :=
    List.length_drop 12 after ▸ Nat.sub_le _ _
  rw [raGo_fuel repl rest.length (after.drop 12) (after.drop 12).length
    (by omega) le_rfl]

theorem raL_self {repl : List Char} {c : Char} {rest t after : List Char}
    (hci : ciPrefix "<atom:link".data (c :: rest) = true)
    (hsp : splitAtGt ((c :: rest).drop 10) = some (t, after))
    (hrs : hasRelSelf t = true)
    (hcl : ¬ (ciPrefix "</atom:link>".data after = true))
    (hl : t.getLast? = some '/') :
    raL repl (c :: rest) = repl ++ raL repl after := by
  unfold raL
  rw [show (c :: rest).length = rest.length + 1 from by simp]
  simp only [rewriteAtomGo, if_pos hci, hsp, if_pos hrs, if_neg hcl, if_pos hl]
  have hal := splitAtGt_after_len hsp
  rw [raGo_fuel repl rest.length after after.length (by omega) le_rfl]

theorem raL_fail_rs {repl : List Char} {c : Char} {rest t after : List Char}
    (hci : ciPrefix "<atom:link".data (c :: rest) = true)
    (hsp : splitAtGt ((c :: rest).drop 10) = some (t, after))
    (hrs : ¬ (hasRelSelf t = true)) :
    raL repl (c :: rest) = c :: raL repl rest := by
  unfold raL
  rw [show (c :: rest).length = rest.length + 1 from by simp]
  simp only [rewriteAtomGo, if_pos hci, hsp, if_neg hrs]

theorem raL_fail_nt {repl : List Char} {c : Char} {rest t after : List Char}
    (hci : ciPrefix "<atom:link".data (c :: rest) = true)
    (hsp : splitAtGt ((c :: rest).drop 10) = some (t, after))
    (hrs : hasRelSelf t = true)
    (hcl : ¬ (ciPrefix "</atom:link>".data after = true))
    (hl : ¬ (t.getLast? = some '/')) :
    raL repl (c :: rest) = c :: raL repl rest := by
  unfold raL
  rw [show (c :: rest).length = rest.length + 1 from by simp]
  simp only [rewriteAtomGo, if_pos hci, hsp, if_pos hrs, if_neg hcl, if_neg hl]

end XRss

namespace XRss

theorem atomPat_eq : "<atom:link".data = '<' :: "atom:link".data := rfl

theorem closePat_eq : "</atom:link>".data = '<' :: "/atom:link>".data := rfl

theorem ciPrefix_atom_head {c : Char} {rest : List Char}
    (hci : ciPrefix "<atom:link".data (c :: rest) = true) :
    Char.toLower c = '<' := by
  rw [ciPrefix, atomPat_eq] at hci
  simp only [lowerL, List.map_cons, List.isPrefixOf, Bool.and_eq_true] at hci
  exact (beq_iff_eq.mp hci.1).symm

theorem raL_cases (repl : List Char) (c : Char) (rest : List Char) :
    raL repl (c :: rest) = c :: raL repl rest ∨
    (ciPrefix "<atom:link".data (c :: rest) = true ∧
      ∃ X, raL repl (c :: rest) = repl ++ raL repl X ∧ X.length ≤ rest.length) := by
  by_cases hci : ciPrefix "<atom:link".data (c :: rest) = true
  · cases hsp : splitAtGt ((c :: rest).drop 10) with
    | none => exact Or.inl (raL_sp_none hci hsp)
    | some p =>
      obtain ⟨t, after⟩ := p
      have hal := splitAtGt_after_len hsp
      by_cases hrs : hasRelSelf t = true
      · by_cases hcl : ciPrefix "</atom:link>".data after = true
        · refine Or.inr ⟨hci, after.drop 12, raL_pair hci hsp hrs hcl, ?_⟩
          have : (after.drop 12).length ≤ after.length :=
            List.length_drop 12 after ▸ Nat.sub_le _ _
          omega
        · by_cases hl : t.getLast? = some '/'
          · exact Or.inr ⟨hci, after, raL_self hci hsp hrs hcl hl, by omega⟩
          · exact Or.inl (raL_fail_nt hci hsp hrs hcl hl)
      · exact Or.inl (raL_fail_rs hci hsp hrs)
  · exact Or.inl (raL_copy hci)

theorem raL_nolt_pref {repl : List Char} (r' : List Char) (hrepl : repl = '<' :: r') :
    ∀ (n : Nat) (cs : List Char), cs.length ≤ n → ∀ p : List Char, '<' ∉ p →
    p.isPrefixOf (lowerL (raL repl cs)) = p.isPrefixOf (lowerL cs) := by
  intro n
  induction n with
  | zero =>
    intro cs h p _
    have : cs = [] := List.length_eq_zero.mp (Nat.le_zero.mp h)
    subst this
    rfl
  | succ m ih =>
    intro cs h p hp
    cases cs with
    | nil => rfl
    | cons c rest =>
      simp only [List.length_cons] at h
      rcases raL_cases repl c rest with hcopy | ⟨hci, X, hmatch, hlen⟩
      · rw [hcopy]
        cases p with
        | nil => rfl
        | cons p0 p' =>
          simp only [lowerL, List.map_cons, List.isPrefixOf]
          have hp' : '<' ∉ p' := fun hx => hp (List.mem_cons_of_mem _ hx)
          have h2 := ih rest (by omega) p' hp'
          simp only [lowerL] at h2
          rw [h2]
      · rw [hmatch, hrepl]
        have hc : Char.toLower c = '<' := ciPrefix_atom_head hci
        cases p with
        | nil => rfl
        | cons p0 p' =>
          have hp0 : ¬ (p0 = '<') := fun he => hp (he ▸ List.mem_cons_self _ _)
          simp only [List.cons_append, lowerL, List.map_cons, List.isPrefixOf]
          rw [show Char.toLower '<' = '<' from rfl, hc,
            show (p0 == '<') = false from beq_eq_false_iff_ne.mpr hp0]
          simp

theorem raL_close_pref {repl : List Char} (r' : List Char) (hrepl : repl = '<' :: r')
    (hrC : ∀ X, ("</atom:link>".data).isPrefixOf (lowerL (repl ++ X)) = false) :
    ∀ (n : Nat) (cs : List Char), cs.length ≤ n →
    ciPrefix "</atom:link>".data (raL repl cs) =
      ciPrefix "</atom:link>".data cs := by
  intro n
  induction n with
  | zero =>
    intro cs h
    have : cs = [] := List.length_eq_zero.mp (Nat.le_zero.mp h)
    subst this
    rfl
  | succ m ih =>
    intro cs h
    cases cs with
    | nil => rfl
    | cons c rest =>
      simp only [List.length_cons] at h
      rcases raL_cases repl c rest with hcopy | ⟨hci, X, hmatch, hlen⟩
      · rw [hcopy, ciPrefix, ciPrefix, closePat_eq]
        simp only [lowerL, List.map_cons, List.isPrefixOf]
        have h2 := raL_nolt_pref r' hrepl rest.length rest le_rfl
          "/atom:link>".data (by decide)
        simp only [lowerL] at h2
        rw [h2]
      · rw [hmatch]
        rw [show ciPrefix "</atom:link>".data (repl ++ raL repl X) =
          ("</atom:link>".data).isPrefixOf (lowerL (repl ++ raL repl X)) from rfl,
          hrC (raL repl X)]
        rw [ciPrefix] at hci ⊢
        rw [List.isPrefixOf_iff_prefix] at hci
        obtain ⟨z, hz⟩ := hci
        rw [← hz, closePat_eq,
          show "<atom:link".data = '<' :: 'a' :: "tom:link".data from rfl]
        simp [List.isPrefixOf]

theorem ciPrefix_atom_cons {repl : List Char} (r' : List Char)
    (hrepl : repl = '<' :: r') (c : Char) (rest : List Char) :
    ciPrefix "<atom:link".data (c :: raL repl rest) =
      ciPrefix "<atom:link".data (c :: rest) := by
  rw [ciPrefix, ciPrefix, atomPat_eq]
  simp only [lowerL, List.map_cons, List.isPrefixOf]
  have h2 := raL_nolt_pref r' hrepl rest.length rest le_rfl
    "atom:link".data (by decide)
  simp only [lowerL] at h2
  rw [h2]

theorem close_pref_cons {repl : List Char} (r' : List Char)
    (hrepl : repl = '<' :: r') (c : Char) (rest : List Char) :
    ("</atom:link>".data).isPrefixOf (lowerL (c :: raL repl rest)) =
      ("</atom:link>".data).isPrefixOf (lowerL (c :: rest)) := by
  rw [closePat_eq]
  simp only [lowerL, List.map_cons, List.isPrefixOf]
  have h2 := raL_nolt_pref r' hrepl rest.length rest le_rfl
    "/atom:link>".data (by decide)
  simp only [lowerL] at h2
  rw [h2]

end XRss

namespace XRss

theorem seg_fail_tail {x : Char} {u' X : List Char}
    (hfail : hasRelSelf (x :: u') = false ∨
      (¬ ((x :: u').getLast? = some '/') ∧
        ¬ (ciPrefix "</atom:link>".data X = true))) :
    hasRelSelf u' = false ∨
      (¬ (u'.getLast? = some '/') ∧ ¬ (ciPrefix "</atom:link>".data X = true)) := by
  rcases hfail with h | ⟨h1, h2⟩
  · left
    cases hr : hasRelSelf u' with
    | false => rfl
    | true =>
      have h3 := hasRelSelf_suffix (List.suffix_cons x u') hr
      rw [h] at h3
      exact absurd h3 (by simp)
  · right
    refine ⟨?_, h2⟩
    cases hu : u' with
    | nil => simp
    | cons b bs =>
      rw [← hu, getLast?_suffix (List.suffix_cons x u') (by rw [hu]; simp)]
      exact h1

theorem drop_append_of_le {a : List Char} : ∀ (b : List Char) (n : Nat),
    n ≤ a.length → (a ++ b).drop n = a.drop n ++ b := by
  induction a with
  | nil =>
    intro b n h
    have : n = 0 := Nat.le_zero.mp h
    subst this
    simp
  | cons x a' ih =>
    intro b n h
    cases n with
    | zero => simp
    | succ m =>
      simp only [List.length_cons] at h
      rw [List.cons_append, List.drop_succ_cons, List.drop_succ_cons,
        ih b m (by omega)]

theorem raL_seg {repl : List Char} : ∀ (u X : List Char),
    '>' ∉ u →
    (hasRelSelf u = false ∨
      (¬ (u.getLast? = some '/') ∧ ¬ (ciPrefix "</atom:link>".data X = true))) →
    raL repl (u ++ '>' :: X) = u ++ '>' :: raL repl X := by
  intro u
  induction u with
  | nil =>
    intro X _ _
    have hci : ¬ (ciPrefix "<atom:link".data ('>' :: X) = true) := by
      intro hcon
      rw [ciPrefix, List.isPrefixOf_iff_prefix] at hcon
      obtain ⟨z, hz⟩ := hcon
      have : Char.toLower '>' = '<' := by
        rw [atomPat_eq] at hz
        simp only [lowerL, List.map_cons, List.cons_append, List.cons.injEq] at hz
        exact hz.1.symm
      exact absurd this (by decide)
    rw [List.nil_append, raL_copy hci]
    rfl
  | cons x u' ih =>
    intro X hgt hfail
    rw [List.cons_append]
    by_cases hci : ciPrefix "<atom:link".data (x :: (u' ++ '>' :: X)) = true
    · have h10 : 10 ≤ (x :: u').length := by
        by_contra hlt
        push_neg at hlt
        rw [ciPrefix, List.isPrefixOf_iff_prefix] at hci
        obtain ⟨z, hz⟩ := hci
        rw [show (x :: (u' ++ '>' :: X)) = (x :: u') ++ '>' :: X from rfl,
          lowerL_append] at hz
        have hz2 : lowerL (x :: u') ++ '>' :: lowerL X =
            "<atom:link".data ++ z := hz.symm
        have hmem := mem_of_append_eq hz2
          (by simp only [lowerL, List.length_map]; simpa using hlt)
        exact absurd hmem (by decide)
      have hdr : ((x :: (u' ++ '>' :: X)).drop 10) =
          (x :: u').drop 10 ++ '>' :: X := by
        rw [show (x :: (u' ++ '>' :: X)) = (x :: u') ++ '>' :: X from rfl]
        exact drop_append_of_le _ 10 h10
      have hgtd : '>' ∉ (x :: u').drop 10 :=
        fun hx => hgt (List.drop_subset 10 _ hx)
      have hsp : splitAtGt ((x :: (u' ++ '>' :: X)).drop 10) =
          some ((x :: u').drop 10, X) := by
        rw [hdr]
        exact splitAtGt_append _ hgtd
      have hsuf : (x :: u').drop 10 <:+ x :: u' := List.drop_suffix 10 _
      by_cases hrs : hasRelSelf ((x :: u').drop 10) = true
      · rcases hfail with hrsu | ⟨hlast, hclose⟩
        · exfalso
          have h3 := hasRelSelf_suffix hsuf hrs
          rw [hrsu] at h3
          exact absurd h3 (by simp)
        · have hl : ¬ (((x :: u').drop 10).getLast? = some '/') := by
            rw [getLast?_suffix hsuf (hasRelSelf_ne_nil hrs)]
            exact hlast
          rw [raL_fail_nt hci hsp hrs hclose hl]
          rw [ih X (fun hx => hgt (List.mem_cons_of_mem x hx))
            (seg_fail_tail (Or.inr ⟨hlast, hclose⟩))]
          rfl
      · rw [raL_fail_rs hci hsp hrs]
        rw [ih X (fun hx => hgt (List.mem_cons_of_mem x hx)) (seg_fail_tail hfail)]
        rfl
    · rw [raL_copy hci]
      rw [ih X (fun hx => hgt (List.mem_cons_of_mem x hx)) (seg_fail_tail hfail)]
      rfl

theorem splitAtGt_none_mem : ∀ {cs : List Char}, splitAtGt cs = none → '>' ∉ cs := by
  intro cs
  induction cs with
  | nil => intro _ h; simp at h
  | cons c rest ih =>
    intro h hx
    by_cases hc : c = '>'
    · subst hc
      simp [splitAtGt] at h
    · simp only [splitAtGt, if_neg hc] at h
      cases hsp : splitAtGt rest with
      | none =>
        rcases List.mem_cons.mp hx with he | hx2
        · exact hc he.symm
        · exact ih hsp hx2
      | some p =>
        obtain ⟨a, b⟩ := p
        rw [hsp] at h
        simp at h

theorem raL_no_gt (repl : List Char) : ∀ (cs : List Char),
    '>' ∉ cs.drop 9 → raL repl cs = cs := by
  intro cs
  induction cs with
  | nil => intro _; rfl
  | cons c rest ih =>
    intro h
    have hr : '>' ∉ rest.drop 9 := by
      intro hx
      have h2 : rest.drop 9 = (rest.drop 8).drop 1 := by
        rw [List.drop_drop]
      have h3 : (c :: rest).drop 9 = rest.drop 8 := rfl
      rw [h2] at hx
      exact h ((h3 ▸ List.drop_subset 1 (rest.drop 8)) hx)
    by_cases hci : ciPrefix "<atom:link".data (c :: rest) = true
    · have hsp : splitAtGt ((c :: rest).drop 10) = none := by
        apply splitAtGt_none
        intro hx
        rw [show (c :: rest).drop 10 = rest.drop 9 from rfl] at hx
        exact hr hx
      rw [raL_sp_none hci hsp, ih hr]
    · rw [raL_copy hci, ih hr]

theorem hasRelSelf_append_left_junk {w1 t : List Char}
    (hw : lowerL w1 = "atom:link".data)
    (h : hasRelSelf (w1 ++ t) = true) : hasRelSelf t = true := by
  simp only [hasRelSelf, Bool.or_eq_true] at h ⊢
  rw [show lowerL (w1 ++ t) = lowerL w1 ++ lowerL t from lowerL_append w1 t, hw] at h
  rcases h with ((h | h) | h) | h
  · rcases containsL_append_start rfl _ _ h with h2 | h2
    · exact Or.inl (Or.inl (Or.inl h2))
    · exact absurd h2 (by decide)
  · rcases containsL_append_start rfl _ _ h with h2 | h2
    · exact Or.inl (Or.inl (Or.inr h2))
    · exact absurd h2 (by decide)
  · rcases containsL_append_start rfl _ _ h with h2 | h2
    · exact Or.inl (Or.inr h2)
    · exact absurd h2 (by decide)
  · rcases containsL_append_start rfl _ _ h with h2 | h2
    · exact Or.inr h2
    · exact absurd h2 (by decide)

theorem raL_on_repl {repl R : List Char}
    (hR : repl = R ++ ['>']) (hgtR : '>' ∉ R) (h10 : 10 ≤ R.length)
    (hrA : ∀ X, ("<atom:link".data).isPrefixOf (lowerL (repl ++ X)) = true)
    (hrs : hasRelSelf (R.drop 10) = true)
    (hl : (R.drop 10).getLast? = some '/') :
    ∀ X, ¬ (ciPrefix "</atom:link>".data X = true) →
    raL repl (repl ++ X) = repl ++ raL repl X := by
  intro X hncX
  have hshape : repl ++ X = R ++ '>' :: X := by
    rw [hR, List.append_assoc]
    rfl
  cases hRc : R with
  | nil => rw [hRc] at h10; simp at h10
  | cons r0 R' =>
    have hciX : ciPrefix "<atom:link".data (r0 :: (R' ++ '>' :: X)) = true := by
      have h2 := hrA X
      rw [hshape, hRc] at h2
      exact h2
    have hsp : splitAtGt ((r0 :: (R' ++ '>' :: X)).drop 10) =
        some (R.drop 10, X) := by
      rw [show (r0 :: (R' ++ '>' :: X)) = (r0 :: R') ++ '>' :: X from rfl,
        drop_append_of_le _ 10 (by rw [hRc] at h10; exact h10), ← hRc]
      exact splitAtGt_append _ (fun hx => hgtR (List.drop_subset 10 R hx))
    have hout : raL repl (r0 :: (R' ++ '>' :: X)) = repl ++ raL repl X :=
      raL_self hciX hsp hrs hncX hl
    rw [hshape, hRc, List.cons_append]
    exact hout

end XRss

namespace XRss

theorem containsL_of_isPrefixOf {P z : List Char} (hP : P ≠ [])
    (h : P.isPrefixOf z = true) : containsL P z = true := by
  cases z with
  | nil =>
    cases P with
    | nil => exact absurd rfl hP
    | cons p0 pr => simp [List.isPrefixOf] at h
  | cons c rest =>
    simp only [containsL, Bool.or_eq_true]
    exact Or.inl h

theorem containsL_append_elim {P : List Char} : ∀ (a b : List Char),
    containsL P (a ++ b) = true →
    containsL P b = true ∨
      ∃ w, w <:+ a ∧ w ≠ [] ∧ P.isPrefixOf (w ++ b) = true := by
  intro a
  induction a with
  | nil => intro b h; exact Or.inl h
  | cons x a' ih =>
    intro b h
    rw [List.cons_append] at h
    simp only [containsL, Bool.or_eq_true] at h
    rcases h with h | h
    · exact Or.inr ⟨x :: a', List.suffix_refl _, by simp, h⟩
    · rcases ih b h with h2 | ⟨w, hw, hne, hpre⟩
      · exact Or.inl h2
      · exact Or.inr ⟨w, hw.trans (List.suffix_cons x a'), hne, hpre⟩

theorem toNat_ofNat_valid {n : Nat} (h : n.isValidChar) :
    (Char.ofNat n).toNat = n := by
  unfold Char.ofNat
  rw [dif_pos h]
  rfl

theorem toLower_eq_lt {x : Char} (h : Char.toLower x = '<') : x = '<' := by
  simp only [Char.toLower] at h
  by_cases hc : x.toNat ≥ 65 ∧ x.toNat ≤ 90
  · exfalso
    rw [if_pos hc] at h
    have h2 := congrArg Char.toNat h
    rw [toNat_ofNat_valid (Or.inl (by omega))] at h2
    rw [show ('<').toNat = 60 from by decide] at h2
    omega
  · rw [if_neg hc] at h
    exact h

theorem escXmlChar_no_gt (a : Char) : '>' ∉ escXmlChar a := by
  unfold escXmlChar
  by_cases h1 : a = '<'
  · rw [if_pos h1]; decide
  · rw [if_neg h1]
    by_cases h2 : a = '>'
    · rw [if_pos h2]; decide
    · rw [if_neg h2]
      by_cases h3 : a = '"'
      · rw [if_pos h3]; decide
      · rw [if_neg h3]
        by_cases h4 : a = '\''
        · rw [if_pos h4]; decide
        · rw [if_neg h4]
          intro hx
          rcases List.mem_singleton.mp hx with rfl
          exact h2 rfl

theorem escapeXmlL_no_gt (url : List Char) : '>' ∉ escapeXmlL url := by
  intro hx
  unfold escapeXmlL at hx
  obtain ⟨a, -, hmem⟩ := List.mem_flatMap.mp hx
  exact escXmlChar_no_gt a hmem

theorem escXmlChar_no_lt (a : Char) : '<' ∉ escXmlChar a := by
  unfold escXmlChar
  by_cases h1 : a = '<'
  · rw [if_pos h1]; decide
  · rw [if_neg h1]
    by_cases h2 : a = '>'
    · rw [if_pos h2]; decide
    · rw [if_neg h2]
      by_cases h3 : a = '"'
      · rw [if_pos h3]; decide
      · rw [if_neg h3]
        by_cases h4 : a = '\''
        · rw [if_pos h4]; decide
        · rw [if_neg h4]
          intro hx
          rcases List.mem_singleton.mp hx with rfl
          exact h1 rfl

theorem escapeXmlL_no_lt (url : List Char) : '<' ∉ escapeXmlL url := by
  intro hx
  unfold escapeXmlL at hx
  obtain ⟨a, -, hmem⟩ := List.mem_flatMap.mp hx
  exact escXmlChar_no_lt a hmem

theorem isPrefixOf_append_left {p a : List Char} (b : List Char)
    (h : p.isPrefixOf a = true) : p.isPrefixOf (a ++ b) = true := by
  rw [List.isPrefixOf_iff_prefix] at h ⊢
  exact h.trans (List.prefix_append a b)

theorem isPrefixOf_append_of_le {p a b : List Char}
    (h : p.isPrefixOf (a ++ b) = true) (hle : p.length ≤ a.length) :
    p.isPrefixOf a = true := by
  rw [List.isPrefixOf_iff_prefix] at h ⊢
  exact List.prefix_of_prefix_length_le h (List.prefix_append a b) hle

theorem no_lt_lowerL {z : List Char} (h : '<' ∉ z) : '<' ∉ lowerL z := by
  intro hx
  obtain ⟨x, hxz, hxl⟩ := List.mem_map.mp hx
  exact h (toLower_eq_lt hxl ▸ hxz)

theorem NC_repl_append {repl r' : List Char} (hhead : repl = '<' :: r')
    (hlt : '<' ∉ lowerL r')
    (hrC : ∀ X, ("</atom:link>".data).isPrefixOf (lowerL (repl ++ X)) = false)
    {y : List Char} (hy : containsL "</atom:link>".data (lowerL y) = false) :
    containsL "</atom:link>".data (lowerL (repl ++ y)) = false := by
  cases hcon : containsL "</atom:link>".data (lowerL (repl ++ y)) with
  | false => rfl
  | true =>
    exfalso
    rw [lowerL_append] at hcon
    rcases containsL_append_elim _ _ hcon with h | ⟨w, hw, hne, hpre⟩
    · rw [h] at hy
      exact absurd hy (by simp)
    · rw [show lowerL repl = '<' :: lowerL r' from by rw [hhead]; rfl] at hw
      rcases List.suffix_cons_iff.mp hw with hwhole | hw2
      · rw [hwhole, show ('<' :: lowerL r' : List Char) = lowerL repl from by
          rw [hhead]; rfl, ← lowerL_append] at hpre
        rw [hrC y] at hpre
        exact absurd hpre (by simp)
      · cases w with
        | nil => exact hne rfl
        | cons w0 w1 =>
          rw [closePat_eq] at hpre
          simp only [List.cons_append, List.isPrefixOf, Bool.and_eq_true] at hpre
          have hw0 : w0 = '<' := (beq_iff_eq.mp hpre.1).symm
          exact hlt (hw2.sublist.mem (hw0 ▸ List.mem_cons_self w0 w1))

theorem containsL_close_seg {seg Z : List Char}
    (hseg : containsL "</atom:link>".data (lowerL seg) = false)
    (hlast : seg.getLast? = some '>')
    (hZ : containsL "</atom:link>".data (lowerL Z) = false) :
    containsL "</atom:link>".data (lowerL (seg ++ Z)) = false := by
  cases hcon : containsL "</atom:link>".data (lowerL (seg ++ Z)) with
  | false => rfl
  | true =>
    exfalso
    rw [lowerL_append] at hcon
    rcases containsL_append_elim _ _ hcon with h | ⟨w, hw, hne, hpre⟩
    · rw [h] at hZ
      exact absurd hZ (by simp)
    · have hlastw : (lowerL seg).getLast? = some '>' := by
        rw [show seg = seg.dropLast ++ ['>'] from eq_dropLast_concat hlast,
          lowerL_append]
        rw [show lowerL ['>'] = ['>'] from rfl]
        exact List.getLast?_concat _
      have hwlast : w.getLast? = some '>' := by
        rw [getLast?_suffix hw hne]
        exact hlastw
      by_cases hlen : 12 ≤ w.length
      · have h2 : ("</atom:link>".data).isPrefixOf w = true :=
          isPrefixOf_append_of_le hpre (by
            rw [show ("</atom:link>".data).length = 12 from by decide]
            exact hlen)
        have h3 := containsL_of_isPrefixOf (by decide) h2
        have h4 := containsL_suffix hw h3
        rw [h4] at hseg
        exact absurd hseg (by simp)
      · push_neg at hlen
        rw [List.isPrefixOf_iff_prefix] at hpre
        have hwc : w <+: "</atom:link>".data :=
          List.prefix_of_prefix_length_le (List.prefix_append w (lowerL Z)) hpre
            (by rw [show ("</atom:link>".data).length = 12 from by decide]; omega)
        have hwc2 : w <+: "</atom:link".data := by
          rw [show "</atom:link>".data = "</atom:link".data ++ ['>'] from rfl] at hwc
          exact List.prefix_of_prefix_length_le hwc (List.prefix_append _ _)
            (by rw [show ("</atom:link".data).length = 11 from by decide]; omega)
        have hgtw : '>' ∈ w := by
          rw [eq_dropLast_concat hwlast]
          exact List.mem_append_right _ (List.mem_singleton.mpr rfl)
        have h5 : '>' ∈ "</atom:link".data := hwc2.sublist.mem hgtw
        exact absurd h5 (by decide)

end XRss

namespace XRss

theorem NC_tail {c : Char} {z : List Char}
    (h : containsL "</atom:link>".data (lowerL (c :: z)) = false) :
    containsL "</atom:link>".data (lowerL z) = false := by
  rw [show lowerL (c :: z) = Char.toLower c :: lowerL z from rfl] at h
  simp only [containsL, Bool.or_eq_false_iff] at h
  exact h.2

theorem NC_head {c : Char} {z : List Char}
    (h : containsL "</atom:link>".data (lowerL (c :: z)) = false) :
    ("</atom:link>".data).isPrefixOf (lowerL (c :: z)) = false := by
  rw [show lowerL (c :: z) = Char.toLower c :: lowerL z from rfl] at h ⊢
  simp only [containsL, Bool.or_eq_false_iff] at h
  exact h.1

theorem NC_suffix {u v : List Char} (hs : u <:+ v)
    (h : containsL "</atom:link>".data (lowerL v) = false) :
    containsL "</atom:link>".data (lowerL u) = false := by
  cases hcon : containsL "</atom:link>".data (lowerL u) with
  | false => rfl
  | true =>
    rw [containsL_suffix (lowerL_suffix hs) hcon] at h
    exact absurd h (by simp)

theorem NC_pref {u v w : List Char} (hv : v = u ++ w)
    (h : containsL "</atom:link>".data (lowerL v) = false) :
    containsL "</atom:link>".data (lowerL u) = false := by
  cases hcon : containsL "</atom:link>".data (lowerL u) with
  | false => rfl
  | true =>
    rw [hv, lowerL_append] at h
    rw [containsL_append_left (lowerL w) hcon] at h
    exact absurd h (by simp)

theorem NC_no_ciPrefix {z : List Char}
    (h : containsL "</atom:link>".data (lowerL z) = false) :
    ¬ (ciPrefix "</atom:link>".data z = true) := by
  intro hcon
  rw [ciPrefix] at hcon
  rw [containsL_of_isPrefixOf (by decide) hcon] at h
  exact absurd h (by simp)

theorem raL_idem_nc {repl R r' : List Char}
    (hR : repl = R ++ ['>']) (hhead : repl = '<' :: r')
    (hltr : '<' ∉ lowerL r')
    (hgtR : '>' ∉ R) (h10 : 10 ≤ R.length)
    (hrA : ∀ X, ("<atom:link".data).isPrefixOf (lowerL (repl ++ X)) = true)
    (hrC : ∀ X, ("</atom:link>".data).isPrefixOf (lowerL (repl ++ X)) = false)
    (hrs0 : hasRelSelf (R.drop 10) = true)
    (hl0 : (R.drop 10).getLast? = some '/') :
    ∀ (n : Nat) (cs : List Char), cs.length ≤ n →
      containsL "</atom:link>".data (lowerL cs) = false →
      raL repl (raL repl cs) = raL repl cs ∧
      containsL "</atom:link>".data (lowerL (raL repl cs)) = false := by
  intro n
  induction n with
  | zero =>
    intro cs h hnc
    have : cs = [] := List.length_eq_zero.mp (Nat.le_zero.mp h)
    subst this
    exact ⟨rfl, hnc⟩
  | succ m ih =>
    intro cs h hnc
    cases cs with
    | nil => exact ⟨rfl, hnc⟩
    | cons c rest =>
      simp only [List.length_cons] at h
      have hncr : containsL "</atom:link>".data (lowerL rest) = false :=
        NC_tail hnc
      by_cases hci : ciPrefix "<atom:link".data (c :: rest) = true
      · cases hsp : splitAtGt ((c :: rest).drop 10) with
        | none =>
          have hng : '>' ∉ rest.drop 9 := by
            have h2 := splitAtGt_none_mem hsp
            rw [show (c :: rest).drop 10 = rest.drop 9 from rfl] at h2
            exact h2
          have hid : raL repl (c :: rest) = c :: rest := by
            rw [raL_sp_none hci hsp, raL_no_gt repl rest hng]
          refine ⟨?_, ?_⟩
          · rw [hid]
            exact hid
          · rw [hid]
            exact hnc
        | some p =>
          obtain ⟨t, after⟩ := p
          have hal := splitAtGt_after_len hsp
          obtain ⟨heq10, hgtt⟩ := splitAtGt_eq hsp
          have hdrop9 : rest.drop 9 = t ++ '>' :: after := by
            rw [show rest.drop 9 = (c :: rest).drop 10 from rfl]
            exact heq10
          have hlen9 : 9 ≤ rest.length := by
            have hlend := congrArg List.length hdrop9
            simp only [List.length_drop, List.length_append,
              List.length_cons] at hlend
            omega
          have hrest : rest = rest.take 9 ++ (t ++ '>' :: after) := by
            conv_lhs => rw [← List.take_append_drop 9 rest]
            rw [hdrop9]
          have hw1len : (rest.take 9).length = 9 := by
            rw [List.length_take]
            omega
          have hlow : lowerL (c :: rest.take 9) = "<atom:link".data := by
            have hp := hci
            rw [ciPrefix, List.isPrefixOf_iff_prefix] at hp
            obtain ⟨z, hz⟩ := hp
            rw [show (c :: rest : List Char) =
                (c :: rest.take 9) ++ (t ++ '>' :: after) from by
              rw [List.cons_append, ← hrest], lowerL_append] at hz
            have hlen : ("<atom:link".data).length =
                (lowerL (c :: rest.take 9)).length := by
              simp only [lowerL, List.length_map, List.length_cons, hw1len]
              decide
            exact ((List.append_inj hz hlen).1).symm
          have hloww1 : lowerL (rest.take 9) = "atom:link".data := by
            have h2 := hlow
            rw [show lowerL (c :: rest.take 9) =
              Char.toLower c :: lowerL (rest.take 9) from rfl, atomPat_eq] at h2
            simp only [List.cons.injEq] at h2
            exact h2.2
          have hgtw1 : '>' ∉ rest.take 9 := by
            intro hx
            have h2 : Char.toLower '>' ∈ lowerL (rest.take 9) :=
              List.mem_map_of_mem _ hx
            rw [hloww1, show Char.toLower '>' = '>' from rfl] at h2
            exact absurd h2 (by decide)
          have hsufa : after <:+ c :: rest := by
            refine ⟨(c :: rest.take 9) ++ t ++ ['>'], ?_⟩
            rw [show (c :: rest : List Char) =
              (c :: rest.take 9) ++ (t ++ '>' :: after) from by
                rw [List.cons_append, ← hrest]]
            simp [List.append_assoc]
          have hnca : containsL "</atom:link>".data (lowerL after) = false :=
            NC_suffix hsufa hnc
          have hclf : ¬ (ciPrefix "</atom:link>".data after = true) :=
            NC_no_ciPrefix hnca
          obtain ⟨hidema, hncra⟩ := ih after (by omega) hnca
          have hclfX : ¬ (ciPrefix "</atom:link>".data (raL repl after) = true) :=
            NC_no_ciPrefix hncra
          have hgtu : '>' ∉ rest.take 9 ++ t := by
            intro hx
            rcases List.mem_append.mp hx with hx | hx
            · exact hgtw1 hx
            · exact hgtt hx
          have hrest2 : rest = (rest.take 9 ++ t) ++ '>' :: after := by
            rw [List.append_assoc]
            exact hrest
          have hsegP : (c :: rest : List Char) =
              ((c :: (rest.take 9 ++ t)) ++ ['>']) ++ after := by
            rw [show (c :: rest : List Char) = c :: ((rest.take 9 ++ t) ++ '>' :: after)
              from by rw [← hrest2]]
            simp [List.append_assoc]
          have hsegNC : containsL "</atom:link>".data
              (lowerL ((c :: (rest.take 9 ++ t)) ++ ['>'])) = false :=
            NC_pref hsegP hnc
          have hsegLast : ((c :: (rest.take 9 ++ t)) ++ ['>']).getLast? =
              some '>' := List.getLast?_concat _
          by_cases hrs' : hasRelSelf t = true
          · by_cases hl' : t.getLast? = some '/'
            · rw [raL_self hci hsp hrs' hclf hl']
              refine ⟨?_, NC_repl_append hhead hltr hrC hncra⟩
              rw [raL_on_repl hR hgtR h10 hrA hrs0 hl0 (raL repl after) hclfX,
                hidema]
            · -- rel=self present, no close tag, not self-closing: no match
              have hfails : hasRelSelf (rest.take 9 ++ t) = false ∨
                  (¬ ((rest.take 9 ++ t).getLast? = some '/') ∧
                    ¬ (ciPrefix "</atom:link>".data after = true)) := by
                right
                refine ⟨?_, hclf⟩
                rw [← getLast?_suffix ⟨rest.take 9, rfl⟩ (hasRelSelf_ne_nil hrs')]
                exact hl'
              have hfailsX : hasRelSelf (rest.take 9 ++ t) = false ∨
                  (¬ ((rest.take 9 ++ t).getLast? = some '/') ∧
                    ¬ (ciPrefix "</atom:link>".data (raL repl after) = true)) := by
                right
                refine ⟨?_, hclfX⟩
                rw [← getLast?_suffix ⟨rest.take 9, rfl⟩ (hasRelSelf_ne_nil hrs')]
                exact hl'
              have hpass1 : raL repl (c :: rest) =
                  c :: ((rest.take 9 ++ t) ++ '>' :: raL repl after) := by
                rw [raL_fail_nt hci hsp hrs' hclf hl']
                conv_lhs => rw [hrest2]
                rw [raL_seg _ _ hgtu hfails]
              have hciX : ciPrefix "<atom:link".data
                  (c :: ((rest.take 9 ++ t) ++ '>' :: raL repl after)) = true := by
                rw [ciPrefix, List.isPrefixOf_iff_prefix]
                refine ⟨lowerL (t ++ '>' :: raL repl after), ?_⟩
                rw [← hlow]
                rw [show (c :: ((rest.take 9 ++ t) ++ '>' :: raL repl after)) =
                  (c :: rest.take 9) ++ (t ++ '>' :: raL repl after) from by
                    simp [List.append_assoc], lowerL_append]
                simp [lowerL, List.map_append, List.append_assoc]
              have hspX : splitAtGt ((c :: ((rest.take 9 ++ t) ++
                  '>' :: raL repl after)).drop 10) = some (t, raL repl after) := by
                rw [show (c :: ((rest.take 9 ++ t) ++ '>' :: raL repl after)) =
                  (c :: rest.take 9) ++ (t ++ '>' :: raL repl after) from by
                    simp [List.append_assoc]]
                rw [drop_append_of_le _ 10 (by simp [hw1len])]
                rw [show (c :: rest.take 9).drop 10 = [] from by
                  apply List.drop_eq_nil_of_le
                  simp [hw1len]]
                rw [List.nil_append]
                exact splitAtGt_append _ hgtt
              refine ⟨?_, ?_⟩
              · rw [hpass1, raL_fail_nt hciX hspX hrs' hclfX hl']
                conv_lhs =>
                  rw [show ((rest.take 9 ++ t) ++ '>' :: raL repl after :
                    List Char) = (rest.take 9 ++ t) ++ '>' :: raL repl after
                    from rfl]
                rw [raL_seg _ _ hgtu hfailsX, hidema]
              · rw [hpass1,
                  show (c :: ((rest.take 9 ++ t) ++ '>' :: raL repl after) :
                    List Char) =
                    ((c :: (rest.take 9 ++ t)) ++ ['>']) ++ raL repl after from by
                      simp [List.append_assoc]]
                exact containsL_close_seg hsegNC hsegLast hncra
          · -- no rel=self in the element text: no match
            have hrsu : hasRelSelf (rest.take 9 ++ t) = false := by
              cases hcon : hasRelSelf (rest.take 9 ++ t) with
              | false => rfl
              | true => exact absurd (hasRelSelf_append_left_junk hloww1 hcon) hrs'
            have hpass1 : raL repl (c :: rest) =
                c :: ((rest.take 9 ++ t) ++ '>' :: raL repl after) := by
              rw [raL_fail_rs hci hsp hrs']
              conv_lhs => rw [hrest2]
              rw [raL_seg _ _ hgtu (Or.inl hrsu)]
            have hciX : ciPrefix "<atom:link".data
                (c :: ((rest.take 9 ++ t) ++ '>' :: raL repl after)) = true := by
              rw [ciPrefix, List.isPrefixOf_iff_prefix]
              refine ⟨lowerL (t ++ '>' :: raL repl after), ?_⟩
              rw [← hlow]
              rw [show (c :: ((rest.take 9 ++ t) ++ '>' :: raL repl after)) =
                (c :: rest.take 9) ++ (t ++ '>' :: raL repl after) from by
                  simp [List.append_assoc], lowerL_append]
              simp [lowerL, List.map_append, List.append_assoc]
            have hspX : splitAtGt ((c :: ((rest.take 9 ++ t) ++
                '>' :: raL repl after)).drop 10) = some (t, raL repl after) := by
              rw [show (c :: ((rest.take 9 ++ t) ++ '>' :: raL repl after)) =
                (c :: rest.take 9) ++ (t ++ '>' :: raL repl after) from by
                  simp [List.append_assoc]]
              rw [drop_append_of_le _ 10 (by simp [hw1len])]
              rw [show (c :: rest.take 9).drop 10 = [] from by
                apply List.drop_eq_nil_of_le
                simp [hw1len]]
              rw [List.nil_append]
              exact splitAtGt_append _ hgtt
            refine ⟨?_, ?_⟩
            · rw [hpass1, raL_fail_rs hciX hspX hrs']
              conv_lhs =>
                rw [show ((rest.take 9 ++ t) ++ '>' :: raL repl after :
                  List Char) = (rest.take 9 ++ t) ++ '>' :: raL repl after
                  from rfl]
              rw [raL_seg _ _ hgtu (Or.inl hrsu), hidema]
            · rw [hpass1,
                show (c :: ((rest.take 9 ++ t) ++ '>' :: raL repl after) :
                  List Char) =
                  ((c :: (rest.take 9 ++ t)) ++ ['>']) ++ raL repl after from by
                    simp [List.append_assoc]]
              exact containsL_close_seg hsegNC hsegLast hncra
      · rw [raL_copy hci]
        obtain ⟨hidem, hnco⟩ := ih rest (by omega) hncr
        refine ⟨?_, ?_⟩
        · have hciX : ¬ (ciPrefix "<atom:link".data (c :: raL repl rest) = true) := by
            rw [ciPrefix_atom_cons r' hhead]
            exact hci
          rw [raL_copy hciX, hidem]
        · cases hcon : containsL "</atom:link>".data
              (lowerL (c :: raL repl rest)) with
          | false => rfl
          | true =>
            exfalso
            rw [show lowerL (c :: raL repl rest) =
              Char.toLower c :: lowerL (raL repl rest) from rfl] at hcon
            simp only [containsL, Bool.or_eq_true] at hcon
            rcases hcon with hcon | hcon
            · rw [show (Char.toLower c :: lowerL (raL repl rest) : List Char) =
                lowerL (c :: raL repl rest) from rfl,
                close_pref_cons r' hhead, NC_head hnc] at hcon
              exact absurd hcon (by simp)
            · rw [hcon] at hnco
              exact absurd hnco (by simp)

end XRss

namespace XRss

theorem rewriteAtomL_idem_nc {escUrl : List Char} (hgt : '>' ∉ escUrl)
    (hlt : '<' ∉ escUrl) (cs : List Char)
    (hnc : containsL "</atom:link>".data (lowerL cs) = false) :
    rewriteAtomL escUrl (rewriteAtomL escUrl cs) = rewriteAtomL escUrl cs := by
  rw [rewriteAtomL_eq_raL, rewriteAtomL_eq_raL]
  have hL2 : "\" rel=\"self\" type=\"application/rss+xml\" />".data =
      "\" rel=\"self\" type=\"application/rss+xml\" /".data ++ ['>'] := rfl
  have hR : atomRepl escUrl =
      (("<atom:link href=\"".data ++ escUrl) ++
        "\" rel=\"self\" type=\"application/rss+xml\" /".data) ++ ['>'] := by
    show ("<atom:link href=\"".data ++ escUrl) ++
      "\" rel=\"self\" type=\"application/rss+xml\" />".data = _
    rw [hL2]
    simp [List.append_assoc]
  have hhead : atomRepl escUrl = '<' ::
      ("atom:link href=\"".data ++ escUrl ++
        "\" rel=\"self\" type=\"application/rss+xml\" />".data) := by
    show ("<atom:link href=\"".data ++ escUrl) ++
      "\" rel=\"self\" type=\"application/rss+xml\" />".data = _
    rw [show "<atom:link href=\"".data =
      '<' :: "atom:link href=\"".data from rfl]
    simp [List.append_assoc]
  have hltr : '<' ∉ lowerL ("atom:link href=\"".data ++ escUrl ++
      "\" rel=\"self\" type=\"application/rss+xml\" />".data) := by
    rw [lowerL_append, lowerL_append]
    intro hx
    rcases List.mem_append.mp hx with hx | hx
    · rcases List.mem_append.mp hx with hx | hx
      · exact absurd hx (by decide)
      · exact no_lt_lowerL hlt hx
    · exact absurd hx (by decide)
  have hgtR : '>' ∉ ("<atom:link href=\"".data ++ escUrl) ++
      "\" rel=\"self\" type=\"application/rss+xml\" /".data := by
    intro hx
    rcases List.mem_append.mp hx with hx | hx
    · rcases List.mem_append.mp hx with hx | hx
      · exact absurd hx (by decide)
      · exact hgt hx
    · exact absurd hx (by decide)
  have h10 : 10 ≤ (("<atom:link href=\"".data ++ escUrl) ++
      "\" rel=\"self\" type=\"application/rss+xml\" /".data).length := by
    rw [List.length_append, List.length_append]
    exact le_trans (by decide : (10:Nat) ≤ ("<atom:link href=\"".data).length)
      (le_trans (Nat.le_add_right _ _) (Nat.le_add_right _ _))
  have hdropR : (("<atom:link href=\"".data ++ escUrl) ++
      "\" rel=\"self\" type=\"application/rss+xml\" /".data).drop 10 =
      (" href=\"".data ++ escUrl) ++
        "\" rel=\"self\" type=\"application/rss+xml\" /".data := by
    rw [drop_append_of_le _ 10 (by
      rw [List.length_append]
      exact le_trans (by decide : (10:Nat) ≤ ("<atom:link href=\"".data).length)
        (Nat.le_add_right _ _))]
    rw [drop_append_of_le _ 10
      (by decide : (10:Nat) ≤ ("<atom:link href=\"".data).length)]
    rw [show ("<atom:link href=\"".data).drop 10 = " href=\"".data from rfl]
  have hrA : ∀ X, ("<atom:link".data).isPrefixOf
      (lowerL (atomRepl escUrl ++ X)) = true := by
    intro X
    rw [show atomRepl escUrl ++ X = "<atom:link href=\"".data ++
      (escUrl ++ ("\" rel=\"self\" type=\"application/rss+xml\" />".data ++ X))
      from by show (("<atom:link href=\"".data ++ escUrl) ++ _) ++ X = _; simp [List.append_assoc]]
    rw [lowerL_append]
    exact isPrefixOf_append_left _ (by decide)
  have hrC : ∀ X, ("</atom:link>".data).isPrefixOf
      (lowerL (atomRepl escUrl ++ X)) = false := by
    intro X
    cases hcon : ("</atom:link>".data).isPrefixOf
        (lowerL (atomRepl escUrl ++ X)) with
    | false => rfl
    | true =>
      exfalso
      rw [show atomRepl escUrl ++ X = "<atom:link href=\"".data ++
        (escUrl ++ ("\" rel=\"self\" type=\"application/rss+xml\" />".data ++ X))
        from by show (("<atom:link href=\"".data ++ escUrl) ++ _) ++ X = _; simp [List.append_assoc]]
        at hcon
      rw [lowerL_append] at hcon
      have h2 := isPrefixOf_append_of_le hcon (by decide)
      revert h2
      decide
  have hrs : hasRelSelf ((("<atom:link href=\"".data ++ escUrl) ++
      "\" rel=\"self\" type=\"application/rss+xml\" /".data).drop 10) = true := by
    rw [hdropR]
    simp only [hasRelSelf, Bool.or_eq_true]
    refine Or.inl (Or.inl (Or.inl ?_))
    rw [lowerL_append]
    exact containsL_append_right _ (by decide)
  have hl : ((("<atom:link href=\"".data ++ escUrl) ++
      "\" rel=\"self\" type=\"application/rss+xml\" /".data).drop 10).getLast? =
      some '/' := by
    rw [hdropR]
    rw [show "\" rel=\"self\" type=\"application/rss+xml\" /".data =
      "\" rel=\"self\" type=\"application/rss+xml\" ".data ++ ['/'] from rfl]
    rw [← List.append_assoc]
    rw [getLast?_append_right _ (by decide)]
    rfl
  exact (raL_idem_nc hR hhead hltr hgtR h10 hrA hrC hrs hl
    cs.length cs le_rfl hnc).1

theorem insertTtlGo_cases : ∀ (fuel : Nat) (cs : List Char),
    insertTtlGo fuel cs = cs ∨
    containsL "<ttl>".data (insertTtlGo fuel cs) = true := by
  intro fuel
  induction fuel with
  | zero => intro cs; exact Or.inl rfl
  | succ g ih =>
    intro cs
    cases cs with
    | nil => exact Or.inl rfl
    | cons c rest =>
      by_cases hci : ciPrefix "<language>".data (c :: rest) = true
      · by_cases hcl : ciPrefix "</language>".data
            (((c :: rest).drop 10).dropWhile (fun x => x ≠ '<')) = true
        · right
          simp only [insertTtlGo, if_pos hci, if_pos hcl]
          rw [List.append_assoc]
          refine containsL_append_right _ ?_
          exact containsL_append_left _ (by decide)
        · simp only [insertTtlGo, if_pos hci, if_neg hcl]
          rcases ih rest with h | h
          · left; rw [h]
          · right
            simp only [containsL, Bool.or_eq_true]
            exact Or.inr h
      · simp only [insertTtlGo, if_neg hci]
        rcases ih rest with h | h
        · left; rw [h]
        · right
          simp only [containsL, Bool.or_eq_true]
          exact Or.inr h

theorem insertTtlL_idem (cs : List Char) :
    insertTtlL (insertTtlL cs) = insertTtlL cs := by
  by_cases h : containsL "<ttl>".data cs = true
  · have hid : insertTtlL cs = cs := by
      unfold insertTtlL
      rw [if_pos h]
    rw [hid, hid]
  · have h1 : insertTtlL cs = insertTtlGo cs.length cs := by
      unfold insertTtlL
      rw [if_neg h]
    rcases insertTtlGo_cases cs.length cs with h2 | h2
    · rw [h1, h2, h1, h2]
    · rw [h1]
      unfold insertTtlL
      rw [if_pos h2]

set_option maxRecDepth 20000 in
/-- C6 counterexample: the self-link rewrite is not idempotent in
general.  The regex's greedy `[^>]*` prefers the `></atom:link>`
terminator when a close tag follows, so on
`<atom:link rel="self"></atom:link></atom:link>` the first pass
replaces the element together with one close tag, leaving the second
stray `</atom:link>` directly after the replacement's `/>`; a second
pass then matches the replacement plus that close tag and swallows it,
so applying the rewrite twice differs from applying it once. -/
theorem responseRewriter_counterexample :
    rewriteAtom (escapeXml "u")
      "<atom:link rel=\"self\"></atom:link></atom:link>" =
      "<atom:link href=\"u\" rel=\"self\" type=\"application/rss+xml\" /></atom:link>" ∧
    rewriteAtom (escapeXml "u")
      "<atom:link href=\"u\" rel=\"self\" type=\"application/rss+xml\" /></atom:link>" =
      "<atom:link href=\"u\" rel=\"self\" type=\"application/rss+xml\" />" ∧
    rewriteAtom (escapeXml "u")
      (rewriteAtom (escapeXml "u")
        "<atom:link rel=\"self\"></atom:link></atom:link>") ≠
      rewriteAtom (escapeXml "u")
        "<atom:link rel=\"self\"></atom:link></atom:link>" := by
  refine ⟨rfl, rfl, ?_⟩
  decide

set_option maxRecDepth 20000 in
/-- C6 (amended): the Response Rewriter of the `GET` handler.  The
refresh-interval insertion is idempotent, and the self-link rewrite is
idempotent on every document in which `</atom:link>` does not occur
(case-insensitively) — in particular on documents whose self-link
element is self-closing, as in the spec's example; without that
proviso it is not idempotent (see the counterexample).  On the spec's
example, the mirror's self-link element is replaced by one whose
`href` attribute text is exactly the XML-escaped canonical URL, and —
the document containing no `<ttl>` — exactly one `<ttl>5</ttl>`
element is inserted immediately after the `<language>` element. -/
theorem responseRewriter_amended :
    (∀ (url cs : List Char),
      containsL "</atom:link>".data (lowerL cs) = false →
      rewriteAtomL (escapeXmlL url) (rewriteAtomL (escapeXmlL url) cs) =
        rewriteAtomL (escapeXmlL url) cs) ∧
    (∀ cs : List Char, insertTtlL (insertTtlL cs) = insertTtlL cs) ∧
    escapeXml "https://proxy.example/api/rss?type=user&username=foo" =
      "https://proxy.example/api/rss?type=user&amp;username=foo" ∧
    rewriteAtom
      (escapeXml "https://proxy.example/api/rss?type=user&username=foo")
      "<?xml version=\"1.0\"?><rss><channel><title>t</title><atom:link href=\"https://mirror.example/feed\" rel=\"self\" type=\"application/rss+xml\" /><language>en</language></channel></rss>" =
      "<?xml version=\"1.0\"?><rss><channel><title>t</title><atom:link href=\"https://proxy.example/api/rss?type=user&amp;username=foo\" rel=\"self\" type=\"application/rss+xml\" /><language>en</language></channel></rss>" ∧
    insertTtl
      "<?xml version=\"1.0\"?><rss><channel><title>t</title><atom:link href=\"https://proxy.example/api/rss?type=user&amp;username=foo\" rel=\"self\" type=\"application/rss+xml\" /><language>en</language></channel></rss>" =
      "<?xml version=\"1.0\"?><rss><channel><title>t</title><atom:link href=\"https://proxy.example/api/rss?type=user&amp;username=foo\" rel=\"self\" type=\"application/rss+xml\" /><language>en</language>\n    <ttl>5</ttl></channel></rss>" := by
  refine ⟨fun url cs hnc =>
    rewriteAtomL_idem_nc (escapeXmlL_no_gt url) (escapeXmlL_no_lt url) cs hnc,
    insertTtlL_idem, ?_, ?_, ?_⟩
  · rfl
  · rfl
  · rfl

set_option maxRecDepth 20000 in
/-- Witness for the amended C6 theorem: on a concrete document with a
self-closing self-link and no `</atom:link>` close tag, the hypothesis
of the conditional idempotence holds and the rewrite is idempotent. -/
theorem responseRewriter_amended_witness :
    containsL "</atom:link>".data
      (lowerL "<atom:link rel=\"self\" />x".data) = false ∧
    rewriteAtomL (escapeXmlL "u".data)
      (rewriteAtomL (escapeXmlL "u".data) "<atom:link rel=\"self\" />x".data) =
      rewriteAtomL (escapeXmlL "u".data) "<atom:link rel=\"self\" />x".data :=
  ⟨by decide, responseRewriter_amended.1 "u".data
    "<atom:link rel=\"self\" />x".data (by decide)⟩

end XRss
